import Mathlib

/-!
# SysToolsLib: `detab`, `strnirepl`, `ToUtf8` and `mkdirp`

A shallow embedding of `C/SRC/detab.c` (Unix build, `_DEBUG` undefined), of
`strnirepl` from `C/SysLib/stringx.c`, of `ToUtf8` from `C/SRC/chars.c` and of
`mkdirp`, `mkdir1` and `isdir` from `C/SRC/md.c` (Unix build).

* Bytes read by `fgetc` and written by `fputc` are `UInt8`.
* The C `int` column counter `col` and the `long` change counter `lnChanges`
  are modelled as unbounded naturals: the model is exact as long as a line
  stays below `2^31 - 1` columns (past that the C program overflows a signed
  integer, which the C standard leaves undefined).
* The `do ... while` loop of the tab case is run with explicit fuel; `none`
  means the fuel ran out.
* The file system is a table of directory entries over a table of inodes,
  with the library and system calls of `main` as functions on it. A call can
  also fail for a reason the tables do not show (`World.fault`).
* Output written through `df` reaches its file in one piece, when the stream
  is flushed. The program tests no result of `fputs`, `fputc` or `fclose`, and
  of `fgetc` only `EOF`: a failing write (`World.fault`) leaves a first part of
  the output in the file and a read error (`World.shortRead`) ends the reading
  early, and in both cases the run goes on as if nothing had happened. Output
  to standard output is taken to arrive.
* Memory allocation and `fdopen` succeed; the message stream `mf` and the
  texts printed on it are recorded as `Msg` values only.
* For `strnirepl` a C string is the list of its bytes before the terminating
  NUL, the result buffer is the list of its `lResultBuffer` bytes, `pszOut` is
  an index into it and `pszIn` the rest of the source still to read; the
  source and replacement strings do not overlap the buffer. The `while` loop
  runs with explicit fuel.
* For `ToUtf8` the argument is a natural number below `2^32` (an `unsigned
  int`), the buffer a list of bytes and `b` an index into it.
* For `mkdirp` the path is the list of its bytes before the NUL and `pc` an
  index into it. The file system of `md` is a tree of directories and regular
  files, each at its place; it holds no symbolic links, so that `lstat` never
  reports one and the branch of `isdir` for links is not taken. Path
  resolution looks a component up in a directory only; access rights are not
  modelled, but `mkdir` can fail for a reason the tree does not show
  (`FS.fault`). The loop of `mkdirp` runs with explicit fuel.
-/

namespace Detab

/-- The tab byte `'\t'`. -/
def TAB : UInt8 := 9

/-- The newline byte `'\n'`. -/
def NL : UInt8 := 10

/-- The space byte `' '`. -/
def SPACE : UInt8 := 32

/-- The form feed byte `'\x0C'`. -/
def FF : UInt8 := 12

/-- The tab case of the main loop (detab.c lines 369-372):
`do { fputc(' ', df); col++; } while (((col-1) % n) != 0);`
Returns the column reached and the bytes written. The first argument after
`n` is the fuel: one unit per iteration of the loop body. -/
def tabLoop (n : Nat) : Nat → Nat → Option (Nat × List UInt8)
  | 0, _ => none
  | fuel + 1, col =>
    if ((col + 1) - 1) % n ≠ 0 then
      match tabLoop n fuel (col + 1) with
      | some (col', out) => some (col', SPACE :: out)
      | none => none
    else some (col + 1, [SPACE])

/-- What the main loop has produced: the bytes written to `df`, the final
column counter and the number of tabs converted (`lnChanges`). -/
structure Expanded where
  out : List UInt8
  col : Nat
  lnChanges : Nat
  deriving DecidableEq, Repr

/-- The main loop (detab.c lines 366-384), `while ((c = fgetc(sf)) != EOF)`,
over the bytes still to be read, from column `col` with `chg` tabs converted
so far. `fuel` is handed to every run of the inner `do ... while`. -/
def detabLoop (fuel n : Nat) : List UInt8 → Nat → Nat → Option Expanded
  | [], col, chg => some ⟨[], col, chg⟩
  | c :: rest, col, chg =>
    if c = TAB then
      match tabLoop n fuel col with
      | none => none
      | some (col', sp) =>
        match detabLoop fuel n rest col' (chg + 1) with
        | none => none
        | some r => some ⟨sp ++ r.out, r.col, r.lnChanges⟩
    else if c = NL then
      match detabLoop fuel n rest 1 chg with
      | none => none
      | some r => some ⟨NL :: r.out, r.col, r.lnChanges⟩
    else
      match detabLoop fuel n rest (col + 1) chg with
      | none => none
      | some r => some ⟨c :: r.out, r.col, r.lnChanges⟩

/-- The whole transform as `main` runs it: `col = 1`, `lnChanges = 0`. -/
def detab (fuel n : Nat) (input : List UInt8) : Option Expanded :=
  detabLoop fuel n input 1 0

/-- The bytes `detab` writes, when it returns. -/
def expand (fuel n : Nat) (input : List UInt8) : Option (List UInt8) :=
  (detab fuel n input).map Expanded.out

/-- The column-stop expansion as the specification words it: walk the input
with a 1-based column counter; a tab becomes `N - ((col-1) mod N)` spaces, a
newline is copied and resets the counter to 1, any other byte is copied and
advances the counter by 1. -/
def specExpand (N : Nat) : Nat → List UInt8 → List UInt8
  | _, [] => []
  | col, c :: rest =>
    if c = TAB then
      List.replicate (N - (col - 1) % N) SPACE
        ++ specExpand N (col + (N - (col - 1) % N)) rest
    else if c = NL then NL :: specExpand N 1 rest
    else c :: specExpand N (col + 1) rest

/-- The column counter of the specification after walking the input. -/
def specCol (N : Nat) : Nat → List UInt8 → Nat
  | col, [] => col
  | col, c :: rest =>
    if c = TAB then specCol N (col + (N - (col - 1) % N)) rest
    else if c = NL then specCol N 1 rest
    else specCol N (col + 1) rest

/-- Number of bytes the main loop writes for a run of `k` consecutive tabs
met at column `C`. -/
def tabRunLength (fuel N C k : Nat) : Option Nat :=
  (detabLoop fuel N (List.replicate k TAB) C 0).map (fun r => r.out.length)

/-! ## C library and SysLib helpers used by `main` -/

/-- The `streq` macro of SysToolsLib (`!strcmp(a, b)`). -/
def streq (a b : String) : Bool := a = b

/-- The `strieq` macro of SysToolsLib (`!stricmp(a, b)`): equality up to the
case of ASCII letters. -/
def strieq (a b : String) : Bool := a.data.map Char.toLower = b.data.map Char.toLower

/-- File name comparison routine of the Unix build: `#define SAMENAME streq`. -/
def SAMENAME (a b : String) : Bool := streq a b

/-- The directory separator of the Unix build: `DIRSEPARATOR_STRING`. -/
def DIRSEPARATOR_STRING : String := "/"

/-- Modelled from the spec: `IsSwitch` lives in SysLib (`mainutil`), which is
not part of the sources at hand. The specification describes it as the
"switch/flag parser that recognizes leading `-`/`--` prefixed tokens"; a lone
`-` is not a switch, since `main` takes it as the name of stdin or stdout. -/
def IsSwitch (arg : String) : Bool :=
  match arg.data with
  | '-' :: _ :: _ => true
  | _ => false

/-- C library `isspace` in the "C" locale. -/
def isspace (c : Char) : Bool :=
  c = ' ' || c = '\t' || c = '\n' || c = '\x0b' || c = '\x0c' || c = '\r'

/-- The digits loop of `atoi`. -/
def atoiDigits : List Char → Int → Int
  | [], acc => acc
  | c :: cs, acc =>
    if c.isDigit then atoiDigits cs (acc * 10 + ((c.toNat - 48 : Nat) : Int)) else acc

/-- C library `atoi`: optional white space, optional sign, decimal digits.
The result is not reduced to the range of `int` (out of range is undefined
in C). -/
def atoi (s : String) : Int :=
  match s.data.dropWhile isspace with
  | '-' :: cs => - atoiDigits cs 0
  | '+' :: cs => atoiDigits cs 0
  | cs => atoiDigits cs 0

/-- A path without its trailing slashes. -/
def stripTrailingSlashes (cs : List Char) : List Char :=
  (cs.reverse.dropWhile (fun c => c = '/')).reverse

/-- POSIX `dirname`. -/
def dirname (path : String) : String :=
  match stripTrailingSlashes path.data with
  | [] => if path.data = [] then "." else "/"
  | cs =>
    match cs.reverse.dropWhile (fun c => c ≠ '/') with
    | [] => "."
    | d =>
      match d.dropWhile (fun c => c = '/') with
      | [] => "/"
      | d' => String.mk d'.reverse

/-- POSIX `basename`. -/
def basename (path : String) : String :=
  match stripTrailingSlashes path.data with
  | [] => if path.data = [] then "." else "/"
  | cs => String.mk (cs.reverse.takeWhile (fun c => c ≠ '/')).reverse

/-- The split `strrchr(pszBaseName, '.')` finds: the text before the last dot
and the extension from that dot on; `none` when there is no dot. -/
def splitExt (base : String) : Option (String × String) :=
  let r := base.data.reverse
  let extRev := r.takeWhile (fun c => c ≠ '.')
  if extRev.length = r.length then none
  else some (String.mk (r.drop (extRev.length + 1)).reverse,
             String.mk ('.' :: extRev.reverse))

/-! ## The file system the program runs against -/

/-- File type mask `S_IFMT`. -/
def S_IFMT : Nat := 0o170000

/-- File type of a regular file, `S_IFREG`. -/
def S_IFREG : Nat := 0o100000

/-- The `S_ISREG` macro. -/
def S_ISREG (mode : Nat) : Bool := (mode &&& S_IFMT) = S_IFREG

/-- What an inode holds: the data, the mode (type and permission bits) and the
access and modification times. -/
structure Inode where
  content : List UInt8
  st_mode : Nat
  st_atime : Nat
  st_mtime : Nat
  deriving DecidableEq, Repr

/-- The record `stat` fills (`struct stat`), `{0}` by default. -/
structure Stat where
  st_ino : Nat := 0
  st_mode : Nat := 0
  st_size : Nat := 0
  st_atime : Nat := 0
  st_mtime : Nat := 0
  deriving DecidableEq, Repr

/-- The calls of `main` that open, create or change files. `write` stands for
the calls `fputs`, `fputc` and `fclose` on `df` taken together: the output of
the main loop on its way to the file behind `df` (at the latest when `fclose`
flushes it). -/
inductive Call where
  | fopen (path : Option String) (mode : String)
  | mkstemp (template : String)
  | write (ino : Nat) (bytes : List UInt8)
  | unlink (path : String)
  | rename (oldp newp : String)
  | chmod (path : String) (mode : Nat)
  | utime (path : String) (actime modtime : Nat)
  deriving DecidableEq, Repr

/-- The state of the machine outside the process.
* `canon` gives the canonical absolute name of the directory entry a path
  string designates (current directory, `.` and `..`, symbolic links resolved);
* `dir` maps canonical names to inode numbers: two names with one inode number
  are hard links;
* `inode` is the inode table, `nextIno` the number of the next inode created;
* `now` is the time stamped on what the run writes;
* `tmpTags` are the six-character endings `mkstemp` tries in turn;
* `newFileMode` is the mode of a file created by `fopen` (0666 less the umask,
  with the regular-file type);
* `fault` tells which calls fail for a reason outside this model (permission,
  I/O error, quota, a full disk);
* `stdin` is what standard input holds;
* `shortWrite` is the number of bytes of its output that a failing `write`
  still leaves in the file;
* `shortRead`, when it is `some k`, is a read error after `k` bytes of the
  source: from there on `fgetc` returns `EOF`. -/
structure World where
  canon : String → String
  dir : String → Option Nat
  inode : Nat → Option Inode
  nextIno : Nat
  now : Nat
  tmpTags : List String
  newFileMode : Nat
  fault : Call → Bool
  stdin : List UInt8
  shortWrite : Nat
  shortRead : Option Nat

/-- The inode number behind a path, if the path exists. -/
def World.lookup (w : World) (path : String) : Option Nat := w.dir (w.canon path)

/-- The bytes visible at a path, if the path exists. -/
def World.contentAt (w : World) (path : String) : Option (List UInt8) :=
  match w.lookup path with
  | none => none
  | some i => (w.inode i).map Inode.content

/-- The world with the directory entry `key` set to `v`. -/
def World.setDir (w : World) (key : String) (v : Option Nat) : World :=
  { w with dir := fun k => if k = key then v else w.dir k }

/-- The world with inode `i` set to `v`. -/
def World.setInode (w : World) (i : Nat) (v : Inode) : World :=
  { w with inode := fun j => if j = i then some v else w.inode j }

/-- System call `stat`: follows the path to its inode. -/
def World.stat (w : World) (path : String) : Option Stat :=
  match w.lookup path with
  | none => none
  | some i =>
    match w.inode i with
    | none => none
    | some f => some ⟨i, f.st_mode, f.content.length, f.st_atime, f.st_mtime⟩

/-- C library `realpath(path, NULL)`: the canonical name of an existing path,
`NULL` for one that does not exist. -/
def World.realpath (w : World) (path : String) : Option String :=
  match w.lookup path with
  | none => none
  | some _ => some (w.canon path)

/-- The calls `fopen(path, "rb")` and `fopen(path, "r+")`: the file must exist; nothing
changes. Returns the inode opened. -/
def World.fopenExisting (w : World) (path mode : String) : Option Nat :=
  if w.fault (.fopen (some path) mode) then none else w.lookup path

/-- The call `fopen(path, "wb")`: an existing file is truncated, a missing one is
created. Returns the new world and the inode opened. -/
def World.fopenWrite (w : World) (path : String) : World × Option Nat :=
  if w.fault (.fopen (some path) "wb") then (w, none)
  else
    match w.lookup path with
    | some i =>
      match w.inode i with
      | some f => (w.setInode i { f with content := [], st_mtime := w.now }, some i)
      | none => (w, none)
    | none =>
      let i := w.nextIno
      ({ (w.setDir (w.canon path) (some i)).setInode i ⟨[], w.newFileMode, w.now, w.now⟩
          with nextIno := i + 1 }, some i)

/-- The first ending of `tags` that makes `stem ++ tag` a name not in use. -/
def World.freeName (w : World) (stem : String) : List String → Option String
  | [] => none
  | tag :: tags =>
    if (w.lookup (stem ++ tag)).isNone then some (stem ++ tag) else w.freeName stem tags

/-- The world with a new empty file of mode 0600 under `name`, on the inode
`w.nextIno`. -/
def World.withTemp (w : World) (name : String) : World :=
  { (w.setDir (w.canon name) (some w.nextIno)).setInode w.nextIno
      ⟨[], S_IFREG ||| 0o600, w.now, w.now⟩ with nextIno := w.nextIno + 1 }

/-- The call `mkstemp(template)` for a template `stem ++ "XXXXXX"`: creates an empty
file of mode 0600 under a name not in use. Returns the new world, the name
chosen and the inode. -/
def World.mkstemp (w : World) (stem : String) : World × Option (String × Nat) :=
  if w.fault (.mkstemp (stem ++ "XXXXXX")) then (w, none)
  else
    match w.freeName stem w.tmpTags with
    | none => (w, none)
    | some name => (w.withTemp name, some (name, w.nextIno))

/-- The world with `bytes` added to the data of inode `i`. -/
def World.store (w : World) (i : Nat) (bytes : List UInt8) : World :=
  match w.inode i with
  | none => w
  | some f => w.setInode i { f with content := f.content ++ bytes, st_mtime := w.now }

/-- What reaches the file when `bytes` are written through a stream on inode
`i`: all of them, or only the first `shortWrite` when the writing fails. -/
def World.stored (w : World) (i : Nat) (bytes : List UInt8) : List UInt8 :=
  if w.fault (.write i bytes) then bytes.take w.shortWrite else bytes

/-- Writing `bytes` through the stream `df` on inode `i` (`fputs`, `fputc`,
`fclose`): the bytes reach the inode, unless the writing fails (an I/O error, a
full disk), which leaves only a first part of them there. Returns the new world
and whether the writing succeeded. -/
def World.write (w : World) (i : Nat) (bytes : List UInt8) : World × Bool :=
  (w.store i (w.stored i bytes), !w.fault (.write i bytes))

/-- How `unlink` ended: success, `ENOENT`, or another error. -/
inductive UnlinkResult where
  | ok
  | enoent
  | failed
  deriving DecidableEq, Repr

/-- System call `unlink`: removes the directory entry; the inode lives on for
its other names and for open streams. -/
def World.unlink (w : World) (path : String) : World × UnlinkResult :=
  if w.fault (.unlink path) then (w, .failed)
  else
    match w.lookup path with
    | none => (w, .enoent)
    | some _ => (w.setDir (w.canon path) none, .ok)

/-- System call `rename`: the entry `oldp` takes the place of `newp`. When both
name the same inode nothing happens. Returns the new world and whether the call
succeeded. -/
def World.rename (w : World) (oldp newp : String) : World × Bool :=
  if w.fault (.rename oldp newp) then (w, false)
  else
    match w.lookup oldp with
    | none => (w, false)
    | some i =>
      if w.lookup newp = some i then (w, true)
      else ((w.setDir (w.canon newp) (some i)).setDir (w.canon oldp) none, true)

/-- System call `chmod`: sets the permission bits, keeps the file type. -/
def World.chmod (w : World) (path : String) (mode : Nat) : World × Bool :=
  if w.fault (.chmod path mode) then (w, false)
  else
    match w.lookup path with
    | none => (w, false)
    | some i =>
      match w.inode i with
      | none => (w, false)
      | some f =>
        (w.setInode i { f with st_mode := (f.st_mode &&& S_IFMT) ||| (mode &&& 0o7777) }, true)

/-- System call `utime`: sets the access and modification times. -/
def World.utime (w : World) (path : String) (actime modtime : Nat) : World × Bool :=
  if w.fault (.utime path actime modtime) then (w, false)
  else
    match w.lookup path with
    | none => (w, false)
    | some i =>
      match w.inode i with
      | none => (w, false)
      | some f => (w.setInode i { f with st_atime := actime, st_mtime := modtime }, true)

/-! ## `IsSameFile` and `file_exists` -/

/-- The routine `IsSameFile` (detab.c lines 508-575), Unix build.
`bDone = stat(...) + 1` is 1 when the path exists and 0 when it does not;
`memcmp(&attr1, &attr2, sizeof(attr1))` compares the two `stat` records. -/
def IsSameFile (w : World) (pszPathname1 pszPathname2 : String) : Bool :=
  if streq pszPathname1 pszPathname2 then true
  else
    let attr1 := w.stat pszPathname1
    let attr2 := w.stat pszPathname2
    let bDone1 := attr1.isSome
    let bDone2 := attr2.isSome
    if bDone1 ≠ bDone2 then false
    else if !bDone1 && SAMENAME pszPathname1 pszPathname2 then true
    else if bDone1 && attr1 ≠ attr2 then false
    else
      match w.realpath pszPathname1, w.realpath pszPathname2 with
      | some pszBuf1, some pszBuf2 => SAMENAME pszBuf1 pszBuf2
      | _, _ => false

/-- The routine `file_exists` (detab.c lines 594-604): the path exists and is a regular
file. -/
def file_exists (w : World) (pszName : String) : Bool :=
  match w.stat pszName with
  | none => false
  | some st => S_ISREG st.st_mode

/-! ## `main` -/

/-- The texts `main` prints (usage, version, errors, the verbose report),
whatever the stream. The error text of `strerror` is left out. -/
inductive Msg where
  | usage
  | version
  | invalidSwitch (arg : String)
  | tabsRange
  | cantOpen (name : String)
  | cantWrite (name : Option String)
  | cantCreateTemp (template : String)
  | cantBackupFile (name : String)
  | cantDelete (name : String)
  | cantBackup (name : String)
  | cantCreate (name : String)
  | tabsRemoved (count : Nat)
  deriving DecidableEq, Repr

/-- The variables `main` sets while it reads its arguments. -/
structure Options where
  n : Int := 8
  append : Bool := false
  pszInName : Option String := none
  pszOutName : Option String := none
  iBackup : Bool := false
  iSameFile : Bool := false
  iCopyTime : Bool := false
  iVerbose : Bool := false
  deriving DecidableEq, Repr

/-- How the argument loop ends: `return 0` / `exit(0)` after the usage or the
version text, or on to the rest of `main`. -/
inductive Parsed where
  | exit0 (msgs : List Msg)
  | run (o : Options) (msgs : List Msg)
  deriving DecidableEq, Repr

/-- The argument loop (detab.c lines 218-280) over `argv[1..]`. -/
def parseArgs : List String → Options → List Msg → Parsed
  | [], o, msgs => .run o msgs
  | pszArg :: rest, o, msgs =>
    if IsSwitch pszArg then
      let pszOpt := String.mk (pszArg.data.drop 1)
      if strieq pszOpt "?" || strieq pszOpt "h" || strieq pszOpt "-help" then
        .exit0 (msgs ++ [.usage])
      else if strieq pszOpt "a" then parseArgs rest { o with append := true } msgs
      else if strieq pszOpt "b" || strieq pszOpt "bak" || strieq pszOpt "-bak" then
        parseArgs rest { o with iBackup := true } msgs
      else if streq pszOpt "=" || strieq pszOpt "same" || strieq pszOpt "-same" then
        parseArgs rest { o with iSameFile := true } msgs
      else if strieq pszOpt "st" then parseArgs rest { o with iCopyTime := true } msgs
      else if strieq pszOpt "t" then
        match rest with
        | [] => .run o msgs
        | v :: rest' => parseArgs rest' { o with n := atoi v } msgs
      else if streq pszOpt "v" then parseArgs rest { o with iVerbose := true } msgs
      else if streq pszOpt "V" then .exit0 (msgs ++ [.version])
      else parseArgs rest o (msgs ++ [.invalidSwitch pszArg])
    else if o.pszInName.isNone then parseArgs rest { o with pszInName := some pszArg } msgs
    else if o.pszOutName.isNone then parseArgs rest { o with pszOutName := some pszArg } msgs
    else parseArgs rest { o with n := atoi pszArg } msgs

/-- A `FILE *` of `main`: standard input, standard output, or a stream on the
file with the given inode. -/
inductive Stream where
  | stdin
  | stdout
  | file (ino : Nat)
  deriving DecidableEq, Repr

/-- One call made, whether it succeeded, and the world it left. -/
structure Event where
  call : Call
  ok : Bool
  after : World

/-- What the process has done so far: the world, the calls made in order, the
texts printed and the bytes written to standard output through `df`. -/
structure Run where
  w : World
  trace : List Event
  msgs : List Msg
  stdout : List UInt8

/-- How the process ends: an exit status, or a null pointer handed to the C
library (`undefined`). -/
inductive Status where
  | exit (code : Nat)
  | undefined
  deriving DecidableEq, Repr

/-- A finished run. -/
structure Outcome extends Run where
  status : Status

/-- Record a call and the world it leaves. -/
def Run.log (r : Run) (c : Call) (ok : Bool) (w : World) : Run :=
  { r with w := w, trace := r.trace ++ [⟨c, ok, w⟩] }

/-- Record a printed text. -/
def Run.say (r : Run) (m : Msg) : Run := { r with msgs := r.msgs ++ [m] }

/-- End the process with a status. -/
def Run.finish (r : Run) (s : Status) : Outcome := { toRun := r, status := s }

/-- The routine `fail` (detab.c lines 130-140): print the error, `exit(2)`. -/
def Run.fail (r : Run) (m : Msg) : Outcome := (r.say m).finish (.exit 2)

/-- The local variables of `main` once the arguments are read. `df = none` is
the null `FILE *`. -/
structure Locals where
  n : Nat
  append : Bool
  iVerbose : Bool
  iCopyTime : Bool
  iBackup : Bool
  iSameFile : Bool
  pszInName : Option String
  pszOutName : Option String
  sf : Stream := .stdin
  df : Option Stream := none
  sInTime : Stat := {}
  pszTmpName : String := ""
  szBakName : String := ""
  lnChanges : Nat := 0

/-- Opening the source (detab.c lines 294-301). -/
def openSource (r : Run) (v : Locals) : Except Outcome (Run × Locals) :=
  match v.pszInName with
  | none => .ok (r, { v with sf := .stdin, iSameFile := false })
  | some pszInName =>
    if streq pszInName "-" then .ok (r, { v with sf := .stdin, iSameFile := false })
    else
      match r.w.fopenExisting pszInName "rb" with
      | none => .error ((r.log (.fopen (some pszInName) "rb") false r.w).fail (.cantOpen pszInName))
      | some i =>
        .ok (r.log (.fopen (some pszInName) "rb") true r.w,
             { v with sf := .file i, sInTime := (r.w.stat pszInName).getD {} })

/-- Choosing the destination (detab.c lines 302-312). `none` is the call
`IsSameFile(NULL, pszOutName)`, which the argument loop rules out. -/
def resolveTarget (w : World) (v : Locals) : Option Locals :=
  match v.pszOutName with
  | none =>
    if !v.iSameFile then some { v with df := some .stdout }
    else some { v with pszOutName := v.pszInName }
  | some pszOutName =>
    if streq pszOutName "-" then some { v with iSameFile := false, df := some .stdout }
    else
      match v.pszInName with
      | none => none
      | some pszInName =>
        some { v with
          iSameFile := IsSameFile w pszInName pszOutName
          iBackup := if v.iBackup && !file_exists w pszOutName then false else v.iBackup }

/-- The name of the backup file (detab.c lines 334-351): the directory of the
destination, the separator, the base name without its extension, `.bak`.
`none` when the extension is `.bak` already. -/
def bakName (pszOutName : String) : Option String :=
  let pszDirName := dirname pszOutName
  let pszBaseName := basename pszOutName
  match splitExt pszBaseName with
  | some (stem, ext) =>
    if SAMENAME ext ".bak" then none
    else some (pszDirName ++ DIRSEPARATOR_STRING ++ stem ++ ".bak")
  | none => some (pszDirName ++ DIRSEPARATOR_STRING ++ pszBaseName ++ ".bak")

/-- Opening the destination (detab.c lines 313-362): through a temporary file
when `iSameFile || iBackup`, else directly unless `df` is set already. -/
def openTarget (r : Run) (v : Locals) : Except Outcome (Run × Locals) :=
  if v.iSameFile || v.iBackup then
    match v.pszOutName with
    | none => .error ((r.log (.fopen none "r+") false r.w).finish .undefined)
    | some pszOutName =>
      match r.w.fopenExisting pszOutName "r+" with
      | none =>
        .error ((r.log (.fopen (some pszOutName) "r+") false r.w).fail
          (.cantWrite (some pszOutName)))
      | some _ =>
        let r1 := r.log (.fopen (some pszOutName) "r+") true r.w
        let stem := dirname pszOutName ++ DIRSEPARATOR_STRING ++ "dt"
        let m := r1.w.mkstemp stem
        match m.2 with
        | none =>
          .error ((r1.log (.mkstemp (stem ++ "XXXXXX")) false m.1).fail
            (.cantCreateTemp (stem ++ "XXXXXX")))
        | some (pszTmpName, i) =>
          let r2 := r1.log (.mkstemp (stem ++ "XXXXXX")) true m.1
          let v2 := { v with df := some (.file i), pszTmpName := pszTmpName }
          if v.iBackup then
            match bakName pszOutName with
            | none => .error (r2.fail (.cantBackupFile pszOutName))
            | some szBakName => .ok (r2, { v2 with szBakName := szBakName })
          else .ok (r2, v2)
  else
    match v.df with
    | some _ => .ok (r, v)
    | none =>
      match v.pszOutName with
      | none => .error ((r.log (.fopen none "wb") false r.w).finish .undefined)
      | some pszOutName =>
        let f := r.w.fopenWrite pszOutName
        match f.2 with
        | none =>
          .error ((r.log (.fopen (some pszOutName) "wb") false f.1).fail
            (.cantWrite (some pszOutName)))
        | some i =>
          .ok (r.log (.fopen (some pszOutName) "wb") true f.1, { v with df := some (.file i) })

/-- What `fgetc` delivers from a stream holding `data` until it returns `EOF`:
all of `data`, or only its first `k` bytes when a read error strikes there
(`shortRead = some k`). `EOF` is all the main loop tests; `ferror` is not
called, so an error ends the reading as the end of the data does. -/
def World.readable (w : World) (data : List UInt8) : List UInt8 :=
  match w.shortRead with
  | none => data
  | some k => data.take k

/-- What `fgetc(sf)` delivers until `EOF`. -/
def sourceBytes (w : World) : Stream → List UInt8
  | .stdin => w.readable w.stdin
  | .stdout => []
  | .file i =>
    match w.inode i with
    | none => []
    | some f => w.readable f.content

/-- The form feed of append mode and the main loop (detab.c lines 364-388).
`none` when the fuel of the main loop runs out. The results of `fputs`, `fputc`
and `fclose` are not looked at: after a failed write the run goes on. -/
def transform (fuel : Nat) (r : Run) (v : Locals) : Option (Run × Locals) :=
  match detabLoop fuel v.n (sourceBytes r.w v.sf) 1 0 with
  | none => none
  | some e =>
    let bytes := (if v.append then [FF] else []) ++ e.out
    let v' := { v with lnChanges := e.lnChanges }
    match v.df with
    | some .stdout => some ({ r with stdout := r.stdout ++ bytes }, v')
    | some (.file i) =>
      let f := r.w.write i bytes
      some (r.log (.write i bytes) f.2 f.1, v')
    | _ => some (r, v')

/-- A call of `rename` with its check: `fail` with the text `m` when it
returns -1 (detab.c lines 403-406 and 417-420). -/
def renameOrFail (r : Run) (oldp newp : String) (m : Msg) : Except Outcome Run :=
  let b := r.w.rename oldp newp
  let r1 := r.log (.rename oldp newp) b.2 b.1
  if b.2 then .ok r1 else .error (r1.fail m)

/-- Making the `*.bak` file (detab.c lines 394-406): `unlink(szBakName)`, fatal
unless it succeeds or reports `ENOENT`, then `rename(pszOutName, szBakName)`. -/
def backupOld (r : Run) (pszOutName szBakName : String) : Except Outcome Run :=
  let u := r.w.unlink szBakName
  let r1 := r.log (.unlink szBakName) (u.2 = .ok) u.1
  if u.2 = .failed then .error (r1.fail (.cantDelete szBakName))
  else renameOrFail r1 pszOutName szBakName (.cantBackup pszOutName)

/-- Removing the original without a backup (detab.c lines 407-415):
`unlink(pszInName)`, fatal when it returns -1. -/
def removeOld (r : Run) (pszInName : String) : Except Outcome Run :=
  let u := r.w.unlink pszInName
  let r1 := r.log (.unlink pszInName) (u.2 = .ok) u.1
  if u.2 = .ok then .ok r1 else .error (r1.fail (.cantDelete pszInName))

/-- Putting the new file in place (detab.c lines 393-421). -/
def publish (r : Run) (v : Locals) : Except Outcome Run :=
  if v.iSameFile || v.iBackup then
    match v.pszOutName with
    | none => .error (r.finish .undefined)
    | some pszOutName =>
      let moved : Except Outcome Run :=
        if v.iBackup then backupOld r pszOutName v.szBakName
        else
          match v.pszInName with
          | none => .error (r.finish .undefined)
          | some pszInName => removeOld r pszInName
      match moved with
      | .error e => .error e
      | .ok r2 => renameOrFail r2 v.pszTmpName pszOutName (.cantCreate pszOutName)
  else .ok r

/-- Copying the file mode flags (detab.c lines 423-429); the result of `chmod`
is not looked at. -/
def copyMode (r : Run) (v : Locals) : Run :=
  match v.df, v.pszOutName with
  | some (.file _), some pszOutName =>
    let c := r.w.chmod pszOutName v.sInTime.st_mode
    r.log (.chmod pszOutName v.sInTime.st_mode) c.2 c.1
  | _, _ => r

/-- Copying the time stamp (detab.c lines 431-438). -/
def copyTime (r : Run) (v : Locals) : Run :=
  let iCopyTime := if v.lnChanges = 0 then true else v.iCopyTime
  match v.df, v.pszOutName with
  | some (.file _), some pszOutName =>
    if v.sf ≠ .stdin && iCopyTime then
      let t := r.w.utime pszOutName v.sInTime.st_atime v.sInTime.st_mtime
      r.log (.utime pszOutName v.sInTime.st_atime v.sInTime.st_mtime) t.2 t.1
    else r
  | _, _ => r

/-- The verbose report and `return 0` (detab.c lines 441-443). -/
def finish0 (r : Run) (v : Locals) : Outcome :=
  (if v.iVerbose then r.say (.tabsRemoved v.lnChanges) else r).finish (.exit 0)

/-- After the main loop (detab.c lines 390-443). -/
def finalize (r : Run) (v : Locals) : Outcome :=
  if v.iSameFile && v.lnChanges = 0 then
    let u := r.w.unlink v.pszTmpName
    finish0 (r.log (.unlink v.pszTmpName) (u.2 = .ok) u.1) v
  else
    match publish r v with
    | .error e => e
    | .ok r1 => finish0 (copyTime (copyMode r1 v) v) v

/-- From the opening of the destination to the end of `main` (detab.c lines
313-443). -/
def writeOut (fuel : Nat) (r : Run) (v : Locals) : Option Outcome :=
  match openTarget r v with
  | .error e => some e
  | .ok (r3, v3) =>
    match transform fuel r3 v3 with
    | none => none
    | some (r4, v4) => some (finalize r4 v4)

/-- The local variables of `main` as the argument loop leaves them. -/
def Options.locals (o : Options) : Locals :=
  { n := o.n.toNat, append := o.append, iVerbose := o.iVerbose, iCopyTime := o.iCopyTime,
    iBackup := o.iBackup, iSameFile := o.iSameFile, pszInName := o.pszInName,
    pszOutName := o.pszOutName }

/-- The function `main` from the tab width check on (detab.c lines 282-443). -/
def mainRun (fuel : Nat) (r : Run) (o : Options) : Option Outcome :=
  if o.n < 1 ∨ o.n > 32 then some ((r.say .tabsRange).finish (.exit 1))
  else
    match openSource r o.locals with
    | .error e => some e
    | .ok (r1, v1) =>
      match resolveTarget r1.w v1 with
      | none => some (r1.finish .undefined)
      | some v2 => writeOut fuel r1 v2

/-- The program `detab`: `main` (detab.c lines 181-448) run in the world `w` on
the arguments `argv[1..]`. `none` when the fuel of the main loop runs out. -/
def main (fuel : Nat) (w : World) (args : List String) : Option Outcome :=
  match parseArgs args {} [] with
  | .exit0 msgs => some ⟨⟨w, [], msgs, []⟩, .exit 0⟩
  | .run o msgs => mainRun fuel ⟨w, [], msgs, []⟩ o

/-! ## Concrete worlds for the examples -/

/-- Path resolution with `/d` as the current directory: absolute names stand
for themselves, `./x` and `x` for `/d/x`. -/
def canonD (p : String) : String :=
  match p.data with
  | '/' :: _ => p
  | '.' :: '/' :: cs => "/d/" ++ String.mk cs
  | _ => "/d/" ++ p

/-- A world with the given directory entries and inodes, `/d` as current
directory, no failing call and an empty standard input. -/
def worldOf (entries : List (String × Nat)) (inodes : List (Nat × Inode)) : World where
  canon := canonD
  dir := fun k => (entries.lookup k)
  inode := fun i => (inodes.lookup i)
  nextIno := 100
  now := 5000
  tmpTags := ["AAAAAA", "BBBBBB"]
  newFileMode := 0o100644
  fault := fun _ => false
  stdin := []
  shortWrite := 0
  shortRead := none

/-- A regular file with mode 0644, read at time 100 and written at time 200. -/
def fileOf (content : List UInt8) : Inode := ⟨content, 0o100644, 100, 200⟩

/-- Two files in `/d`: `a.txt` holding `"a\tb\n"` and `c.txt` holding `"x"`. -/
def worldAC : World :=
  worldOf [("/d/a.txt", 1), ("/d/c.txt", 2)] [(1, fileOf [97, 9, 98, 10]), (2, fileOf [120])]

/-- One file holding `"a\tb\n"` under two names, `/d/a.txt` and `/d/b.txt`:
two hard links to inode 1. -/
def worldLinks : World :=
  worldOf [("/d/a.txt", 1), ("/d/b.txt", 1)] [(1, fileOf [97, 9, 98, 10])]

/-- Three files in `/d`: `a.txt` holding `"a\tb\n"`, `c.txt` holding `"x"` and an
earlier backup `c.bak` holding `"old"`. -/
def worldBak : World :=
  worldOf [("/d/a.txt", 1), ("/d/c.txt", 2), ("/d/c.bak", 3)]
    [(1, fileOf [97, 9, 98, 10]), (2, fileOf [120]), (3, fileOf [111, 108, 100])]

/-- The world `worldAC` in which every `chmod` fails (the files belong to
another user, say). -/
def worldNoChmod : World :=
  { worldAC with fault := fun c => match c with
                                  | .chmod _ _ => true
                                  | _ => false }

/-- One file `a.txt` of mode 0600 holding `"a\tb\n"`, in a world where every
`chmod` fails. -/
def worldPrivate : World :=
  { worldOf [("/d/a.txt", 1)] [(1, ⟨[97, 9, 98, 10], 0o100600, 100, 200⟩)] with
    fault := fun c => match c with
                      | .chmod _ _ => true
                      | _ => false }

/-- The world `worldAC` in which every `unlink` fails. -/
def worldNoUnlink : World :=
  { worldAC with fault := fun c => match c with
                                  | .unlink _ => true
                                  | _ => false }

/-- The world `worldAC` in which every `rename` fails. -/
def worldNoRename : World :=
  { worldAC with fault := fun c => match c with
                                  | .rename _ _ => true
                                  | _ => false }

/-- The world `worldAC` in which every `utime` fails. -/
def worldNoUtime : World :=
  { worldAC with fault := fun c => match c with
                                  | .utime _ _ _ => true
                                  | _ => false }

/-- The calls of a run with their results. -/
def Outcome.calls (r : Outcome) : List (Call × Bool) := r.trace.map (fun e => (e.call, e.ok))

/-- The calls of the finalize protocol: `unlink`, `rename`, `chmod`, `utime`. -/
def Call.isFinal : Call → Bool
  | .unlink _ => true
  | .rename _ _ => true
  | .chmod _ _ => true
  | .utime _ _ _ => true
  | _ => false

/-- Every directory entry names an inode created earlier, so that the inode
of a new file is not in use. -/
def World.WellFormed (w : World) : Prop := ∀ k i, w.dir k = some i → i < w.nextIno

/-- The cases in which `main` stages its output for the destination `out`:
a destination file is named and either `IsSameFile` finds it to be the source
or a backup was asked for and `file_exists` finds the destination; or no
destination is named, "same as source" was asked for and the source is a file,
which is then the destination. -/
def RoutedTo (w : World) (o : Options) (out : String) : Prop :=
  (∃ inp, o.pszInName = some inp ∧ o.pszOutName = some out ∧ out ≠ "-"
      ∧ (IsSameFile w inp out = true ∨ (o.iBackup = true ∧ file_exists w out = true)))
  ∨ (o.pszInName = some out ∧ out ≠ "-" ∧ o.pszOutName = none ∧ o.iSameFile = true)

/-- The bytes `main` reads from its source in the world `w`, until `fgetc`
returns `EOF`. -/
def Options.source (o : Options) (w : World) : List UInt8 :=
  match o.pszInName with
  | none => sourceBytes w .stdin
  | some inp =>
    if inp = "-" then sourceBytes w .stdin
    else
      match w.lookup inp with
      | none => []
      | some i => sourceBytes w (.file i)

/-- The complete new content: the form feed of append mode, then the
expansion of the bytes read from the source. -/
def Options.newContent (o : Options) (w : World) : List UInt8 :=
  (if o.append then [FF] else []) ++ specExpand o.n.toNat 1 (o.source w)

/-- What the temporary file of a staged run holds once the main loop has
written to it: the complete new content, or a first part of it when the
writing failed. -/
def Options.tempContent (o : Options) (w : World) : List UInt8 :=
  w.stored w.nextIno (o.newContent w)

/-- The value of `iSameFile` when `main` opens the destination (detab.c line
313): cleared for a source or a destination that is a standard stream, the
result of `IsSameFile` when a destination file is named, else as the argument
loop left it. -/
def Options.sameFile (o : Options) (w : World) : Bool :=
  match o.pszOutName with
  | none =>
    match o.pszInName with
    | none => false
    | some inp => if inp = "-" then false else o.iSameFile
  | some out =>
    if out = "-" then false
    else
      match o.pszInName with
      | none => false
      | some inp => IsSameFile w inp out

/-- The value of `iBackup` when `main` opens the destination (detab.c line
313): cleared when a destination file is named that `file_exists` does not
find, else as the argument loop left it. -/
def Options.backup (o : Options) (w : World) : Bool :=
  match o.pszOutName with
  | none => o.iBackup
  | some out => if out = "-" then o.iBackup else o.iBackup && file_exists w out

/-- The record `sInTime` once the source is open (detab.c lines 294-301): what
`stat` reports for a source file, all zero for standard input. -/
def Options.srcStat (o : Options) (w : World) : Stat :=
  match o.pszInName with
  | none => {}
  | some inp => if inp = "-" then {} else (w.stat inp).getD {}

/-- The stem of the temporary file's name: the destination's directory, the
separator, `dt`. -/
def tmpStem (out : String) : String := dirname out ++ DIRSEPARATOR_STRING ++ "dt"

/-- The last extension of a base name in the words of the specification: the
text from the final `.` on, if the name holds a `.`. -/
def lastExtension : List Char → Option (List Char)
  | [] => none
  | c :: cs =>
    match lastExtension cs with
    | some e => some e
    | none => if c = '.' then some (c :: cs) else none

/-- A base name with its last extension removed, in the words of the
specification: the text before the final `.`, the whole name when it holds no
`.`. -/
def withoutLastExtension : List Char → List Char
  | [] => []
  | c :: cs =>
    match lastExtension cs with
    | some _ => c :: withoutLastExtension cs
    | none => if c = '.' then [] else c :: withoutLastExtension cs

/-- The backup path in the words of the specification: the destination's
directory, a separator, the destination's base name with its last extension
removed, and `.bak`. -/
def specBackupPath (out : String) : String :=
  dirname out ++ DIRSEPARATOR_STRING ++ String.mk (withoutLastExtension (basename out).data)
    ++ ".bak"

/-- The worlds a staged run goes through once the temporary file is written:
the names `out` and `tmp` lead nowhere, to the original inode `i0` or to the
temporary inode `t`; the first still holds the original data, the second the
new data `new`. -/
structure Staged (w0 : World) (out tmp : String) (i0 t : Nat) (new : List UInt8)
    (w : World) : Prop where
  canon_eq : w.canon = w0.canon
  dir_out : w.dir (w0.canon out) = none ∨ w.dir (w0.canon out) = some i0
    ∨ w.dir (w0.canon out) = some t
  dir_tmp : w.dir (w0.canon tmp) = none ∨ w.dir (w0.canon tmp) = some i0
    ∨ w.dir (w0.canon tmp) = some t
  orig_kept : (w.inode i0).map Inode.content = (w0.inode i0).map Inode.content
  new_kept : (w.inode t).map Inode.content = some new

/-- What holds of the run `r1` and the variables `v2` when `main` reaches the
opening of the destination in a staged run for `out`: only the source has been
opened, the world is as it was, the destination is `out`, and one of
`iSameFile`, `iBackup` is set. -/
structure Front (w : World) (o : Options) (out : String) (r1 : Run) (v2 : Locals) :
    Prop where
  world : r1.w = w
  stdout : r1.stdout = []
  trace : r1.trace = [] ∨ ∃ inp, r1.trace = [⟨.fopen (some inp) "rb", true, w⟩]
  out_name : v2.pszOutName = some out
  in_name : ∃ inp, v2.pszInName = some inp
  in_exists : v2.iBackup = false → ∃ inp j, v2.pszInName = some inp ∧ w.lookup inp = some j
  routed : (v2.iSameFile || v2.iBackup) = true
  width : v2.n = o.n.toNat
  append : v2.append = o.append
  source : (v2.sf = .stdin ∧ o.source w = sourceBytes w .stdin)
    ∨ ∃ i, v2.sf = .file i ∧ (∃ k, w.dir k = some i) ∧ o.source w = sourceBytes w (.file i)
  same : v2.iSameFile = o.sameFile w
  backup : v2.iBackup = o.backup w
  copy : v2.iCopyTime = o.iCopyTime
  verbose : v2.iVerbose = o.iVerbose
  stat : v2.sInTime = o.srcStat w
  in_eq : v2.pszInName = o.pszInName
  sf_stdin : v2.sf = .stdin ↔ o.pszInName = some "-"
  opened : ∀ inp, o.pszInName = some inp → inp ≠ "-" → w.fopenExisting inp "rb" ≠ none

/-- How a staged run for the destination `out` goes on from the opening of
the destination, `r1` being the run so far: the call `fopen(out, "r+")` fails;
or `mkstemp` fails; or a backup is in force and the destination already has the
extension `.bak`; or
the expansion is written to the temporary file `name` (inode `w.nextIno`),
all of it or, when the writing fails, a first part, and the finalize protocol
runs. -/
inductive StagedRun (w : World) (o : Options) (out : String) (r1 : Run) : Outcome → Prop where
  | noWrite (x : Outcome) (hs : x.status = .exit 2) (ho : x.stdout = []) (hw : x.w = w)
      (ht : x.trace = r1.trace ++ [⟨.fopen (some out) "r+", false, w⟩])
      (hc1 : w.fopenExisting out "r+" = none) :
      StagedRun w o out r1 x
  | noTemp (x : Outcome) (i0 : Nat) (hl : w.lookup out = some i0) (hs : x.status = .exit 2)
      (ho : x.stdout = []) (hw : x.w = w)
      (ht : x.trace = r1.trace ++ [⟨.fopen (some out) "r+", true, w⟩,
        ⟨.mkstemp (tmpStem out ++ "XXXXXX"), false, w⟩])
      (hc1 : w.fopenExisting out "r+" ≠ none) (hc2 : (w.mkstemp (tmpStem out)).2 = none) :
      StagedRun w o out r1 x
  | noBackup (x : Outcome) (i0 : Nat) (name : String) (hl : w.lookup out = some i0)
      (hn : w.freeName (tmpStem out) w.tmpTags = some name) (hs : x.status = .exit 2)
      (ho : x.stdout = []) (hw : x.w = w.withTemp name)
      (ht : x.trace = r1.trace ++ [⟨.fopen (some out) "r+", true, w⟩,
        ⟨.mkstemp (tmpStem out ++ "XXXXXX"), true, w.withTemp name⟩])
      (hc1 : w.fopenExisting out "r+" ≠ none) (hc2 : (w.mkstemp (tmpStem out)).2 ≠ none)
      (hc3 : o.backup w = true ∧ bakName out = none) :
      StagedRun w o out r1 x
  | written (i0 : Nat) (name : String) (r4 : Run) (v4 : Locals)
      (hl : w.lookup out = some i0)
      (hn : w.freeName (tmpStem out) w.tmpTags = some name)
      (hw : r4.w = (w.withTemp name).store w.nextIno (o.tempContent w))
      (ho : r4.stdout = [])
      (ht : r4.trace = r1.trace ++ [⟨.fopen (some out) "r+", true, w⟩,
        ⟨.mkstemp (tmpStem out ++ "XXXXXX"), true, w.withTemp name⟩,
        ⟨.write w.nextIno (o.newContent w), !w.fault (.write w.nextIno (o.newContent w)),
          (w.withTemp name).store w.nextIno (o.tempContent w)⟩])
      (hout : v4.pszOutName = some out) (htmp : v4.pszTmpName = name)
      (hin : ∃ inp, v4.pszInName = some inp)
      (hsafe : v4.iBackup = false → ∃ inp j, v4.pszInName = some inp ∧ w.lookup inp = some j)
      (hbak : v4.iBackup = true → bakName out = some v4.szBakName)
      (hdf : v4.df = some (.file w.nextIno))
      (hsame : v4.iSameFile = o.sameFile w) (hback : v4.iBackup = o.backup w)
      (hchg : v4.lnChanges = List.count TAB (o.source w))
      (hcopy : v4.iCopyTime = o.iCopyTime) (hverb : v4.iVerbose = o.iVerbose)
      (hsf : v4.sf = .stdin ↔ o.pszInName = some "-")
      (hst : v4.sInTime = o.srcStat w) (hineq : v4.pszInName = o.pszInName)
      (hmsg : r4.msgs = r1.msgs)
      (hc1 : w.fopenExisting out "r+" ≠ none) (hc2 : (w.mkstemp (tmpStem out)).2 ≠ none)
      (hc3 : ¬ (o.backup w = true ∧ bakName out = none)) :
      StagedRun w o out r1 (finalize r4 v4)

/-- The case in which `main` writes the destination file `out` directly: a
destination file is named, `IsSameFile` does not find it to be the source, and
no backup is in force (not asked for, or `file_exists` does not find the
destination). The last condition sets aside a source file that is another hard
link to the destination's inode. -/
def DirectTo (w : World) (o : Options) (out : String) : Prop :=
  ∃ inp, o.pszInName = some inp ∧ o.pszOutName = some out ∧ out ≠ "-"
    ∧ IsSameFile w inp out = false ∧ (o.iBackup && file_exists w out) = false
    ∧ (inp ≠ "-" → w.lookup inp ≠ w.lookup out)

/-- What holds of the run `r4` and the variables `v4` when `main` reaches the
finalize protocol (detab.c line 390) with the destination file `out`: no call
of the protocol has been made yet, `df` is a stream on a file, and the
variables hold what the arguments and the opening of the source gave them. -/
structure AtFinalize (w : World) (o : Options) (out : String) (r4 : Run) (v4 : Locals) :
    Prop where
  quiet : ∀ e ∈ r4.trace, e.call.isFinal = false
  out_name : v4.pszOutName = some out
  df : ∃ i, v4.df = some (.file i)
  same : v4.iSameFile = o.sameFile w
  backup : v4.iBackup = o.backup w
  changes : v4.lnChanges = List.count TAB (o.source w)
  copy : v4.iCopyTime = o.iCopyTime
  stat : v4.sInTime = o.srcStat w
  sf_stdin : v4.sf = .stdin ↔ o.pszInName = some "-"
  in_name : ∃ inp, v4.pszInName = some inp

/-- The run `r'` continues the run `r` by calls of the finalize protocol only,
each leaving a world in which `I` holds, as it does in the end; nothing is
added to standard output. -/
def Run.Steps (I : World → Prop) (r r' : Run) : Prop :=
  r'.stdout = r.stdout ∧ I r'.w
    ∧ ∃ l, r'.trace = r.trace ++ l ∧ ∀ e ∈ l, e.call.isFinal = true ∧ I e.after

end Detab

namespace Stringx

/-! ## `strnirepl` (stringx.c) -/

/-- C library `tolower` in the "C" locale. -/
def tolower (c : UInt8) : UInt8 := if 65 ≤ c ∧ c ≤ 90 then c + 32 else c

/-- Modelled from the spec: the macro `strnieq` is declared in a SysLib header
that is not among the sources at hand; the claims call its use in `strnirepl` a
case-insensitive match, and by its name it is `!strnicmp(s1, s2, n)`: the
first `n` characters of the two strings are equal up to the case of ASCII
letters, a string that ends earlier matching only one that ends at the same
place. -/
def strnieq : List UInt8 → List UInt8 → Nat → Bool
  | _, _, 0 => true
  | [], [], _ + 1 => true
  | a :: as, b :: bs, n + 1 => tolower a == tolower b && strnieq as bs n
  | _, _, _ + 1 => false

/-- C library `strncpy(buf + dst, src, n)`: `n` bytes are written, those of
`src` and then NUL bytes when `src` is shorter. -/
def strncpy : List UInt8 → Nat → List UInt8 → Nat → List UInt8
  | buf, _, _, 0 => buf
  | buf, dst, [], n + 1 => strncpy (buf.set dst 0) (dst + 1) [] n
  | buf, dst, c :: cs, n + 1 => strncpy (buf.set dst c) (dst + 1) cs n

/-- The loop of `strnirepl` with the final `*pszOut = 0` (stringx.c lines
49-66). Returns `pszOut - pszResultBuffer` and the buffer; `none` when the fuel
runs out. -/
def replLoop (pszSearch pszReplace : List UInt8) :
    Nat → List UInt8 → List UInt8 → Nat → Nat → Option (Nat × List UInt8)
  | 0, _, _, _, _ => none
  | fuel + 1, pszIn, buf, pszOut, lRemain =>
    match pszIn with
    | [] => some (pszOut, buf.set pszOut 0)
    | c :: rest =>
      if lRemain = 0 then some (pszOut, buf.set pszOut 0)
      else if strnieq (c :: rest) pszSearch pszSearch.length then
        let buf1 := strncpy buf pszOut pszReplace lRemain
        let pszIn1 := (c :: rest).drop pszSearch.length
        if pszReplace.length < lRemain then
          replLoop pszSearch pszReplace fuel pszIn1 buf1 (pszOut + pszReplace.length)
            (lRemain - pszReplace.length)
        else replLoop pszSearch pszReplace fuel pszIn1 buf1 (pszOut + lRemain) 0
      else replLoop pszSearch pszReplace fuel rest (buf.set pszOut c) (pszOut + 1) (lRemain - 1)

/-- The function `strnirepl` (stringx.c lines 40-67) on a result buffer `buf`
of `lResultBuffer` bytes. Returns the value returned and the buffer as it is
left. -/
def strnirepl (fuel : Nat) (buf : List UInt8) (lResultBuffer : Nat)
    (pszString pszSearch pszReplace : List UInt8) : Option (Nat × List UInt8) :=
  if lResultBuffer = 0 then some (0, buf)
  else replLoop pszSearch pszReplace fuel pszString buf 0 (lResultBuffer - 1)

/-- The C string a buffer holds: its bytes before the first NUL. -/
def cstr (buf : List UInt8) : List UInt8 := buf.takeWhile (fun b => b ≠ 0)

/-- An occurrence of the search string, matched case-insensitively, starts the
text `s`. -/
def occursAt (search s : List UInt8) : Bool :=
  (s.take search.length).map tolower = search.map tolower

/-- The replacement in the words of the claim: the text is read from left to
right; where an occurrence of the search string starts, the replacement is
written and the occurrence skipped (`skip` counts what is left of it to skip),
elsewhere the character is copied. For a search string that is not empty. -/
def specReplace (search repl : List UInt8) : Nat → List UInt8 → List UInt8
  | _, [] => []
  | skip + 1, _ :: cs => specReplace search repl skip cs
  | 0, c :: cs =>
    if occursAt search (c :: cs) then repl ++ specReplace search repl (search.length - 1) cs
    else c :: specReplace search repl 0 cs

end Stringx

namespace Chars

/-! ## `ToUtf8` (chars.c) -/

/-- The macro `B(c)`, `((char)(c))`: the low eight bits of `c`. -/
def B (c : Nat) : UInt8 := UInt8.ofNat (c % 256)

/-- One `*b++ = B(x)`: the byte is stored at the index `b` of the buffer and
`b` moves on. -/
def put (s : Nat × List UInt8) (x : Nat) : Nat × List UInt8 := (s.1 + 1, s.2.set s.1 (B x))

/-- The function `ToUtf8` (chars.c lines 430-439) on the buffer `buf`, with
`b0 = 0`. The argument `c` is an `unsigned int` of 32 bits, so that
`c - 0xd800u` wraps around. Returns the value returned, `b - b0`, and the
buffer as it is left. -/
def ToUtf8 (c : Nat) (buf : List UInt8) : Nat × List UInt8 :=
  let b0 := 0
  let s : Nat × List UInt8 := (b0, buf)
  if c < 0x80 then
    let s := put s c
    (s.1 - b0, s.2)
  else if c < 0x800 then
    let s := put (put s (192 + c / 64)) (128 + c % 64)
    (s.1 - b0, s.2)
  else if (c + 2 ^ 32 - 0xd800) % 2 ^ 32 < 0x800 then (0, buf)
  else if c < 0x10000 then
    let s := put (put (put s (224 + c / 4096)) (128 + c / 64 % 64)) (128 + c % 64)
    (s.1 - b0, s.2)
  else if c < 0x110000 then
    let s := put (put (put (put s (240 + c / 262144)) (128 + c / 4096 % 64))
      (128 + c / 64 % 64)) (128 + c % 64)
    (s.1 - b0, s.2)
  else (0, buf)

/-- The bytes the four writing branches of `ToUtf8` store, in order. -/
def encoding (c : Nat) : List UInt8 :=
  if c < 0x80 then [B c]
  else if c < 0x800 then [B (192 + c / 64), B (128 + c % 64)]
  else if c < 0x10000 then [B (224 + c / 4096), B (128 + c / 64 % 64), B (128 + c % 64)]
  else [B (240 + c / 262144), B (128 + c / 4096 % 64), B (128 + c / 64 % 64), B (128 + c % 64)]

/-- A continuation byte of UTF-8: `10xxxxxx`. -/
def isCont (b : UInt8) : Bool := 0x80 ≤ b.toNat && b.toNat < 0xC0

/-- The standard UTF-8 decoder (RFC 3629) on the head of a byte sequence: the
lead byte gives the length and the high bits, each continuation byte six more
bits; a sequence that is cut short, has a wrong continuation byte, is longer
than its value needs (overlong), gives a surrogate or a value above 0x10FFFF is
rejected. Returns the scalar value and the number of bytes consumed. -/
def utf8Decode : List UInt8 → Option (Nat × Nat)
  | [] => none
  | b0 :: rest =>
    let x := b0.toNat
    if x < 0x80 then some (x, 1)
    else if x < 0xC0 then none
    else if x < 0xE0 then
      match rest with
      | b1 :: _ =>
        let v := (x - 0xC0) * 64 + (b1.toNat - 0x80)
        if isCont b1 && decide (0x80 ≤ v) then some (v, 2) else none
      | _ => none
    else if x < 0xF0 then
      match rest with
      | b1 :: b2 :: _ =>
        let v := ((x - 0xE0) * 64 + (b1.toNat - 0x80)) * 64 + (b2.toNat - 0x80)
        if isCont b1 && isCont b2 && decide (0x800 ≤ v)
            && !(decide (0xD800 ≤ v) && decide (v ≤ 0xDFFF))
        then some (v, 3) else none
      | _ => none
    else if x < 0xF8 then
      match rest with
      | b1 :: b2 :: b3 :: _ =>
        let v := (((x - 0xF0) * 64 + (b1.toNat - 0x80)) * 64 + (b2.toNat - 0x80)) * 64
          + (b3.toNat - 0x80)
        if isCont b1 && isCont b2 && isCont b3 && decide (0x10000 ≤ v)
            && decide (v < 0x110000)
        then some (v, 4) else none
      | _ => none
    else none

end Chars

namespace Md

/-! ## `mkdirp` (md.c) -/

/-- The directory separator of the Unix build: `DIRSEPARATOR_CHAR`, `'/'`. -/
def DIRSEPARATOR_CHAR : UInt8 := 47

/-- File type mask `S_IFMT`. -/
def S_IFMT : Nat := 0o170000

/-- File type of a directory, `S_IFDIR`. -/
def S_IFDIR : Nat := 0o040000

/-- File type of a regular file, `S_IFREG`. -/
def S_IFREG : Nat := 0o100000

/-- File type of a symbolic link, `S_IFLNK`. -/
def S_IFLNK : Nat := 0o120000

/-- The macro `S_ISDIR`. -/
def S_ISDIR (m : Nat) : Bool := m &&& S_IFMT = S_IFDIR

/-- The macro `S_ISLNK`. -/
def S_ISLNK (m : Nat) : Bool := m &&& S_IFMT = S_IFLNK

/-- What a name in a directory leads to: a regular file or a directory, with
its permission bits. -/
inductive Node where
  | file (perm : Nat)
  | dir (perm : Nat)
  deriving DecidableEq, Repr

/-- The `st_mode` of a node. -/
def Node.st_mode : Node → Nat
  | .file perm => S_IFREG ||| (perm &&& 0o7777)
  | .dir perm => S_IFDIR ||| (perm &&& 0o7777)

/-- The part of `struct stat` that `isdir` reads. -/
structure Stat where
  st_mode : Nat
  deriving DecidableEq, Repr

/-- The file system `md` runs against: a tree of nodes, each at its place (the
names that lead to it from the root), the current directory, the file creation
mask, and the paths at which `mkdir` fails for a reason the tree does not
show (access rights, a full or read-only disk). -/
structure FS where
  node : List (List UInt8) → Option Node
  cwd : List (List UInt8)
  umask : Nat
  fault : List UInt8 → Bool

/-- The components of a path: the texts between its separators, empty ones
included. -/
def splitPath : List UInt8 → List (List UInt8)
  | [] => [[]]
  | c :: cs =>
    if c = DIRSEPARATOR_CHAR then [] :: splitPath cs
    else
      match splitPath cs with
      | [] => [[c]]
      | n :: ns => (c :: n) :: ns

/-- Path resolution, component by component, from the place `cur`: a
component is looked up in a directory only; an empty component and `.` stay,
`..` goes to the parent (the root is its own parent), a name goes down. The
place reached need not exist. -/
def walk (fs : FS) : List (List UInt8) → List (List UInt8) → Option (List (List UInt8))
  | cur, [] => some cur
  | cur, c :: cs =>
    match fs.node cur with
    | some (.dir _) =>
      if c = [] ∨ c = [46] then walk fs cur cs
      else if c = [46, 46] then walk fs cur.dropLast cs
      else walk fs (cur ++ [c]) cs
    | _ => none

/-- Where resolution of a path starts: the root for an absolute path, else the
current directory. -/
def FS.start (fs : FS) (path : List UInt8) : List (List UInt8) :=
  match path with
  | c :: _ => if c = DIRSEPARATOR_CHAR then [] else fs.cwd
  | [] => fs.cwd

/-- The place a path leads to; the empty path leads nowhere. -/
def FS.locate (fs : FS) (path : List UInt8) : Option (List (List UInt8)) :=
  if path = [] then none else walk fs (fs.start path) (splitPath path)

/-- System call `lstat`. -/
def FS.lstat (fs : FS) (path : List UInt8) : Option Stat :=
  match fs.locate path with
  | none => none
  | some x =>
    match fs.node x with
    | none => none
    | some n => some ⟨n.st_mode⟩

/-- The absolute path of a place. -/
def render : List (List UInt8) → List UInt8
  | [] => [DIRSEPARATOR_CHAR]
  | x => (x.map (fun n => DIRSEPARATOR_CHAR :: n)).flatten

/-- C library `realpath(path, NULL)`. -/
def FS.realpath (fs : FS) (path : List UInt8) : Option (List UInt8) :=
  match fs.locate path with
  | none => none
  | some x =>
    match fs.node x with
    | none => none
    | some _ => some (render x)

/-- System call `mkdir`. The components of the path are taken last first,
without the empty ones that trailing separators give: the first of them must be
a name, other than `.` and `..`, that does not exist in the directory the
others lead to. Returns 0 and makes the directory, or returns -1. -/
def FS.mkdir (fs : FS) (path : List UInt8) (mode : Nat) : FS × Int :=
  match (splitPath path).reverse.dropWhile (fun c => c = []) with
  | [] => (fs, -1)
  | name :: revInit =>
    if name = [46] ∨ name = [46, 46] ∨ fs.fault path then (fs, -1)
    else
      match walk fs (fs.start path) revInit.reverse with
      | none => (fs, -1)
      | some cur =>
        match fs.node cur, fs.node (cur ++ [name]) with
        | some (.dir _), none =>
          ({ fs with node := fun x =>
              if x = cur ++ [name] then some (.dir (mode &&& (0o7777 ^^^ (fs.umask &&& 0o7777))))
              else fs.node x }, 0)
        | _, _ => (fs, -1)

/-- The function `isdir` (md.c lines 266-279). The fuel counts the calls of
`isdir`, which calls itself on the target of a symbolic link. -/
def isdir (fs : FS) : Nat → List UInt8 → Option Bool
  | 0, _ => none
  | fuel + 1, pszPath =>
    match fs.lstat pszPath with
    | none => some false
    | some sstat =>
      if S_ISLNK sstat.st_mode then
        match fs.realpath pszPath with
        | none => some false
        | some pszReal => isdir fs fuel pszReal
      else some (S_ISDIR sstat.st_mode)

/-- The function `mkdir1` (md.c lines 282-293): print the path when verbose,
with a separator at its end, and call `mkdir`. Returns the file system, the
lines printed so far and the value returned. -/
def mkdir1 (fs : FS) (out : List (List UInt8)) (pszPath : List UInt8) (pszMode : Nat)
    (iVerbose : Bool) : FS × List (List UInt8) × Int :=
  let out1 :=
    if iVerbose then
      let l := pszPath.length
      let pszSuffix : List UInt8 :=
        if l ≠ 0 && pszPath.getD (l - 1) 0 = DIRSEPARATOR_CHAR then []
        else [DIRSEPARATOR_CHAR]
      out ++ [pszPath ++ pszSuffix]
    else out
  let m := fs.mkdir pszPath pszMode
  (m.1, out1, m.2)

/-- The loop `while (p(*pc)) pc++` over the rest of the string at `pc`. -/
def skipWhile (p : UInt8 → Bool) : List UInt8 → Nat → Nat
  | [], pc => pc
  | c :: rest, pc => if p c then skipWhile p rest (pc + 1) else pc

/-- The body of the loop of `mkdirp` and its continuation (md.c lines 305-317)
from the index `pc` into the path. The path is trimmed at the end of the next
component by `*pc = 0` and restored after the test. `fuelI` is the fuel handed
to `isdir`; the fuel of the loop itself comes first among the arguments that
change. -/
def mkdirpLoop (fuelI : Nat) (path : List UInt8) (pszMode : Nat) (iVerbose : Bool) :
    Nat → FS → List (List UInt8) → Nat → Int → Bool → Option (Int × FS × List (List UInt8))
  | 0, _, _, _, _, _ => none
  | fuel + 1, fs, out, pc, iErr, iSkipTest =>
    let pc := skipWhile (fun c => c = DIRSEPARATOR_CHAR) (path.drop pc) pc
    let pc := skipWhile (fun c => c ≠ 0 && c ≠ DIRSEPARATOR_CHAR) (path.drop pc) pc
    let c := path.getD pc 0
    let pszPath := path.take pc
    let create : Option Bool :=
      if iSkipTest then some true else (isdir fs fuelI pszPath).map (fun b => !b)
    match create with
    | none => none
    | some true =>
      let m := mkdir1 fs out pszPath pszMode iVerbose
      if m.2.2 ≠ 0 then some (m.2.2, m.1, m.2.1)
      else if c ≠ 0 && path.getD (pc + 1) 0 = 0 then some (m.2.2, m.1, m.2.1)
      else if c ≠ 0 then mkdirpLoop fuelI path pszMode iVerbose fuel m.1 m.2.1 pc m.2.2 true
      else some (m.2.2, m.1, m.2.1)
    | some false =>
      if c ≠ 0 && path.getD (pc + 1) 0 = 0 then some (iErr, fs, out)
      else if c ≠ 0 then mkdirpLoop fuelI path pszMode iVerbose fuel fs out pc iErr iSkipTest
      else some (iErr, fs, out)

/-- The function `mkdirp` (md.c lines 296-321) on the path `pszPath0`, a C
string given as its bytes before the NUL; `strdup` succeeds. Returns the value
returned, the file system and the lines printed; `none` when the fuel runs
out. -/
def mkdirp (fuel : Nat) (fs : FS) (pszPath0 : List UInt8) (pszMode : Nat) (iVerbose : Bool) :
    Option (Int × FS × List (List UInt8)) :=
  let pc :=
    if pszPath0.getD 0 0 ≠ 0 && pszPath0.getD 1 0 = 58
        && pszPath0.getD 2 0 = DIRSEPARATOR_CHAR then 2
    else 0
  if pszPath0.getD pc 0 ≠ 0 then
    mkdirpLoop fuel pszPath0 pszMode iVerbose fuel fs [] pc 0 false
  else some (0, fs, [])

/-- What "is an existing directory" means in the tree: the path leads to a
place that holds a directory. -/
def FS.dirAt (fs : FS) (path : List UInt8) : Bool :=
  match fs.locate path with
  | none => false
  | some x =>
    match fs.node x with
    | some (.dir _) => true
    | _ => false

/-- The cut `k` of a path gives the path itself or one of its ancestor
prefixes: the prefix of length `k` is not empty and ends where the path ends,
right before a separator, or with a separator. -/
def AncestorCut (path : List UInt8) (k : Nat) : Prop :=
  1 ≤ k ∧ k ≤ path.length
    ∧ (k = path.length ∨ path.getD k 0 = DIRSEPARATOR_CHAR
        ∨ path.getD (k - 1) 0 = DIRSEPARATOR_CHAR)

/-- The file system `fs2` holds everything `fs` holds, at the same places. -/
def FS.Extends (fs fs2 : FS) : Prop :=
  fs2.cwd = fs.cwd ∧ ∀ x n, fs.node x = some n → fs2.node x = some n

/-- The file system `fs2` is `fs` with directories made for the path: it
holds everything `fs` holds, and where it differs from `fs` there was nothing,
there is a directory now, and that place is where an ancestor prefix of the
path (or the path) leads that was no directory in `fs`. -/
def MadeFor (path : List UInt8) (fs fs2 : FS) : Prop :=
  fs.Extends fs2
    ∧ ∀ x, fs2.node x ≠ fs.node x →
        fs.node x = none ∧ (∃ perm, fs2.node x = some (.dir perm))
          ∧ ∃ k, AncestorCut path k ∧ fs2.locate (path.take k) = some x
              ∧ fs.dirAt (path.take k) = false

/-- A file system with the given nodes, `/d` as current directory, no mask
and no failing call. -/
def fsOf (nodes : List (List (List UInt8) × Node)) : FS where
  node := fun x => nodes.lookup x
  cwd := [[100]]
  umask := 0
  fault := fun _ => false

/-- The root and the directory `/d`, which holds the file `f`. -/
def fsD : FS := fsOf [([], .dir 0o755), ([[100]], .dir 0o755), ([[100], [102]], .file 0o644)]

end Md

namespace Detab

/-! ## Arithmetic of tab stops -/

theorem mod_pred_of_mod_eq_zero {n col : Nat} (hn : 1 ≤ n) (hc : 1 ≤ col)
    (h : col % n = 0) : (col - 1) % n = n - 1 := by
  obtain ⟨m, rfl⟩ : ∃ m, col = m + 1 := ⟨col - 1, by omega⟩
  simp only [Nat.add_sub_cancel]
  have hlt : m % n < n := Nat.mod_lt m (by omega)
  have hdm : n * (m / n) + m % n = m := Nat.div_add_mod m n
  by_contra hne
  have hr : m % n + 1 < n := by omega
  have hm : (m + 1) % n = m % n + 1 := by
    have h1 : m + 1 = n * (m / n) + (m % n + 1) := by omega
    rw [h1, Nat.mul_add_mod]
    exact Nat.mod_eq_of_lt hr
  omega

theorem mod_succ_of_mod_ne_zero {n col : Nat} (hn : 1 ≤ n) (hc : 1 ≤ col)
    (h : col % n ≠ 0) : col % n = (col - 1) % n + 1 := by
  obtain ⟨m, rfl⟩ : ∃ m, col = m + 1 := ⟨col - 1, by omega⟩
  simp only [Nat.add_sub_cancel]
  have hlt : m % n < n := Nat.mod_lt m (by omega)
  have hdm : n * (m / n) + m % n = m := Nat.div_add_mod m n
  by_cases hr : m % n + 1 < n
  · have h1 : m + 1 = n * (m / n) + (m % n + 1) := by omega
    rw [h1, Nat.mul_add_mod]
    exact Nat.mod_eq_of_lt hr
  · exfalso
    apply h
    have h2 : m % n + 1 = n := by omega
    have h1 : m + 1 = n * (m / n) + n := by omega
    rw [h1]
    simp

/-- Number of spaces that bring column `col` to the next tab stop. -/
theorem stop_distance_bounds {n : Nat} (hn : 1 ≤ n) (col : Nat) :
    1 ≤ n - (col - 1) % n ∧ n - (col - 1) % n ≤ n := by
  have hlt : (col - 1) % n < n := Nat.mod_lt _ (by omega)
  omega

theorem stop_reached {n : Nat} (hn : 1 ≤ n) {col : Nat} (hc : 1 ≤ col) :
    (col + (n - (col - 1) % n) - 1) % n = 0 := by
  have hlt : (col - 1) % n < n := Nat.mod_lt _ (by omega)
  have hdm : n * ((col - 1) / n) + (col - 1) % n = col - 1 := Nat.div_add_mod _ n
  have h1 : col + (n - (col - 1) % n) - 1 = n * ((col - 1) / n) + n := by omega
  rw [h1]
  simp

/-! ## The inner loop -/

theorem tabLoop_eq {n : Nat} (hn : 1 ≤ n) :
    ∀ (fuel col : Nat), 1 ≤ col → n - (col - 1) % n ≤ fuel →
      tabLoop n fuel col
        = some (col + (n - (col - 1) % n), List.replicate (n - (col - 1) % n) SPACE) := by
  intro fuel
  induction fuel with
  | zero =>
    intro col _ hf
    have := (stop_distance_bounds hn col).1
    omega
  | succ fuel ih =>
    intro col hc hf
    have hlt : (col - 1) % n < n := Nat.mod_lt _ (by omega)
    by_cases hz : col % n = 0
    · have hp := mod_pred_of_mod_eq_zero hn hc hz
      have hk : n - (col - 1) % n = 1 := by omega
      simp [tabLoop, hz, hk]
    · have hs := mod_succ_of_mod_ne_zero hn hc hz
      have hk : n - (col - 1) % n = (n - col % n) + 1 := by omega
      have hih := ih (col + 1) (by omega) (by simpa using (by omega : n - col % n ≤ fuel))
      simp only [Nat.add_sub_cancel] at hih
      simp only [tabLoop, Nat.add_sub_cancel, ne_eq, hz, not_false_eq_true, if_true, hih, hk,
        List.replicate_succ]
      congr 2
      omega

/-! ## The main loop against the specification -/

theorem specCol_pos (N : Nat) : ∀ (input : List UInt8) (col : Nat), 1 ≤ col →
    1 ≤ specCol N col input := by
  intro input
  induction input with
  | nil => intro col hc; simpa [specCol] using hc
  | cons c rest ih =>
    intro col hc
    simp only [specCol]
    split
    · exact ih _ (by omega)
    · split
      · exact ih _ (by omega)
      · exact ih _ (by omega)

theorem detabLoop_eq {N : Nat} (hN : 1 ≤ N) {fuel : Nat} (hf : N ≤ fuel) :
    ∀ (input : List UInt8) (col chg : Nat), 1 ≤ col →
      detabLoop fuel N input col chg
        = some ⟨specExpand N col input, specCol N col input, chg + input.count TAB⟩ := by
  intro input
  induction input with
  | nil => intro col chg _; simp [detabLoop, specExpand, specCol]
  | cons c rest ih =>
    intro col chg hc
    have hb := stop_distance_bounds hN col
    by_cases ht : c = TAB
    · subst ht
      have hl := tabLoop_eq hN fuel col hc (by omega)
      have hr := ih (col + (N - (col - 1) % N)) (chg + 1) (by omega)
      simp only [detabLoop, if_true, hl, hr, specExpand, specCol, List.count_cons_self]
      congr 2
      omega
    · by_cases hn : c = NL
      · subst hn
        have hr := ih 1 chg (le_refl 1)
        simp [detabLoop, ht, hr, specExpand, specCol, List.count_cons]
      · have hr := ih (col + 1) chg (by omega)
        have ht' : ¬ (c == TAB) = true := by simpa using ht
        simp [detabLoop, ht, hn, hr, specExpand, specCol, List.count_cons]

theorem expand_eq {N : Nat} (hN : 1 ≤ N) {fuel : Nat} (hf : N ≤ fuel) (input : List UInt8) :
    expand fuel N input = some (specExpand N 1 input) := by
  simp [expand, detab, detabLoop_eq hN hf input 1 0 (le_refl 1)]

/-- The specification's expansion never contains a tab. -/
theorem tab_not_mem_specExpand (N : Nat) : ∀ (input : List UInt8) (col : Nat),
    TAB ∉ specExpand N col input := by
  intro input
  induction input with
  | nil => intro col; simp [specExpand]
  | cons c rest ih =>
    intro col
    simp only [specExpand]
    split
    · simp only [List.mem_append, not_or]
      refine ⟨?_, ih _⟩
      intro hm
      have := List.eq_of_mem_replicate hm
      exact absurd this (by decide)
    · split
      · simp only [List.mem_cons, not_or]
        exact ⟨by decide, ih _⟩
      · rename_i h1 h2
        simp only [List.mem_cons, not_or]
        exact ⟨fun h => h1 h.symm, ih _⟩

/-- A tab-free input is its own expansion. -/
theorem specExpand_of_tab_not_mem (N : Nat) : ∀ (input : List UInt8) (col : Nat),
    TAB ∉ input → specExpand N col input = input := by
  intro input
  induction input with
  | nil => intro col _; simp [specExpand]
  | cons c rest ih =>
    intro col hm
    simp only [List.mem_cons, not_or] at hm
    have hc : ¬ c = TAB := fun h => hm.1 h.symm
    simp only [specExpand, hc, if_false]
    split
    · rename_i h; rw [ih _ hm.2, h]
    · rw [ih _ hm.2]

/-- Tabs met at a tab stop each expand to a full `N` spaces. -/
theorem specExpand_tabs_at_stop {N : Nat} (hN : 1 ≤ N) : ∀ (k C : Nat), 1 ≤ C →
    (C - 1) % N = 0 →
    specExpand N C (List.replicate k TAB) = List.replicate (k * N) SPACE
      ∧ specCol N C (List.replicate k TAB) = C + k * N := by
  intro k
  induction k with
  | zero => intro C _ _; simp [specExpand, specCol]
  | succ k ih =>
    intro C hC h0
    have hstop : (C + N - 1) % N = 0 := by
      have := stop_reached hN hC
      simpa [h0] using this
    obtain ⟨h1, h2⟩ := ih (C + N) (by omega) hstop
    simp only [List.replicate_succ, specExpand, specCol, if_true, h0, Nat.sub_zero, h1, h2]
    constructor
    · rw [← List.replicate_add]
      congr 1
      ring
    · ring

theorem specExpand_tab_run {N : Nat} (hN : 1 ≤ N) {C : Nat} (hC : 1 ≤ C) (k : Nat) :
    specExpand N C (List.replicate (k + 1) TAB)
        = List.replicate (N - (C - 1) % N + k * N) SPACE
      ∧ specCol N C (List.replicate (k + 1) TAB) = C + (N - (C - 1) % N + k * N) := by
  have hb := stop_distance_bounds hN C
  obtain ⟨h1, h2⟩ := specExpand_tabs_at_stop hN k (C + (N - (C - 1) % N)) (by omega)
    (stop_reached hN hC)
  simp only [List.replicate_succ, specExpand, specCol, if_true, h1, h2]
  constructor
  · rw [← List.replicate_add]
  · omega

/-! ## Claims about the transform -/

/-- C1: for a tab width `N` in 1..32 and any input, the bytes `detab` writes
are the column-stop expansion of the specification (column counter from 1,
newline copied and resetting the counter, other bytes copied and advancing it);
and the inner loop run at any column `col ≥ 1` writes exactly
`N - ((col-1) mod N)` spaces, between 1 and `N` of them, leaving the counter
at a tab stop. -/
theorem detab_column_stop_expansion (N fuel : Nat) (hlo : 1 ≤ N) (_hhi : N ≤ 32)
    (hf : N ≤ fuel) (input : List UInt8) :
    expand fuel N input = some (specExpand N 1 input)
    ∧ ∀ col, 1 ≤ col →
        tabLoop N fuel col
            = some (col + (N - (col - 1) % N), List.replicate (N - (col - 1) % N) SPACE)
          ∧ 1 ≤ N - (col - 1) % N ∧ N - (col - 1) % N ≤ N
          ∧ (col + (N - (col - 1) % N) - 1) % N = 0 := by
  refine ⟨expand_eq hlo hf input, ?_⟩
  intro col hc
  have hb := stop_distance_bounds hlo col
  exact ⟨tabLoop_eq hlo fuel col hc (by omega), hb.1, hb.2, stop_reached hlo hc⟩

theorem detab_column_stop_expansion_witness :
    (1 ≤ 8 ∧ 8 ≤ 32 ∧ 8 ≤ 8) ∧
    (expand 8 8 [97, 9, 98, 10] = some (specExpand 8 1 [97, 9, 98, 10])
    ∧ ∀ col, 1 ≤ col →
        tabLoop 8 8 col
            = some (col + (8 - (col - 1) % 8), List.replicate (8 - (col - 1) % 8) SPACE)
          ∧ 1 ≤ 8 - (col - 1) % 8 ∧ 8 - (col - 1) % 8 ≤ 8
          ∧ (col + (8 - (col - 1) % 8) - 1) % 8 = 0) :=
  ⟨by decide, detab_column_stop_expansion 8 8 (by decide) (by decide) (by decide) [97, 9, 98, 10]⟩

/-- C2 as stated fails: two tabs met at column 1 with tab width 8 produce 16
spaces, not `8 - ((1-1) mod 8) = 8`. -/
theorem tab_run_counterexample :
    tabRunLength 8 8 1 2 = some 16 ∧ (16 : Nat) ≠ 8 - (1 - 1) % 8 := by
  decide

/-- C2 amended: a run of `k ≥ 1` consecutive tabs met at column `C ≥ 1` writes
`N - ((C-1) mod N)` spaces for its first tab and `N` for each further one,
`N - ((C-1) mod N) + (k-1)*N` in all and never zero, and nothing but spaces. -/
theorem tab_run_spaces (N fuel C k : Nat) (hlo : 1 ≤ N) (_hhi : N ≤ 32) (hf : N ≤ fuel)
    (hC : 1 ≤ C) (hk : 1 ≤ k) :
    tabRunLength fuel N C k = some (N - (C - 1) % N + (k - 1) * N)
    ∧ N - (C - 1) % N + (k - 1) * N ≠ 0
    ∧ (detabLoop fuel N (List.replicate k TAB) C 0).map (fun r => r.out)
        = some (List.replicate (N - (C - 1) % N + (k - 1) * N) SPACE) := by
  obtain ⟨j, rfl⟩ : ∃ j, k = j + 1 := ⟨k - 1, by omega⟩
  have hb := stop_distance_bounds hlo C
  have hs := specExpand_tab_run hlo hC j
  have hd := detabLoop_eq hlo hf (List.replicate (j + 1) TAB) C 0 hC
  simp only [Nat.add_sub_cancel]
  refine ⟨?_, by omega, ?_⟩
  · simp [tabRunLength, hd, hs.1]
  · simp [hd, hs.1]

theorem tab_run_spaces_witness :
    (1 ≤ 8 ∧ 8 ≤ 32 ∧ 8 ≤ 8 ∧ 1 ≤ 3 ∧ 1 ≤ 2) ∧
    (tabRunLength 8 8 3 2 = some (8 - (3 - 1) % 8 + (2 - 1) * 8)
    ∧ 8 - (3 - 1) % 8 + (2 - 1) * 8 ≠ 0
    ∧ (detabLoop 8 8 (List.replicate 2 TAB) 3 0).map (fun r => r.out)
        = some (List.replicate (8 - (3 - 1) % 8 + (2 - 1) * 8) SPACE)) :=
  ⟨by decide, tab_run_spaces 8 8 3 2 (by decide) (by decide) (by decide) (by decide) (by decide)⟩

/-- C3: tab expansion is idempotent: for a tab width `N` in 1..32 the expansion
`y` of any input exists, and expanding `y` again with the same `N` gives `y`. -/
theorem expand_idempotent (N fuel : Nat) (hlo : 1 ≤ N) (_hhi : N ≤ 32) (hf : N ≤ fuel)
    (x : List UInt8) :
    ∃ y, expand fuel N x = some y ∧ expand fuel N y = some y := by
  refine ⟨specExpand N 1 x, expand_eq hlo hf x, ?_⟩
  rw [expand_eq hlo hf, specExpand_of_tab_not_mem N _ 1 (tab_not_mem_specExpand N x 1)]

theorem expand_idempotent_witness :
    (1 ≤ 4 ∧ 4 ≤ 32 ∧ 4 ≤ 4) ∧
    ∃ y, expand 4 4 [97, 98, 9, 99] = some y ∧ expand 4 4 y = some y :=
  ⟨by decide, expand_idempotent 4 4 (by decide) (by decide) (by decide) [97, 98, 9, 99]⟩

/-- C4: for a tab width `N` in 1..32 the expanded output of any input exists
and contains no tab byte. -/
theorem expand_has_no_tab (N fuel : Nat) (hlo : 1 ≤ N) (_hhi : N ≤ 32) (hf : N ≤ fuel)
    (x : List UInt8) :
    ∃ y, expand fuel N x = some y ∧ TAB ∉ y :=
  ⟨specExpand N 1 x, expand_eq hlo hf x, tab_not_mem_specExpand N x 1⟩

theorem expand_has_no_tab_witness :
    (1 ≤ 8 ∧ 8 ≤ 32 ∧ 8 ≤ 8) ∧ ∃ y, expand 8 8 [9, 9, 97, 9] = some y ∧ TAB ∉ y :=
  ⟨by decide, expand_has_no_tab 8 8 (by decide) (by decide) (by decide) [9, 9, 97, 9]⟩

/-- C5: the documented examples: with tab width 8, `"a\tb\n"` expands to `a`,
seven spaces, `b`, newline; with tab width 4, `"ab\tc"` expands to `ab`, two
spaces, `c`. -/
theorem detab_documented_examples (fuel : Nat) (hf : 8 ≤ fuel) :
    expand fuel 8 [97, 9, 98, 10] = some [97, 32, 32, 32, 32, 32, 32, 32, 98, 10]
    ∧ expand fuel 4 [97, 98, 9, 99] = some [97, 98, 32, 32, 99] := by
  constructor
  · rw [expand_eq (by decide) hf]; decide
  · rw [expand_eq (by decide) (by omega)]; decide

theorem detab_documented_examples_witness :
    8 ≤ 8 ∧
    (expand 8 8 [97, 9, 98, 10] = some [97, 32, 32, 32, 32, 32, 32, 32, 98, 10]
    ∧ expand 8 4 [97, 98, 9, 99] = some [97, 98, 32, 32, 99]) :=
  ⟨by decide, detab_documented_examples 8 (by decide)⟩

/-! ## Claims about `main` -/

/-- C6: when the arguments leave a tab width outside 1..32, `main` returns 1
without having made any call that opens, creates or changes a file: the trace
is empty, the world is untouched and nothing is written to standard output. -/
theorem bad_tab_width_exits_1 (fuel : Nat) (w : World) (args : List String) (o : Options)
    (msgs : List Msg) (hp : parseArgs args {} [] = .run o msgs) (hn : o.n < 1 ∨ o.n > 32) :
    ∃ r, main fuel w args = some r ∧ r.status = .exit 1 ∧ r.trace = [] ∧ r.w = w
      ∧ r.stdout = [] := by
  simp [main, hp, mainRun, hn, Run.say, Run.finish]

theorem bad_tab_width_exits_1_witness :
    (parseArgs ["a.txt", "-t", "33"] {} [] = .run { n := 33, pszInName := some "a.txt" } []
      ∧ ((33 : Int) < 1 ∨ (33 : Int) > 32)) ∧
    ∃ r, main 32 worldAC ["a.txt", "-t", "33"] = some r ∧ r.status = .exit 1 ∧ r.trace = []
      ∧ r.w = worldAC ∧ r.stdout = [] :=
  ⟨by decide, bad_tab_width_exits_1 32 worldAC ["a.txt", "-t", "33"]
    { n := 33, pszInName := some "a.txt" } [] (by decide) (by decide)⟩

set_option maxRecDepth 100000 in
/-- C7 fails on the code when the backup flag is given: `detab -b a.txt -`
keeps `iBackup` set, tries `fopen("-", "r+")` and exits 2 with nothing on
standard output; without `-b` the same run writes the expansion to standard
output and makes no other call than opening the source. -/
theorem backup_flag_breaks_stdout_route :
    (main 32 worldAC ["-b", "a.txt", "-"]).map (fun r => (r.status, r.stdout, r.calls))
        = some (.exit 2, [],
            [(.fopen (some "a.txt") "rb", true), (.fopen (some "-") "r+", false)])
    ∧ (main 32 worldAC ["a.txt", "-"]).map (fun r => (r.status, r.stdout, r.calls))
        = some (.exit 0, [97, 32, 32, 32, 32, 32, 32, 32, 98, 10],
            [(.fopen (some "a.txt") "rb", true)]) := by
  decide

set_option maxRecDepth 100000 in
/-- C10 fails on the code for hard links: `a.txt` and `b.txt` are two names of
inode 1, with one `stat` record, and `IsSameFile` returns 0 because their
canonical names differ; `detab a.txt b.txt` then opens `b.txt` with `"wb"`,
which empties the file before it is read, and the data is lost. -/
theorem hard_links_not_detected :
    worldLinks.lookup "a.txt" = some 1 ∧ worldLinks.lookup "b.txt" = some 1
    ∧ worldLinks.stat "a.txt" = worldLinks.stat "b.txt"
    ∧ IsSameFile worldLinks "a.txt" "b.txt" = false
    ∧ (main 32 worldLinks ["a.txt", "b.txt"]).map (fun r => (r.status, r.calls))
      = some (.exit 0,
          [(.fopen (some "a.txt") "rb", true), (.fopen (some "b.txt") "wb", true),
           (.write 1 [], true), (.chmod "b.txt" 0o100644, true),
           (.utime "b.txt" 100 200, true)])
    ∧ (main 32 worldLinks ["a.txt", "b.txt"]).map (fun r => r.w.contentAt "a.txt")
      = some (some [])
    ∧ (main 32 worldLinks ["a.txt", "b.txt"]).map (fun r => r.w.contentAt "b.txt")
      = some (some []) := by
  decide

end Detab

namespace Detab

/-! ## Worlds of a staged run -/

theorem Staged.setDir_none {w0 : World} {out tmp : String} {i0 t : Nat} {new : List UInt8}
    {w : World} (h : Staged w0 out tmp i0 t new w) (key : String) :
    Staged w0 out tmp i0 t new (w.setDir key none) := by
  refine ⟨h.canon_eq, ?_, ?_, h.orig_kept, h.new_kept⟩
  · by_cases hk : w0.canon out = key
    · simp [World.setDir, hk]
    · simpa [World.setDir, hk] using h.dir_out
  · by_cases hk : w0.canon tmp = key
    · simp [World.setDir, hk]
    · simpa [World.setDir, hk] using h.dir_tmp

theorem Staged.setDir_some {w0 : World} {out tmp : String} {i0 t : Nat} {new : List UInt8}
    {w : World} (h : Staged w0 out tmp i0 t new w) (key : String) {i : Nat}
    (hi : i = i0 ∨ i = t) : Staged w0 out tmp i0 t new (w.setDir key (some i)) := by
  refine ⟨h.canon_eq, ?_, ?_, h.orig_kept, h.new_kept⟩
  · by_cases hk : w0.canon out = key
    · simp [World.setDir, hk, hi]
    · simpa [World.setDir, hk] using h.dir_out
  · by_cases hk : w0.canon tmp = key
    · simp [World.setDir, hk, hi]
    · simpa [World.setDir, hk] using h.dir_tmp

theorem Staged.setInode {w0 : World} {out tmp : String} {i0 t : Nat} {new : List UInt8}
    {w : World} (h : Staged w0 out tmp i0 t new w) {i : Nat} {f g : Inode}
    (hf : w.inode i = some f) (hc : g.content = f.content) :
    Staged w0 out tmp i0 t new (w.setInode i g) := by
  refine ⟨h.canon_eq, h.dir_out, h.dir_tmp, ?_, ?_⟩
  · by_cases hk : i0 = i
    · subst hk
      have := h.orig_kept
      simp [World.setInode, hf, hc] at this ⊢
      exact this
    · simpa [World.setInode, hk] using h.orig_kept
  · by_cases hk : t = i
    · subst hk
      have := h.new_kept
      simp [World.setInode, hf, hc] at this ⊢
      exact this
    · simpa [World.setInode, hk] using h.new_kept

theorem Staged.unlink {w0 : World} {out tmp : String} {i0 t : Nat} {new : List UInt8}
    {w : World} (h : Staged w0 out tmp i0 t new w) (p : String) :
    Staged w0 out tmp i0 t new (w.unlink p).1 := by
  unfold World.unlink
  split
  · exact h
  · split
    · exact h
    · exact h.setDir_none _

theorem Staged.lookup_cases {w0 : World} {out tmp : String} {i0 t : Nat} {new : List UInt8}
    {w : World} (h : Staged w0 out tmp i0 t new w) {p : String} (hp : p = out ∨ p = tmp)
    {i : Nat} (hi : w.lookup p = some i) : i = i0 ∨ i = t := by
  unfold World.lookup at hi
  rw [h.canon_eq] at hi
  rcases hp with rfl | rfl
  · rcases h.dir_out with h1 | h1 | h1 <;> simp_all
  · rcases h.dir_tmp with h1 | h1 | h1 <;> simp_all

theorem Staged.rename {w0 : World} {out tmp : String} {i0 t : Nat} {new : List UInt8}
    {w : World} (h : Staged w0 out tmp i0 t new w) {oldp : String}
    (hp : oldp = out ∨ oldp = tmp) (newp : String) :
    Staged w0 out tmp i0 t new (w.rename oldp newp).1 := by
  unfold World.rename
  split
  · exact h
  · split
    · exact h
    · rename_i i hi
      split
      · exact h
      · exact (h.setDir_some _ (h.lookup_cases hp hi)).setDir_none _

theorem Staged.chmod {w0 : World} {out tmp : String} {i0 t : Nat} {new : List UInt8}
    {w : World} (h : Staged w0 out tmp i0 t new w) (p : String) (mode : Nat) :
    Staged w0 out tmp i0 t new (w.chmod p mode).1 := by
  unfold World.chmod
  split
  · exact h
  · split
    · exact h
    · split
      · exact h
      · rename_i f hf
        exact h.setInode hf rfl

theorem Staged.utime {w0 : World} {out tmp : String} {i0 t : Nat} {new : List UInt8}
    {w : World} (h : Staged w0 out tmp i0 t new w) (p : String) (a m : Nat) :
    Staged w0 out tmp i0 t new (w.utime p a m).1 := by
  unfold World.utime
  split
  · exact h
  · split
    · exact h
    · split
      · exact h
      · rename_i f hf
        exact h.setInode hf rfl

end Detab

namespace Detab

/-! ## The finalize protocol, call by call -/

theorem Run.Steps.log {I : World → Prop} {r r1 : Run} (h : Run.Steps I r r1) {c : Call}
    (hc : c.isFinal = true) (ok : Bool) {w : World} (hw : I w) :
    Run.Steps I r (r1.log c ok w) := by
  obtain ⟨hs, _, l, hl, hall⟩ := h
  refine ⟨hs, hw, l ++ [⟨c, ok, w⟩], by simp [Run.log, hl], ?_⟩
  intro e he
  rcases List.mem_append.1 he with he | he
  · exact hall e he
  · simp only [List.mem_singleton] at he
    subst he
    exact ⟨hc, hw⟩

theorem Run.Steps.trans {I : World → Prop} {a b c : Run} (h1 : Run.Steps I a b)
    (h2 : Run.Steps I b c) : Run.Steps I a c := by
  obtain ⟨hs1, _, l1, hl1, hall1⟩ := h1
  obtain ⟨hs2, hw2, l2, hl2, hall2⟩ := h2
  refine ⟨hs2.trans hs1, hw2, l1 ++ l2, by simp [hl2, hl1], ?_⟩
  intro e he
  rcases List.mem_append.1 he with he | he
  · exact hall1 e he
  · exact hall2 e he

theorem Run.Steps.one {I : World → Prop} (r : Run) (c : Call) (hc : c.isFinal = true)
    (ok : Bool) {w : World} (hw : I w) : Run.Steps I r (r.log c ok w) :=
  ⟨rfl, hw, [⟨c, ok, w⟩], by simp [Run.log], by
    intro e he
    simp only [List.mem_singleton] at he
    subst he
    exact ⟨hc, hw⟩⟩

end Detab

namespace Detab

theorem renameOrFail_status (r : Run) (oldp newp : String) (m : Msg) :
    ∀ e, renameOrFail r oldp newp m = .error e → e.status = .exit 2 := by
  intro e h
  unfold renameOrFail at h
  dsimp only at h
  split at h
  · cases h
  · cases h; rfl

theorem publish_status (r : Run) (v : Locals) {out inp : String}
    (hout : v.pszOutName = some out) (hin : v.pszInName = some inp) :
    ∀ e, publish r v = .error e → e.status = .exit 2 := by
  intro e h
  unfold publish at h
  simp only [hout, hin] at h
  split at h
  · split at h
    · rename_i e1 hm
      cases h
      split at hm
      · unfold backupOld at hm
        dsimp only at hm
        split at hm
        · cases hm; rfl
        · exact renameOrFail_status _ _ _ _ _ hm
      · unfold removeOld at hm
        dsimp only at hm
        split at hm
        · cases hm
        · cases hm; rfl
    · exact renameOrFail_status _ _ _ _ _ h
  · cases h

/-- The finalize protocol ends with status 0 or, through `fail`, with status 2. -/
theorem finalize_status (r : Run) (v : Locals) {out inp : String}
    (hout : v.pszOutName = some out) (hin : v.pszInName = some inp) :
    (finalize r v).status = .exit 0 ∨ (finalize r v).status = .exit 2 := by
  unfold finalize
  split
  · left; rfl
  · split
    · rename_i e he
      right
      exact publish_status r v hout hin e he
    · left; rfl

/-! ## From the arguments to the opening of the destination -/

theorem fopenExisting_some {w : World} {p mode : String} {i : Nat}
    (h : w.fopenExisting p mode = some i) : w.lookup p = some i := by
  unfold World.fopenExisting at h
  split at h
  · cases h
  · exact h

theorem openSource_stdin (r : Run) (v : Locals) (h : v.pszInName = some "-") :
    openSource r v = .ok (r, { v with sf := .stdin, iSameFile := false }) := by
  simp [openSource, h, streq]

theorem openSource_fail (r : Run) (v : Locals) {inp : String} (h : v.pszInName = some inp)
    (hd : inp ≠ "-") (hf : r.w.fopenExisting inp "rb" = none) :
    openSource r v
      = .error ((r.log (.fopen (some inp) "rb") false r.w).fail (.cantOpen inp)) := by
  simp [openSource, h, streq, hd, hf]

theorem openSource_file (r : Run) (v : Locals) {inp : String} (h : v.pszInName = some inp)
    (hd : inp ≠ "-") {i : Nat} (hf : r.w.fopenExisting inp "rb" = some i) :
    openSource r v
      = .ok (r.log (.fopen (some inp) "rb") true r.w,
             { v with sf := .file i, sInTime := (r.w.stat inp).getD {} }) := by
  simp [openSource, h, streq, hd, hf]

theorem resolveTarget_named (w : World) (v : Locals) (inp out : String)
    (hin : v.pszInName = some inp) (hout : v.pszOutName = some out) (hd : out ≠ "-") :
    resolveTarget w v
      = some { v with
          iSameFile := IsSameFile w inp out
          iBackup := if v.iBackup && !file_exists w out then false else v.iBackup } := by
  simp [resolveTarget, hin, hout, streq, hd]

theorem resolveTarget_same (w : World) (v : Locals) (hout : v.pszOutName = none)
    (hs : v.iSameFile = true) :
    resolveTarget w v = some { v with pszOutName := v.pszInName } := by
  simp [resolveTarget, hout, hs]

theorem IsSameFile_lookup {w : World} {p q : String} (h : IsSameFile w p q = true)
    (hne : p ≠ q) : ∃ j, w.lookup p = some j := by
  cases hl : w.lookup p with
  | some j => exact ⟨j, rfl⟩
  | none =>
    exfalso
    unfold IsSameFile at h
    simp only [streq, hne, decide_False, Bool.false_eq_true, if_false, SAMENAME,
      Bool.and_false, World.realpath, hl] at h
    split at h
    · cases h
    · split at h
      · cases h
      · cases h

theorem main_routed_front (fuel : Nat) {w : World} {args : List String} {o : Options}
    {msgs : List Msg} {out : String} (hp : parseArgs args {} [] = .run o msgs)
    (hlo : 1 ≤ o.n) (hhi : o.n ≤ 32) (hr : RoutedTo w o out) :
    (∃ inp, main fuel w args
        = some ((Run.log ⟨w, [], msgs, []⟩ (.fopen (some inp) "rb") false w).fail
            (.cantOpen inp))
        ∧ o.pszInName = some inp ∧ inp ≠ "-" ∧ w.fopenExisting inp "rb" = none)
    ∨ ∃ r1 v2, main fuel w args = writeOut fuel r1 v2 ∧ Front w o out r1 v2 := by
  have hn : ¬ (o.n < 1 ∨ o.n > 32) := by omega
  simp only [main, hp, mainRun, hn, if_false]
  rcases hr with ⟨inp, hin, hout, hne, hc⟩ | ⟨hin, hne, hout, hs⟩
  · have hrt : (IsSameFile w inp out
        || (if (o.iBackup && !file_exists w out) = true then false else o.iBackup)) = true := by
      rcases hc with hc | ⟨hb, hf⟩
      · simp [hc]
      · simp [hb, hf]
    by_cases hd : inp = "-"
    · right
      subst hd
      rw [openSource_stdin _ _ (by simpa [Options.locals] using hin)]
      dsimp only
      rw [resolveTarget_named w _ "-" out (by simpa [Options.locals] using hin)
        (by simpa [Options.locals] using hout) hne]
      exact ⟨_, _, rfl,
        { world := rfl, stdout := rfl, trace := Or.inl rfl
          out_name := by simp [Options.locals, hout]
          in_name := ⟨"-", by simp [Options.locals, hin]⟩
          in_exists := by
            intro hb0
            rcases hc with hc | ⟨hb, hf⟩
            · obtain ⟨j, hj⟩ := IsSameFile_lookup hc (Ne.symm hne)
              exact ⟨"-", j, by simp [Options.locals, hin], hj⟩
            · simp [Options.locals, hb, hf] at hb0
          routed := by simpa [Options.locals] using hrt
          width := rfl, append := rfl
          source := Or.inl ⟨rfl, by simp [Options.source, hin]⟩
          same := by simp [Options.locals, Options.sameFile, hin, hout, hne]
          backup := by
            cases hb : o.iBackup <;> cases hx : file_exists w out <;>
              simp [Options.locals, Options.backup, hout, hne, hb, hx]
          copy := rfl, verbose := rfl
          stat := by simp [Options.locals, Options.srcStat, hin]
          in_eq := rfl
          sf_stdin := by simp [hin]
          opened := by
            intro inp2 h2 hne2
            rw [hin] at h2
            exact absurd (Option.some.inj h2).symm hne2 }⟩
    · cases hfo : w.fopenExisting inp "rb" with
      | none =>
        left
        refine ⟨inp, ?_, hin, hd, hfo⟩
        rw [openSource_fail _ _ (by simpa [Options.locals] using hin) hd hfo]
      | some i =>
        right
        have hl := fopenExisting_some hfo
        rw [openSource_file _ _ (by simpa [Options.locals] using hin) hd hfo]
        dsimp only
        rw [resolveTarget_named _ _ inp out
          (by simpa [Options.locals] using hin) (by simpa [Options.locals] using hout) hne]
        exact ⟨_, _, rfl,
          { world := rfl, stdout := rfl, trace := Or.inr ⟨inp, rfl⟩
            out_name := by simp [Options.locals, hout]
            in_name := ⟨inp, by simp [Options.locals, hin]⟩
            in_exists := fun _ => ⟨inp, i, by simp [Options.locals, hin], hl⟩
            routed := by simpa [Options.locals] using hrt
            width := rfl, append := rfl
            source := Or.inr ⟨i, rfl, ⟨_, hl⟩, by simp [Options.source, hin, hd, hl]⟩
            same := by simp [Options.locals, Options.sameFile, hin, hout, hne, Run.log]
            backup := by
              cases hb : o.iBackup <;> cases hx : file_exists w out <;>
                simp [Options.locals, Options.backup, hout, hne, hb, hx, Run.log]
            copy := rfl, verbose := rfl
            stat := by simp [Options.srcStat, hin, hd]
            in_eq := rfl
            sf_stdin := by simp [hin, hd]
            opened := by
              intro inp2 h2 _
              rw [hin] at h2
              cases h2
              rw [hfo]
              simp }⟩
  · cases hfo : w.fopenExisting out "rb" with
    | none =>
      left
      refine ⟨out, ?_, hin, hne, hfo⟩
      rw [openSource_fail _ _ (by simpa [Options.locals] using hin) hne hfo]
    | some i =>
      right
      have hl := fopenExisting_some hfo
      rw [openSource_file _ _ (by simpa [Options.locals] using hin) hne hfo]
      dsimp only
      rw [resolveTarget_same _ _ (by simpa [Options.locals] using hout)
        (by simpa [Options.locals] using hs)]
      exact ⟨_, _, rfl,
        { world := rfl, stdout := rfl, trace := Or.inr ⟨out, rfl⟩
          out_name := by simp [Options.locals, hin]
          in_name := ⟨out, by simp [Options.locals, hin]⟩
          in_exists := fun _ => ⟨out, i, by simp [Options.locals, hin], hl⟩
          routed := by simp [Options.locals, hs]
          width := rfl, append := rfl
          source := Or.inr ⟨i, rfl, ⟨_, hl⟩, by simp [Options.source, hin, hne, hl]⟩
          same := by simp [Options.locals, Options.sameFile, hin, hout, hne]
          backup := by simp [Options.locals, Options.backup, hout]
          copy := rfl, verbose := rfl
          stat := by simp [Options.srcStat, hin, hne]
          in_eq := rfl
          sf_stdin := by simp [hin, hne]
          opened := by
            intro inp2 h2 _
            rw [hin] at h2
            cases h2
            rw [hfo]
            simp }⟩

end Detab

namespace Detab

/-! ## The opening of the destination and the main loop in a staged run -/

theorem sourceBytes_withTemp {w : World} (hwf : w.WellFormed) (name : String) {sf : Stream}
    (h : sf = .stdin ∨ ∃ i, sf = .file i ∧ ∃ k, w.dir k = some i) :
    sourceBytes (w.withTemp name) sf = sourceBytes w sf := by
  rcases h with rfl | ⟨i, rfl, k, hk⟩
  · rfl
  · have hlt := hwf k i hk
    have hne : i ≠ w.nextIno := by omega
    simp [sourceBytes, World.readable, World.withTemp, World.setInode, World.setDir, hne]

theorem mkstemp_none {w : World} {stem : String} (h : (w.mkstemp stem).2 = none) :
    (w.mkstemp stem).1 = w := by
  unfold World.mkstemp at h ⊢
  split
  · rfl
  · split
    · rfl
    · rename_i h1 _ _ h2
      simp [h1, h2] at h

theorem mkstemp_some {w : World} {stem name : String} {i : Nat}
    (h : (w.mkstemp stem).2 = some (name, i)) :
    w.freeName stem w.tmpTags = some name ∧ i = w.nextIno
      ∧ (w.mkstemp stem).1 = w.withTemp name := by
  unfold World.mkstemp at h ⊢
  by_cases hfault : w.fault (.mkstemp (stem ++ "XXXXXX")) = true
  · simp [hfault] at h
  · cases hfr : w.freeName stem w.tmpTags with
    | none => simp [hfault, hfr] at h
    | some nm =>
      simp only [hfault, hfr, Bool.false_eq_true, if_false, Option.some.injEq,
        Prod.mk.injEq] at h ⊢
      obtain ⟨rfl, rfl⟩ := h
      exact ⟨rfl, rfl, rfl⟩

/-- Writing to the new temporary file: what is stored and whether the writing
succeeds are as the world `w` before `mkstemp` tells. -/
theorem write_withTemp (w : World) (name : String) (bytes : List UInt8) :
    (w.withTemp name).write w.nextIno bytes
      = ((w.withTemp name).store w.nextIno (w.stored w.nextIno bytes),
          !w.fault (.write w.nextIno bytes)) := by
  simp [World.write, World.stored, World.withTemp, World.setInode, World.setDir]

theorem staged_transform {fuel : Nat} {w : World} {o : Options} {out name : String}
    {r1 r3 : Run} {v2 v3 : Locals} {i0 : Nat} (hF : Front w o out r1 v2)
    (hwf : w.WellFormed) (hlo : 1 ≤ o.n) (hf : o.n.toNat ≤ fuel)
    (hl : w.lookup out = some i0)
    (hfree : w.freeName (tmpStem out) w.tmpTags = some name)
    (hw : r3.w = w.withTemp name) (ho : r3.stdout = [])
    (ht : r3.trace = r1.trace ++ [⟨.fopen (some out) "r+", true, w⟩,
        ⟨.mkstemp (tmpStem out ++ "XXXXXX"), true, w.withTemp name⟩])
    (hn : v3.n = v2.n) (ha : v3.append = v2.append) (hsf : v3.sf = v2.sf)
    (hdf : v3.df = some (.file w.nextIno))
    (hout : v3.pszOutName = some out) (htmp : v3.pszTmpName = name)
    (hin : v3.pszInName = v2.pszInName) (hib : v3.iBackup = v2.iBackup)
    (hbk : v3.iBackup = true → bakName out = some v3.szBakName)
    (his : v3.iSameFile = v2.iSameFile) (hic : v3.iCopyTime = v2.iCopyTime)
    (hiv : v3.iVerbose = v2.iVerbose) (hit : v3.sInTime = v2.sInTime)
    (hmsg : r3.msgs = r1.msgs)
    (hc1 : w.fopenExisting out "r+" ≠ none) (hc2 : (w.mkstemp (tmpStem out)).2 ≠ none)
    (hc3 : ¬ (o.backup w = true ∧ bakName out = none)) :
    ∃ x, (match transform fuel r3 v3 with
          | none => none
          | some (r4, v4) => some (finalize r4 v4)) = some x ∧ StagedRun w o out r1 x := by
  have hN : 1 ≤ o.n.toNat := by omega
  have hsrc : sourceBytes r3.w v3.sf = o.source w := by
    rw [hw, hsf]
    rcases hF.source with ⟨h1, h2⟩ | ⟨i, h1, h2, h3⟩
    · rw [sourceBytes_withTemp hwf name (Or.inl h1), h1, h2]
    · rw [sourceBytes_withTemp hwf name (Or.inr ⟨i, h1, h2⟩), h1, h3]
  have hd := detabLoop_eq hN hf (o.source w) 1 0 (le_refl 1)
  unfold transform
  rw [hsrc, hn, hF.width, hd]
  simp only [hdf, ha, hF.append]
  refine ⟨_, rfl, .written i0 name _ _ hl hfree ?_ ?_ ?_ hout htmp
    (by obtain ⟨inp, h⟩ := hF.in_name; exact ⟨inp, by simp [hin, h]⟩)
    (by
      intro hb0
      obtain ⟨inp, j, h1, h2⟩ := hF.in_exists (by simpa [hib] using hb0)
      exact ⟨inp, j, by simp [hin, h1], h2⟩)
    (by simpa using hbk) rfl (by simp [his, hF.same]) (by simp [hib, hF.backup])
    (by simp) (by simp [hic, hF.copy]) (by simp [hiv, hF.verbose])
    (by simp [hsf, hF.sf_stdin]) (by simp [hit, hF.stat]) (by simp [hin, hF.in_eq])
    (by simp [Run.log, hmsg]) hc1 hc2 hc3⟩
  · simp [Run.log, hw, Options.newContent, Options.tempContent, write_withTemp]
  · simp [Run.log, ho]
  · simp [Run.log, ht, hw, Options.newContent, Options.tempContent, write_withTemp]

theorem writeOut_staged {fuel : Nat} {w : World} {o : Options} {out : String} {r1 : Run}
    {v2 : Locals} (hF : Front w o out r1 v2) (hwf : w.WellFormed) (hlo : 1 ≤ o.n)
    (hf : o.n.toNat ≤ fuel) :
    ∃ x, writeOut fuel r1 v2 = some x ∧ StagedRun w o out r1 x := by
  have hN : 1 ≤ o.n.toNat := by omega
  unfold writeOut openTarget
  simp only [hF.routed, if_true, hF.out_name, hF.world]
  cases hfo : w.fopenExisting out "r+" with
  | none =>
    refine ⟨_, rfl, .noWrite _ rfl ?_ ?_ ?_ hfo⟩
    · simp [Run.fail, Run.finish, Run.say, Run.log, hF.stdout]
    · simp [Run.fail, Run.finish, Run.say, Run.log]
    · simp [Run.fail, Run.finish, Run.say, Run.log]
  | some i0 =>
    have hl := fopenExisting_some hfo
    have hc1 : w.fopenExisting out "r+" ≠ none := by simp [hfo]
    dsimp only
    have hstem : dirname out ++ DIRSEPARATOR_STRING ++ "dt" = tmpStem out := rfl
    simp only [hstem, Run.log]
    cases hm : (w.mkstemp (tmpStem out)).2 with
    | none =>
      have hw1 := mkstemp_none hm
      refine ⟨_, rfl, .noTemp _ i0 hl rfl ?_ ?_ ?_ hc1 hm⟩
      · simp [Run.fail, Run.finish, Run.say, Run.log, hF.stdout]
      · simp [Run.fail, Run.finish, Run.say, Run.log, hw1]
      · simp [Run.fail, Run.finish, Run.say, Run.log, hw1]
    | some val =>
      obtain ⟨name, t⟩ := val
      have hc2 : (w.mkstemp (tmpStem out)).2 ≠ none := by simp [hm]
      obtain ⟨hfree, rfl, hw1⟩ := mkstemp_some hm
      dsimp only
      rw [hw1]
      by_cases hb : v2.iBackup = true
      · simp only [hb, if_true]
        cases hbn : bakName out with
        | none =>
          refine ⟨_, rfl, .noBackup _ i0 name hl hfree rfl ?_ ?_ ?_ hc1 hc2
            ⟨hF.backup.symm.trans hb, hbn⟩⟩
          · simp [Run.fail, Run.finish, Run.say, hF.stdout]
          · simp [Run.fail, Run.finish, Run.say]
          · simp [Run.fail, Run.finish, Run.say]
        | some bak =>
          dsimp only
          exact staged_transform hF hwf hlo hf hl hfree rfl hF.stdout (by simp) rfl rfl rfl
            rfl rfl rfl rfl (by simp [hb]) (fun _ => hbn) rfl rfl rfl rfl rfl hc1 hc2
            (fun h => by rw [hbn] at h; exact absurd h.2 (by simp))
      · simp only [hb]
        have hb0 : v2.iBackup = false := by simpa using hb
        exact staged_transform hF hwf hlo hf hl hfree rfl hF.stdout (by simp) rfl rfl rfl
          rfl rfl rfl rfl (by simp [hb0]) (fun h => by simp at h) rfl rfl rfl rfl rfl hc1 hc2
          (fun h => by rw [← hF.backup, hb0] at h; exact absurd h.1 (by simp))

end Detab

namespace Detab

/-! ## The temporary file -/

theorem freeName_some {w : World} {stem name : String} : ∀ {tags : List String},
    w.freeName stem tags = some name →
      ∃ tag ∈ tags, name = stem ++ tag ∧ w.lookup name = none := by
  intro tags
  induction tags with
  | nil => intro h; simp [World.freeName] at h
  | cons tag tags ih =>
    intro h
    unfold World.freeName at h
    split at h
    · rename_i hfree
      simp only [Option.some.injEq] at h
      subst h
      exact ⟨tag, by simp, rfl, by simpa using hfree⟩
    · obtain ⟨t, ht, h1, h2⟩ := ih h
      exact ⟨t, by simp [ht], h1, h2⟩

end Detab

namespace Detab

theorem Front.trace_after {w : World} {o : Options} {out : String} {r1 : Run} {v2 : Locals}
    (hF : Front w o out r1 v2) : ∀ e ∈ r1.trace, e.after = w ∧ ∃ p, e.call = .fopen p "rb" := by
  intro e he
  rcases hF.trace with h | ⟨inp, h⟩
  · simp [h] at he
  · simp only [h, List.mem_singleton] at he
    subst he
    exact ⟨rfl, _, rfl⟩

theorem worldAC_wellFormed : worldAC.WellFormed := by
  intro k i h
  simp only [worldAC, worldOf, List.lookup] at h
  split at h
  · simp only [Option.some.injEq] at h; subst h; decide
  · split at h
    · simp only [Option.some.injEq] at h; subst h; decide
    · cases h

theorem canon_ne_of_lookup {w : World} {p q : String} {i : Nat} (hp : w.lookup p = some i)
    (hq : w.lookup q = none) : w.canon p ≠ w.canon q := by
  intro h
  simp only [World.lookup, h] at hp
  simp only [World.lookup] at hq
  rw [hq] at hp
  cases hp

end Detab
namespace Detab

/-! ## Supporting facts: the direct route to standard output, canonical names -/

/-- Without the backup flag the destination "unspecified or `-`, not in place"
is standard output: the only call is the opening of the source, the world is
left as it was, and a run that returns 0 has written the complete new content
to standard output. -/
theorem stdout_route_without_backup (fuel : Nat) (w : World) (args : List String)
    (o : Options) (msgs : List Msg) (hp : parseArgs args {} [] = .run o msgs)
    (hlo : 1 ≤ o.n) (hhi : o.n ≤ 32) (hf : 32 ≤ fuel)
    (hout : o.pszOutName = none ∨ o.pszOutName = some "-") (hs : o.iSameFile = false)
    (hb : o.iBackup = false) :
    ∃ r, main fuel w args = some r ∧ r.w = w
      ∧ (∀ e ∈ r.trace, ∃ p, e.call = .fopen p "rb")
      ∧ (r.status = .exit 0 ∨ r.status = .exit 2)
      ∧ (r.status = .exit 0 → r.stdout = o.newContent w) := by
  have hn : ¬ (o.n < 1 ∨ o.n > 32) := by omega
  have hN : 1 ≤ o.n.toNat := by omega
  have hf' : o.n.toNat ≤ fuel := by omega
  have hd := detabLoop_eq hN hf' (o.source w) 1 0 (le_refl 1)
  simp only [main, hp, mainRun, hn, if_false]
  have key : ∀ (r1 : Run) (v1 : Locals), r1.w = w → r1.stdout = [] →
      (∀ e ∈ r1.trace, ∃ p, e.call = .fopen p "rb") →
      v1.pszOutName = o.pszOutName → v1.iSameFile = false → v1.iBackup = false →
      v1.n = o.n.toNat → v1.append = o.append → sourceBytes w v1.sf = o.source w →
      v1.df = none →
      ∃ r, (match resolveTarget r1.w v1 with
            | none => some (r1.finish .undefined)
            | some v2 => writeOut fuel r1 v2) = some r ∧ r.w = w
        ∧ (∀ e ∈ r.trace, ∃ p, e.call = .fopen p "rb")
        ∧ (r.status = .exit 0 ∨ r.status = .exit 2)
        ∧ (r.status = .exit 0 → r.stdout = o.newContent w) := by
    intro r1 v1 hw ho htr hon hsf hbk hnn hap hsrc hdf
    have hres : ∃ v2, resolveTarget r1.w v1 = some v2 ∧ v2.df = some .stdout
        ∧ v2.iSameFile = false ∧ v2.iBackup = false ∧ v2.n = o.n.toNat
        ∧ v2.append = o.append ∧ v2.sf = v1.sf := by
      rcases hout with h | h
      · exact ⟨{ v1 with df := some .stdout }, by simp [resolveTarget, hon, h, hsf], rfl, hsf,
          hbk, hnn, hap, rfl⟩
      · exact ⟨{ v1 with iSameFile := false, df := some .stdout },
          by simp [resolveTarget, hon, h, streq], rfl, rfl, hbk, hnn, hap, rfl⟩
    obtain ⟨v2, hv2, hdf2, hsf2, hbk2, hn2, hap2, hsrc2⟩ := hres
    rw [hv2]
    simp only [writeOut, openTarget, hsf2, hbk2, hdf2, Bool.or_self, Bool.false_eq_true,
      if_false, transform, hw, hsrc2, hsrc, hn2, hd, finalize, Bool.false_and, publish,
      copyMode, copyTime, finish0]
    refine ⟨_, rfl, ?_, ?_, ?_, ?_⟩
    · split <;> simp [Run.finish, Run.say, hw]
    · split <;> simpa [Run.finish, Run.say] using htr
    · split <;> simp [Run.finish, Run.say]
    · intro _
      split <;> simp [Run.finish, Run.say, ho, hap2, Options.newContent]
  cases hin : o.pszInName with
  | none =>
    have hos : openSource ⟨w, [], msgs, []⟩ o.locals
        = .ok (⟨w, [], msgs, []⟩, { o.locals with sf := .stdin, iSameFile := false }) := by
      simp [openSource, Options.locals, hin]
    rw [hos]
    exact key _ _ rfl rfl (by simp) rfl rfl (by simp [Options.locals, hb]) rfl rfl
      (by simp [Options.source, hin, sourceBytes]) rfl
  | some inp =>
    by_cases hdash : inp = "-"
    · subst hdash
      rw [openSource_stdin _ _ (by simpa [Options.locals] using hin)]
      exact key _ _ rfl rfl (by simp) rfl rfl (by simp [Options.locals, hb]) rfl rfl
        (by simp [Options.source, hin, sourceBytes]) rfl
    · cases hfo : w.fopenExisting inp "rb" with
      | none =>
        rw [openSource_fail _ _ (by simpa [Options.locals] using hin) hdash hfo]
        refine ⟨_, rfl, rfl, ?_, Or.inr rfl, ?_⟩
        · intro e he
          simp only [Run.fail, Run.finish, Run.say, Run.log, List.nil_append,
            List.mem_singleton] at he
          subst he
          exact ⟨_, rfl⟩
        · intro h
          simp [Run.fail, Run.finish] at h
      | some i =>
        have hl := fopenExisting_some hfo
        rw [openSource_file _ _ (by simpa [Options.locals] using hin) hdash hfo]
        refine key _ _ rfl rfl ?_ rfl (by simp [Options.locals, hs])
          (by simp [Options.locals, hb]) rfl rfl (by simp [Options.source, hin, hdash, hl]) rfl
        intro e he
        simp only [Run.log, List.nil_append, List.mem_singleton] at he
        subst he
        exact ⟨_, rfl⟩

/-- Two path strings with one canonical name that exists are the same file for
`IsSameFile` (a relative and an absolute name, a symbolic link and its
target). -/
theorem IsSameFile_of_canon_eq (w : World) (p q : String) (hc : w.canon p = w.canon q)
    {i : Nat} (hp : w.lookup p = some i) : IsSameFile w p q = true := by
  have hq : w.lookup q = some i := by
    simpa [World.lookup, hc] using hp
  have hst : w.stat p = w.stat q := by simp [World.stat, hp, hq]
  unfold IsSameFile
  by_cases hs : streq p q = true
  · simp [hs]
  · simp only [hs, hst, World.realpath, hp, hq, hc, SAMENAME, streq]
    simp

end Detab

namespace Detab

/-! ## The File Identity rule -/

/-- C11: the routine `IsSameFile` returns 1 exactly when the two path strings
are equal, or both paths exist, `stat` gives one and the same record for them
and `realpath` gives one and the same canonical name; and it returns 0 whenever
exactly one of the two paths exists (as a directory entry, or for `stat`). -/
theorem isSameFile_identity_rule (w : World) (p q : String) :
    (IsSameFile w p q = true ↔
      p = q ∨ ((w.lookup p).isSome = true ∧ (w.lookup q).isSome = true
                ∧ w.stat p = w.stat q ∧ w.realpath p = w.realpath q))
    ∧ ((w.lookup p).isSome ≠ (w.lookup q).isSome → IsSameFile w p q = false)
    ∧ ((w.stat p).isSome ≠ (w.stat q).isSome → IsSameFile w p q = false) := by
  by_cases hpq : p = q
  · subst hpq
    simp [IsSameFile, streq]
  · unfold IsSameFile
    simp only [streq, hpq, decide_False, Bool.false_eq_true, if_false, SAMENAME,
      Bool.and_false, false_or]
    cases hlp : w.lookup p with
    | none =>
      have hsp : w.stat p = none := by simp [World.stat, hlp]
      have hrp : w.realpath p = none := by simp [World.realpath, hlp]
      simp only [hsp, hrp]
      cases hsq : w.stat q <;> simp
    | some i =>
      have hrp : w.realpath p = some (w.canon p) := by simp [World.realpath, hlp]
      cases hlq : w.lookup q with
      | none =>
        have hsq : w.stat q = none := by simp [World.stat, hlq]
        have hrq : w.realpath q = none := by simp [World.realpath, hlq]
        simp only [hsq, hrp, hrq]
        cases hsp : w.stat p <;> simp
      | some j =>
        have hrq : w.realpath q = some (w.canon q) := by simp [World.realpath, hlq]
        simp only [hrp, hrq]
        cases hsp : w.stat p <;> cases hsq : w.stat q <;> simp

end Detab

namespace Detab

/-! ## The append flag -/

set_option maxRecDepth 100000 in
/-- C15 fails on the code: `detab -a a.txt c.txt`, with `c.txt` holding `"x"`,
opens the destination with `"wb"`, which empties it, and leaves in it the form
feed followed by the expansion of `a.txt`; the previous content `"x"` is gone. -/
theorem append_flag_truncates :
    worldAC.contentAt "c.txt" = some [120]
    ∧ (main 32 worldAC ["-a", "a.txt", "c.txt"]).map (fun r => (r.status, r.calls))
      = some (.exit 0,
          [(.fopen (some "a.txt") "rb", true), (.fopen (some "c.txt") "wb", true),
           (.write 2 [12, 97, 32, 32, 32, 32, 32, 32, 32, 98, 10], true),
           (.chmod "c.txt" 0o100644, true)])
    ∧ (main 32 worldAC ["-a", "a.txt", "c.txt"]).map (fun r => r.w.contentAt "c.txt")
      = some (some [12, 97, 32, 32, 32, 32, 32, 32, 32, 98, 10])
    ∧ (main 32 worldAC ["-a", "a.txt", "c.txt"]).map (fun r => r.w.contentAt "c.txt")
      ≠ some (some ([120] ++ [12] ++ [97, 32, 32, 32, 32, 32, 32, 32, 98, 10])) := by
  decide

end Detab

namespace Detab

/-! ## The in-place run that changes nothing -/

theorem finalize_unchanged (r : Run) (v : Locals) (hs : v.iSameFile = true)
    (hc : v.lnChanges = 0) :
    finalize r v
      = finish0 (r.log (.unlink v.pszTmpName) (decide ((r.w.unlink v.pszTmpName).2 = .ok))
          (r.w.unlink v.pszTmpName).1) v := by
  simp [finalize, hs, hc]

theorem finish0_toRun (r : Run) (v : Locals) :
    (finish0 r v).w = r.w ∧ (finish0 r v).trace = r.trace ∧ (finish0 r v).stdout = r.stdout
      ∧ (finish0 r v).status = .exit 0 := by
  unfold finish0
  split <;> simp [Run.finish, Run.say]

/-- The world a staged run leaves when it discards the temporary file `name`
right after writing it: the directory and the inodes that existed are as in
`w`, except that the entry of `name` is still there when `unlink` failed. -/
theorem discarded_temp_world {w : World} {name : String}
    (hfree : w.lookup name = none) (new : List UInt8) :
    let w2 := (((w.withTemp name).store w.nextIno new).unlink name).1
    w2.canon = w.canon
      ∧ (∀ i, i < w.nextIno → w2.inode i = w.inode i)
      ∧ (∀ k, k ≠ w.canon name → w2.dir k = w.dir k)
      ∧ (w.fault (.unlink name) = false → w2.dir = w.dir)
      ∧ ((((w.withTemp name).store w.nextIno new).unlink name).2 = .ok
          ↔ w.fault (.unlink name) = false) := by
  have hl : ((w.withTemp name).store w.nextIno new).lookup name = some w.nextIno := by
    simp [World.store, World.withTemp, World.lookup, World.setInode, World.setDir]
  have hfa : ((w.withTemp name).store w.nextIno new).fault = w.fault := by
    simp [World.store, World.withTemp, World.setInode, World.setDir]
  have hca : ((w.withTemp name).store w.nextIno new).canon = w.canon := by
    simp [World.store, World.withTemp, World.setInode, World.setDir]
  have hino : ∀ i, i < w.nextIno → ((w.withTemp name).store w.nextIno new).inode i = w.inode i := by
    intro i hi
    have : i ≠ w.nextIno := by omega
    simp [World.store, World.withTemp, World.setInode, World.setDir, this]
  have hdir : ∀ k, k ≠ w.canon name →
      ((w.withTemp name).store w.nextIno new).dir k = w.dir k := by
    intro k hk
    simp [World.store, World.withTemp, World.setInode, World.setDir, hk]
  by_cases hf : w.fault (.unlink name) = true
  · simp only [World.unlink, hfa, hf, if_true]
    exact ⟨hca, hino, hdir, by simp [hf], by simp [hf]⟩
  · have hf0 : w.fault (.unlink name) = false := by simpa using hf
    simp only [World.unlink, hfa, hf0, hl, Bool.false_eq_true, if_false]
    refine ⟨by simp [World.setDir, hca], ?_, ?_, ?_, by simp⟩
    · intro i hi
      simpa [World.setDir] using hino i hi
    · intro k hk
      simpa [World.setDir, hca, hk] using hdir k hk
    · intro _
      funext k
      by_cases hk : k = w.canon name
      · subst hk
        simpa [World.setDir, hca, World.lookup] using hfree.symm
      · simpa [World.setDir, hca, hk] using hdir k hk

theorem withTemp_frame {w : World} (name : String) :
    (w.withTemp name).canon = w.canon
      ∧ (∀ i, i < w.nextIno → (w.withTemp name).inode i = w.inode i)
      ∧ (∀ k, k ≠ w.canon name → (w.withTemp name).dir k = w.dir k) := by
  refine ⟨rfl, ?_, ?_⟩
  · intro i hi
    have : i ≠ w.nextIno := by omega
    simp [World.withTemp, World.setInode, World.setDir, this]
  · intro k hk
    simp [World.withTemp, World.setInode, World.setDir, hk]

/-- A path whose directory entry and inode are as before shows the same
`stat` record and the same bytes. -/
theorem stat_of_frame {w w2 : World} (hwf : w.WellFormed) (p : String)
    (hc : w2.canon = w.canon) (hd : w2.dir (w.canon p) = w.dir (w.canon p))
    (hi : ∀ i, i < w.nextIno → w2.inode i = w.inode i) :
    w2.stat p = w.stat p ∧ w2.contentAt p = w.contentAt p := by
  have hl : w2.lookup p = w.lookup p := by simp [World.lookup, hc, hd]
  cases hlp : w.lookup p with
  | none => simp [World.stat, World.contentAt, hl, hlp]
  | some i =>
    have hlt : i < w.nextIno := hwf _ _ hlp
    simp [World.stat, World.contentAt, hl, hlp, hi i hlt]

set_option maxRecDepth 100000 in
/-- C13 as stated fails for a run that is stopped while it opens its files:
`detab -b c.bak c.bak` is an in-place run on a file without a tab byte; it
creates its temporary file, then refuses to back up a file whose extension is
`.bak` and exits with status 2. The temporary file `./dtAAAAAA` is not
discarded: it is still there after the run. It is not discarded either by the
in-place run `detab c.txt -=` in a world where `unlink` fails: the result of
the call is not looked at and the run returns 0. -/
theorem unchanged_counterexample :
    (main 32 worldNoUnlink ["c.txt", "-="]).map
        (fun r => (r.status, r.calls, r.w.lookup "./dtAAAAAA"))
      = some (.exit 0,
          [(.fopen (some "c.txt") "rb", true), (.fopen (some "c.txt") "r+", true),
           (.mkstemp "./dtXXXXXX", true), (.write 100 [120], true),
           (.unlink "./dtAAAAAA", false)],
          some 100)
    ∧ IsSameFile worldBak "c.bak" "c.bak" = true
    ∧ worldBak.contentAt "c.bak" = some [111, 108, 100]
    ∧ worldBak.lookup "./dtAAAAAA" = none
    ∧ (main 32 worldBak ["-b", "c.bak", "c.bak"]).map (fun r => (r.status, r.calls, r.msgs))
      = some (.exit 2,
          [(.fopen (some "c.bak") "rb", true), (.fopen (some "c.bak") "r+", true),
           (.mkstemp "./dtXXXXXX", true)],
          [.cantBackupFile "c.bak"])
    ∧ (main 32 worldBak ["-b", "c.bak", "c.bak"]).map (fun r => r.w.lookup "./dtAAAAAA")
      = some (some 100)
    ∧ (main 32 worldBak ["-b", "c.bak", "c.bak"]).map (fun r => r.w.contentAt "./dtAAAAAA")
      = some (some []) := by
  decide

/-- C13 amended: an in-place run (the destination is the source for `main`)
on a source without a tab byte leaves every inode that existed as it was
(bytes, mode, times) and every directory entry but the temporary file's as it
was: the destination shows the same `stat` record and the same bytes, and no
backup file is created or replaced. The only call of the finalize protocol is
the `unlink` of the temporary file (no `rename`, `chmod` or `utime`); a run
that returns 0 has made it, and when that call succeeds the directory is as
before the run. (A run stopped while it opens its files exits with status 2
and may leave the temporary file behind.) -/
theorem unchanged_in_place_run (fuel : Nat) (w : World) (args : List String) (o : Options)
    (msgs : List Msg) (out : String) (hp : parseArgs args {} [] = .run o msgs)
    (hlo : 1 ≤ o.n) (hhi : o.n ≤ 32) (hf : 32 ≤ fuel) (hwf : w.WellFormed)
    (hr : RoutedTo w o out) (hs : o.sameFile w = true) (hc : TAB ∉ o.source w) :
    ∃ r, main fuel w args = some r
      ∧ r.w.canon = w.canon
      ∧ (∀ i, i < w.nextIno → r.w.inode i = w.inode i)
      ∧ (∀ k, r.w.dir k = w.dir k
          ∨ ∃ name, w.freeName (tmpStem out) w.tmpTags = some name ∧ k = w.canon name)
      ∧ r.w.stat out = w.stat out ∧ r.w.contentAt out = w.contentAt out
      ∧ (∀ e ∈ r.trace, e.call.isFinal = true →
          ∃ name, w.freeName (tmpStem out) w.tmpTags = some name ∧ e.call = .unlink name)
      ∧ (r.status = .exit 0 →
          ∃ name, w.freeName (tmpStem out) w.tmpTags = some name
            ∧ (∃ e ∈ r.trace, e.call = .unlink name)
            ∧ (w.fault (.unlink name) = false → r.w.dir = w.dir)) := by
  have hf' : o.n.toNat ≤ fuel := by omega
  have same : ∀ (x : Outcome), x.w = w → x.w.canon = w.canon
      ∧ (∀ i, i < w.nextIno → x.w.inode i = w.inode i)
      ∧ (∀ k, x.w.dir k = w.dir k
          ∨ ∃ name, w.freeName (tmpStem out) w.tmpTags = some name ∧ k = w.canon name)
      ∧ x.w.stat out = w.stat out ∧ x.w.contentAt out = w.contentAt out := by
    intro x hx
    rw [hx]
    exact ⟨rfl, fun _ _ => rfl, fun _ => Or.inl rfl, rfl, rfl⟩
  rcases main_routed_front fuel hp hlo hhi hr with ⟨inp, hm, hsrc⟩ | ⟨r1, v2, hm, hF⟩
  · obtain ⟨h1, h2, h3, h4, h5⟩ := same ((Run.log ⟨w, [], msgs, []⟩
      (.fopen (some inp) "rb") false w).fail (.cantOpen inp)) rfl
    refine ⟨_, hm, h1, h2, h3, h4, h5, ?_, ?_⟩
    · intro e he hfin
      simp only [Run.fail, Run.finish, Run.say, Run.log, List.nil_append,
        List.mem_singleton] at he
      subst he
      simp [Call.isFinal] at hfin
    · intro h0
      simp [Run.fail, Run.finish] at h0
  · obtain ⟨x, hx, hS⟩ := writeOut_staged hF hwf hlo hf'
    rw [hm, hx]
    refine ⟨x, rfl, ?_⟩
    have hpre0 : ∀ e ∈ r1.trace, e.call.isFinal = false := by
      intro e he
      obtain ⟨_, q, hq⟩ := hF.trace_after e he
      rw [hq]
      rfl
    cases hS with
    | noWrite x hs0 ho hw ht =>
      obtain ⟨h1, h2, h3, h4, h5⟩ := same x hw
      refine ⟨h1, h2, h3, h4, h5, ?_, ?_⟩
      · intro e he hfin
        rw [ht] at he
        rcases List.mem_append.1 he with he | he
        · rw [hpre0 e he] at hfin; cases hfin
        · simp only [List.mem_singleton] at he
          subst he
          simp [Call.isFinal] at hfin
      · intro h0
        rw [hs0] at h0
        simp at h0
    | noTemp x i0 hl hs0 ho hw ht =>
      obtain ⟨h1, h2, h3, h4, h5⟩ := same x hw
      refine ⟨h1, h2, h3, h4, h5, ?_, ?_⟩
      · intro e he hfin
        rw [ht] at he
        rcases List.mem_append.1 he with he | he
        · rw [hpre0 e he] at hfin; cases hfin
        · simp only [List.mem_cons, List.mem_singleton, List.not_mem_nil, or_false] at he
          rcases he with rfl | rfl <;> simp [Call.isFinal] at hfin
      · intro h0
        rw [hs0] at h0
        simp at h0
    | noBackup x i0 name hl hn hs0 ho hw ht =>
      obtain ⟨tag, htag, hname, hfree⟩ := freeName_some hn
      obtain ⟨g1, g2, g3⟩ := withTemp_frame (w := w) name
      have hne := canon_ne_of_lookup hl hfree
      have hst := @stat_of_frame w x.w hwf out (by rw [hw]; exact g1)
        (by rw [hw]; exact g3 _ hne) (by rw [hw]; exact g2)
      refine ⟨by rw [hw]; exact g1, by rw [hw]; exact g2, ?_, hst.1, hst.2, ?_, ?_⟩
      · intro k
        by_cases hk : k = w.canon name
        · exact Or.inr ⟨name, hn, hk⟩
        · left; rw [hw]; exact g3 k hk
      · intro e he hfin
        rw [ht] at he
        rcases List.mem_append.1 he with he | he
        · rw [hpre0 e he] at hfin; cases hfin
        · simp only [List.mem_cons, List.mem_singleton, List.not_mem_nil, or_false] at he
          rcases he with rfl | rfl <;> simp [Call.isFinal] at hfin
      · intro h0
        rw [hs0] at h0
        simp at h0
    | written i0 name r4 v4 hl hn hw ho ht hout htmp hin hsafe hbak hdf hsame hback hchg
        hcopy hverb hsf hst hineq hmsg =>
      obtain ⟨tag, htag, hname, hfree⟩ := freeName_some hn
      have hne := canon_ne_of_lookup hl hfree
      have hch0 : v4.lnChanges = 0 := by
        rw [hchg]
        exact List.count_eq_zero.2 hc
      rw [finalize_unchanged r4 v4 (hsame.trans hs) hch0]
      obtain ⟨f1, f2, _, f4⟩ := finish0_toRun (r4.log (.unlink v4.pszTmpName)
        (decide ((r4.w.unlink v4.pszTmpName).2 = .ok)) (r4.w.unlink v4.pszTmpName).1) v4
      have hD := @discarded_temp_world w name hfree (o.tempContent w)
      dsimp only at hD
      obtain ⟨d1, d2, d3, d4, _⟩ := hD
      have hwfin : (finish0 (r4.log (.unlink v4.pszTmpName)
          (decide ((r4.w.unlink v4.pszTmpName).2 = .ok)) (r4.w.unlink v4.pszTmpName).1) v4).w
          = (((w.withTemp name).store w.nextIno (o.tempContent w)).unlink name).1 := by
        rw [f1]
        simp [Run.log, hw, htmp]
      have hst2 := @stat_of_frame w
        (((w.withTemp name).store w.nextIno (o.tempContent w)).unlink name).1 hwf out
        d1 (d3 _ hne) d2
      refine ⟨by rw [hwfin]; exact d1, by rw [hwfin]; exact d2, ?_,
        by rw [hwfin]; exact hst2.1, by rw [hwfin]; exact hst2.2, ?_, ?_⟩
      · intro k
        by_cases hk : k = w.canon name
        · exact Or.inr ⟨name, hn, hk⟩
        · left; rw [hwfin]; exact d3 k hk
      · intro e he hfin
        rw [f2] at he
        simp only [Run.log] at he
        rcases List.mem_append.1 he with he | he
        · rw [ht] at he
          rcases List.mem_append.1 he with he | he
          · rw [hpre0 e he] at hfin; cases hfin
          · simp only [List.mem_cons, List.mem_singleton, List.not_mem_nil, or_false] at he
            rcases he with rfl | rfl | rfl <;> simp [Call.isFinal] at hfin
        · simp only [List.mem_singleton] at he
          subst he
          exact ⟨name, hn, by simp [htmp]⟩
      · intro _
        refine ⟨name, hn, ⟨_, by rw [f2]; simp [Run.log]; exact Or.inr rfl, by simp [htmp]⟩, ?_⟩
        intro hnf
        rw [hwfin]
        exact d4 hnf

theorem unchanged_in_place_run_witness :
    (parseArgs ["c.txt", "-="] {} [] = .run { pszInName := some "c.txt", iSameFile := true } []
      ∧ (1 : Int) ≤ 8 ∧ (8 : Int) ≤ 32 ∧ 32 ≤ 32 ∧ worldAC.WellFormed
      ∧ RoutedTo worldAC { pszInName := some "c.txt", iSameFile := true } "c.txt"
      ∧ Options.sameFile { pszInName := some "c.txt", iSameFile := true } worldAC = true
      ∧ TAB ∉ Options.source { pszInName := some "c.txt", iSameFile := true } worldAC) ∧
    ∃ r, main 32 worldAC ["c.txt", "-="] = some r
      ∧ r.w.canon = worldAC.canon
      ∧ (∀ i, i < worldAC.nextIno → r.w.inode i = worldAC.inode i)
      ∧ (∀ k, r.w.dir k = worldAC.dir k
          ∨ ∃ name, worldAC.freeName (tmpStem "c.txt") worldAC.tmpTags = some name
              ∧ k = worldAC.canon name)
      ∧ r.w.stat "c.txt" = worldAC.stat "c.txt"
      ∧ r.w.contentAt "c.txt" = worldAC.contentAt "c.txt"
      ∧ (∀ e ∈ r.trace, e.call.isFinal = true →
          ∃ name, worldAC.freeName (tmpStem "c.txt") worldAC.tmpTags = some name
            ∧ e.call = .unlink name)
      ∧ (r.status = .exit 0 →
          ∃ name, worldAC.freeName (tmpStem "c.txt") worldAC.tmpTags = some name
            ∧ (∃ e ∈ r.trace, e.call = .unlink name)
            ∧ (worldAC.fault (.unlink name) = false → r.w.dir = worldAC.dir)) :=
  have hr : RoutedTo worldAC { pszInName := some "c.txt", iSameFile := true } "c.txt" :=
    Or.inr ⟨rfl, by decide, rfl, rfl⟩
  ⟨⟨by decide, by decide, by decide, by decide, worldAC_wellFormed, hr, by decide, by decide⟩,
    unchanged_in_place_run 32 worldAC ["c.txt", "-="] { pszInName := some "c.txt", iSameFile := true }
      [] "c.txt" (by decide) (by decide) (by decide) (by decide) worldAC_wellFormed hr
      (by decide) (by decide)⟩

end Detab

namespace Detab

/-! ## The finalize protocol written out -/

theorem finalize_changed (r : Run) (v : Locals)
    (h : ¬ (v.iSameFile = true ∧ v.lnChanges = 0)) :
    finalize r v
      = match publish r v with
        | .error e => e
        | .ok r1 => finish0 (copyTime (copyMode r1 v) v) v := by
  unfold finalize
  have : (v.iSameFile && decide (v.lnChanges = 0)) = false := by
    by_cases h1 : v.iSameFile = true
    · have h2 : v.lnChanges ≠ 0 := fun h2 => h ⟨h1, h2⟩
      simp [h1, h2]
    · simp [h1]
  simp only [this, Bool.false_eq_true, if_false]

/-- The backup branch of `publish`, call by call. -/
theorem publish_backup (r : Run) (v : Locals) {out : String} (hout : v.pszOutName = some out)
    (hb : v.iBackup = true) :
    publish r v
      = if (r.w.unlink v.szBakName).2 = .failed then
          .error ((r.log (.unlink v.szBakName) false (r.w.unlink v.szBakName).1).fail
            (.cantDelete v.szBakName))
        else if ((r.w.unlink v.szBakName).1.rename out v.szBakName).2 = false then
          .error (((r.log (.unlink v.szBakName) (decide ((r.w.unlink v.szBakName).2 = .ok))
              (r.w.unlink v.szBakName).1).log (.rename out v.szBakName) false
              ((r.w.unlink v.szBakName).1.rename out v.szBakName).1).fail (.cantBackup out))
        else if ((((r.w.unlink v.szBakName).1.rename out v.szBakName).1).rename
            v.pszTmpName out).2 = false then
          .error ((((r.log (.unlink v.szBakName) (decide ((r.w.unlink v.szBakName).2 = .ok))
              (r.w.unlink v.szBakName).1).log (.rename out v.szBakName) true
              ((r.w.unlink v.szBakName).1.rename out v.szBakName).1).log
              (.rename v.pszTmpName out) false
              ((((r.w.unlink v.szBakName).1.rename out v.szBakName).1).rename
                v.pszTmpName out).1).fail (.cantCreate out))
        else
          .ok (((r.log (.unlink v.szBakName) (decide ((r.w.unlink v.szBakName).2 = .ok))
              (r.w.unlink v.szBakName).1).log (.rename out v.szBakName) true
              ((r.w.unlink v.szBakName).1.rename out v.szBakName).1).log
              (.rename v.pszTmpName out) true
              ((((r.w.unlink v.szBakName).1.rename out v.szBakName).1).rename
                v.pszTmpName out).1) := by
  unfold publish backupOld renameOrFail
  simp only [hout, hb, Bool.or_true, if_true, Run.log]
  by_cases h1 : (r.w.unlink v.szBakName).2 = .failed
  · simp [h1]
  · by_cases h2 : ((r.w.unlink v.szBakName).1.rename out v.szBakName).2 = true
    · by_cases h3 : ((((r.w.unlink v.szBakName).1.rename out v.szBakName).1).rename
          v.pszTmpName out).2 = true
      · simp [h1, h2, h3]
      · simp [h1, h2, h3]
    · simp [h1, h2]

/-- The branch of `publish` for an in-place run without backup, call by call. -/
theorem publish_in_place (r : Run) (v : Locals) {out inp : String}
    (hout : v.pszOutName = some out) (hin : v.pszInName = some inp) (hs : v.iSameFile = true)
    (hb : v.iBackup = false) :
    publish r v
      = if (r.w.unlink inp).2 ≠ .ok then
          .error ((r.log (.unlink inp) false (r.w.unlink inp).1).fail (.cantDelete inp))
        else if ((r.w.unlink inp).1.rename v.pszTmpName out).2 = false then
          .error (((r.log (.unlink inp) true (r.w.unlink inp).1).log
              (.rename v.pszTmpName out) false
              ((r.w.unlink inp).1.rename v.pszTmpName out).1).fail (.cantCreate out))
        else
          .ok ((r.log (.unlink inp) true (r.w.unlink inp).1).log
              (.rename v.pszTmpName out) true
              ((r.w.unlink inp).1.rename v.pszTmpName out).1) := by
  unfold publish removeOld renameOrFail
  simp only [hout, hin, hb, hs, Bool.or_false, if_true, Bool.false_eq_true, if_false, Run.log]
  by_cases h1 : (r.w.unlink inp).2 = .ok
  · by_cases h3 : ((r.w.unlink inp).1.rename v.pszTmpName out).2 = true
    · simp [h1, h3]
    · simp [h1, h3]
  · simp [h1]

/-- The end of `main` for a destination file, call by call: `chmod`, then
`utime` when the source is a file and either no tab was replaced or `-st` was
given. -/
theorem tail_file (r : Run) (v : Locals) {out : String} {i : Nat}
    (hdf : v.df = some (.file i)) (hout : v.pszOutName = some out) :
    copyTime (copyMode r v) v
      = if v.sf ≠ .stdin ∧ (v.lnChanges = 0 ∨ v.iCopyTime = true) then
          (r.log (.chmod out v.sInTime.st_mode) (r.w.chmod out v.sInTime.st_mode).2
              (r.w.chmod out v.sInTime.st_mode).1).log
            (.utime out v.sInTime.st_atime v.sInTime.st_mtime)
            ((r.w.chmod out v.sInTime.st_mode).1.utime out v.sInTime.st_atime
              v.sInTime.st_mtime).2
            ((r.w.chmod out v.sInTime.st_mode).1.utime out v.sInTime.st_atime
              v.sInTime.st_mtime).1
        else
          r.log (.chmod out v.sInTime.st_mode) (r.w.chmod out v.sInTime.st_mode).2
              (r.w.chmod out v.sInTime.st_mode).1 := by
  unfold copyTime copyMode
  simp only [hdf, hout]
  by_cases h1 : v.sf = .stdin
  · simp [h1]
  · by_cases h2 : v.lnChanges = 0
    · simp [h1, h2, Run.log]
    · by_cases h3 : v.iCopyTime = true
      · simp [h1, h2, h3, Run.log]
      · simp [h1, h2, h3]

end Detab

namespace Detab

/-! ## What the calls of the finalize protocol do to the directory -/

theorem unlink_result (w : World) (p : String) :
    ((w.unlink p).2 = .failed ↔ w.fault (.unlink p) = true)
      ∧ ((w.unlink p).2 = .ok ↔ w.fault (.unlink p) = false ∧ (w.lookup p).isSome = true) := by
  unfold World.unlink
  by_cases hf : w.fault (.unlink p) = true
  · simp [hf]
  · cases hl : w.lookup p <;> simp [hf]

theorem rename_result (w : World) (a b : String) :
    (w.rename a b).2 = true ↔ w.fault (.rename a b) = false ∧ (w.lookup a).isSome = true := by
  unfold World.rename
  by_cases hf : w.fault (.rename a b) = true
  · simp [hf]
  · cases hl : w.lookup a with
    | none => simp [hf]
    | some i =>
      by_cases hb : w.lookup b = some i
      · simp [hf, hb]
      · simp [hf, hb]

end Detab

namespace Detab

/-! ## The backup -/

theorem worldBak_wellFormed : worldBak.WellFormed := by
  intro k i h
  simp only [worldBak, worldOf, List.lookup] at h
  split at h
  · simp only [Option.some.injEq] at h; subst h; decide
  · split at h
    · simp only [Option.some.injEq] at h; subst h; decide
    · split at h
      · simp only [Option.some.injEq] at h; subst h; decide
      · cases h

end Detab

namespace Detab

/-! ## The name of the backup file -/

theorem lastExtension_none : ∀ l : List Char, lastExtension l = none →
    '.' ∉ l ∧ withoutLastExtension l = l
  | [], _ => by simp [withoutLastExtension]
  | c :: cs, h => by
    unfold lastExtension at h
    unfold withoutLastExtension
    cases hcs : lastExtension cs with
    | some e => simp [hcs] at h
    | none =>
      simp only [hcs] at h
      have ih := lastExtension_none cs hcs
      by_cases hc : c = '.'
      · simp [hc] at h
      · simp [ih.1, ih.2, Ne.symm hc, hc]

theorem lastExtension_some : ∀ (l e : List Char), lastExtension l = some e →
    ∃ suf, e = '.' :: suf ∧ '.' ∉ suf ∧ l = withoutLastExtension l ++ '.' :: suf
  | [], e, h => by simp [lastExtension] at h
  | c :: cs, e, h => by
    unfold lastExtension at h
    unfold withoutLastExtension
    cases hcs : lastExtension cs with
    | some e2 =>
      simp only [hcs, Option.some.injEq] at h
      subst h
      obtain ⟨suf, h1, h2, h3⟩ := lastExtension_some cs e2 hcs
      exact ⟨suf, h1, h2, by simp [← h3]⟩
    | none =>
      simp only [hcs] at h
      by_cases hc : c = '.'
      · simp only [hc, if_true, Option.some.injEq] at h
        subst h
        exact ⟨cs, rfl, (lastExtension_none cs hcs).1, by simp [hc]⟩
      · simp [hc] at h

theorem splitExt_none (l : List Char) (h : '.' ∉ l) : splitExt (String.mk l) = none := by
  unfold splitExt
  have : List.takeWhile (fun c => decide (c ≠ '.')) l.reverse = l.reverse := by
    rw [List.takeWhile_eq_self_iff]
    intro x hx
    have : x ≠ '.' := by
      rintro rfl
      exact h (List.mem_reverse.1 hx)
    simpa using this
  simp only [this]
  simp

theorem splitExt_some (pre suf : List Char) (h : '.' ∉ suf) :
    splitExt (String.mk (pre ++ '.' :: suf)) = some (String.mk pre, String.mk ('.' :: suf)) := by
  unfold splitExt
  have hr : (pre ++ '.' :: suf).reverse = suf.reverse ++ '.' :: pre.reverse := by simp
  have ht : List.takeWhile (fun c => decide (c ≠ '.')) (suf.reverse ++ '.' :: pre.reverse)
      = suf.reverse := by
    rw [List.takeWhile_append_of_pos]
    · simp
    · intro x hx
      have : x ≠ '.' := by
        rintro rfl
        exact h (List.mem_reverse.1 hx)
      simpa using this
  have hd : List.drop (suf.length + 1) (suf.reverse ++ '.' :: pre.reverse) = pre.reverse := by
    have h1 : suf.reverse ++ '.' :: pre.reverse = (suf.reverse ++ ['.']) ++ pre.reverse := by
      simp
    have hl : (suf.reverse ++ ['.']).length = suf.length + 1 := by simp
    rw [h1, ← hl, List.drop_left]
  simp only [hr, ht, List.length_reverse, hd]
  simp

/-- The split that `strrchr` finds is the one the specification words: the
text from the final `.` on, and what precedes it. -/
theorem splitExt_eq (base : String) :
    splitExt base = (lastExtension base.data).map
      (fun e => (String.mk (withoutLastExtension base.data), String.mk e)) := by
  obtain ⟨l⟩ := base
  cases h : lastExtension l with
  | none => simpa [h] using splitExt_none l (lastExtension_none l h).1
  | some e =>
    obtain ⟨suf, h1, h2, h3⟩ := lastExtension_some l e h
    have := splitExt_some (withoutLastExtension l) suf h2
    rw [← h3] at this
    simp [h, this, h1]

/-- The name `main` computes for the backup file is the specification's
backup path, and there is none when the last extension is `.bak`. -/
theorem bakName_eq (out : String) :
    bakName out
      = if lastExtension (basename out).data = some ".bak".data then none
        else some (specBackupPath out) := by
  unfold bakName specBackupPath
  simp only [splitExt_eq]
  cases h : lastExtension (basename out).data with
  | none =>
    simp [(lastExtension_none _ h).2]
  | some e =>
    by_cases he : e = ".bak".data
    · subst he
      simp [SAMENAME, streq]
    · have h2 : (String.mk e = ".bak") = False := by
        simp only [eq_iff_iff, iff_false]
        intro hc
        apply he
        rw [← hc]
      simp [SAMENAME, streq, h2, he]

/-- C14: the name `main` computes for the backup file is the destination's
directory, the separator, the destination's base name without its last
extension (the text from the final `.` on), and `.bak`. In a run staged for the
destination `out` with the backup in force: when the destination's last
extension is `.bak` the run exits with status 2 without any `unlink` or
`rename`; every `rename` of the run either moves the destination to that backup
path or moves the temporary file to the destination; and a run that returns 0
and is not an in-place run without any tab to replace has renamed the
destination to that backup path. -/
theorem backup_path_rule (fuel : Nat) (w : World) (args : List String) (o : Options)
    (msgs : List Msg) (out : String) (hp : parseArgs args {} [] = .run o msgs)
    (hlo : 1 ≤ o.n) (hhi : o.n ≤ 32) (hf : 32 ≤ fuel) (hwf : w.WellFormed)
    (hr : RoutedTo w o out) (hb : o.backup w = true) :
    bakName out
      = (if lastExtension (basename out).data = some ".bak".data then none
         else some (specBackupPath out))
    ∧ ∃ r, main fuel w args = some r
      ∧ (lastExtension (basename out).data = some ".bak".data →
          r.status = .exit 2 ∧ ∀ e ∈ r.trace, e.call.isFinal = false)
      ∧ (∀ e ∈ r.trace, ∀ a b, e.call = .rename a b →
          (a = out ∧ b = specBackupPath out)
            ∨ (b = out ∧ w.freeName (tmpStem out) w.tmpTags = some a))
      ∧ (r.status = .exit 0 → ¬ (o.sameFile w = true ∧ TAB ∉ o.source w) →
          ∃ e ∈ r.trace, e.call = .rename out (specBackupPath out) ∧ e.ok = true) := by
  have hf' : o.n.toNat ≤ fuel := by omega
  refine ⟨bakName_eq out, ?_⟩
  have early : ∀ (x : Outcome), x.status = .exit 2 → (∀ e ∈ x.trace, e.call.isFinal = false) →
      (lastExtension (basename out).data = some ".bak".data →
          x.status = .exit 2 ∧ ∀ e ∈ x.trace, e.call.isFinal = false)
      ∧ (∀ e ∈ x.trace, ∀ a b, e.call = .rename a b →
          (a = out ∧ b = specBackupPath out)
            ∨ (b = out ∧ w.freeName (tmpStem out) w.tmpTags = some a))
      ∧ (x.status = .exit 0 → ¬ (o.sameFile w = true ∧ TAB ∉ o.source w) →
          ∃ e ∈ x.trace, e.call = .rename out (specBackupPath out) ∧ e.ok = true) := by
    intro x hx hq
    refine ⟨fun _ => ⟨hx, hq⟩, ?_, ?_⟩
    · intro e he a b hc
      have := hq e he
      rw [hc] at this
      cases this
    · intro h0
      rw [hx] at h0
      cases h0
  rcases main_routed_front fuel hp hlo hhi hr with ⟨inp, hm, hsrc⟩ | ⟨r1, v2, hm, hF⟩
  · refine ⟨_, hm, early _ rfl ?_⟩
    intro e he
    simp only [Run.fail, Run.finish, Run.say, Run.log, List.nil_append,
      List.mem_singleton] at he
    subst he
    rfl
  · obtain ⟨x, hx, hS⟩ := writeOut_staged hF hwf hlo hf'
    rw [hm, hx]
    refine ⟨x, rfl, ?_⟩
    have hpre0 : ∀ e ∈ r1.trace, e.call.isFinal = false := by
      intro e he
      obtain ⟨_, q, hq⟩ := hF.trace_after e he
      rw [hq]
      rfl
    cases hS with
    | noWrite x hs0 ho hw ht =>
      refine early x hs0 ?_
      intro e he
      rw [ht] at he
      rcases List.mem_append.1 he with he | he
      · exact hpre0 e he
      · simp only [List.mem_singleton] at he
        subst he
        rfl
    | noTemp x i0 hl hs0 ho hw ht =>
      refine early x hs0 ?_
      intro e he
      rw [ht] at he
      rcases List.mem_append.1 he with he | he
      · exact hpre0 e he
      · simp only [List.mem_cons, List.mem_singleton, List.not_mem_nil, or_false] at he
        rcases he with rfl | rfl <;> rfl
    | noBackup x i0 name hl hn hs0 ho hw ht =>
      refine early x hs0 ?_
      intro e he
      rw [ht] at he
      rcases List.mem_append.1 he with he | he
      · exact hpre0 e he
      · simp only [List.mem_cons, List.mem_singleton, List.not_mem_nil, or_false] at he
        rcases he with rfl | rfl <;> rfl
    | written i0 name r4 v4 hl hn hw ho ht hout htmp hin hsafe hbak hdf hsame hback hchg
        hcopy hverb hsf hst hineq hmsg =>
      have hb4 : v4.iBackup = true := hback.trans hb
      have hbk := hbak hb4
      have hext : lastExtension (basename out).data ≠ some ".bak".data := by
        intro hc
        rw [bakName_eq, if_pos hc] at hbk
        cases hbk
      have hbk2 : v4.szBakName = specBackupPath out := by
        rw [bakName_eq, if_neg hext] at hbk
        exact (Option.some.inj hbk).symm
      have hpre4 : ∀ e ∈ r4.trace, e.call.isFinal = false := by
        intro e he
        rw [ht] at he
        rcases List.mem_append.1 he with he | he
        · exact hpre0 e he
        · simp only [List.mem_cons, List.mem_singleton, List.not_mem_nil, or_false] at he
          rcases he with rfl | rfl | rfl <;> rfl
      have hold : ∀ e ∈ r4.trace, ∀ a b, e.call = .rename a b →
          (a = out ∧ b = specBackupPath out)
            ∨ (b = out ∧ w.freeName (tmpStem out) w.tmpTags = some a) := by
        intro e he a b hc
        have := hpre4 e he
        rw [hc] at this
        cases this
      refine ⟨fun hc => absurd hc hext, ?_⟩
      by_cases hun : v4.iSameFile = true ∧ v4.lnChanges = 0
      · rw [finalize_unchanged r4 v4 hun.1 hun.2]
        obtain ⟨_, f2, _, _⟩ := finish0_toRun (r4.log (.unlink v4.pszTmpName)
          (decide ((r4.w.unlink v4.pszTmpName).2 = .ok)) (r4.w.unlink v4.pszTmpName).1) v4
        rw [f2]
        constructor
        · intro e he a b hc
          simp only [Run.log] at he
          rcases List.mem_append.1 he with he | he
          · exact hold e he a b hc
          · simp only [List.mem_singleton] at he
            subst he
            cases hc
        · intro _ hch
          exfalso
          apply hch
          rw [← hsame]
          refine ⟨hun.1, ?_⟩
          have := hun.2
          rw [hchg] at this
          exact List.count_eq_zero.1 this
      · rw [finalize_changed r4 v4 hun, publish_backup r4 v4 hout hb4, hbk2, htmp]
        by_cases h1 : (r4.w.unlink (specBackupPath out)).2 = .failed
        · rw [if_pos h1]
          dsimp only
          constructor
          · intro e he a b hc
            simp only [Run.fail, Run.finish, Run.say, Run.log] at he
            rcases List.mem_append.1 he with he | he
            · exact hold e he a b hc
            · simp only [List.mem_singleton] at he
              subst he
              cases hc
          · intro h0
            simp [Run.fail, Run.finish] at h0
        · rw [if_neg h1]
          by_cases h2 : ((r4.w.unlink (specBackupPath out)).1.rename out
              (specBackupPath out)).2 = false
          · rw [if_pos h2]
            dsimp only
            constructor
            · intro e he a b hc
              simp only [Run.fail, Run.finish, Run.say, Run.log, List.append_assoc,
                List.singleton_append, List.cons_append, List.nil_append] at he
              rcases List.mem_append.1 he with he | he
              · exact hold e he a b hc
              · simp only [List.mem_cons, List.mem_singleton, List.not_mem_nil,
                  or_false] at he
                rcases he with rfl | rfl
                · cases hc
                · simp only [Call.rename.injEq] at hc
                  exact Or.inl ⟨hc.1.symm, hc.2.symm⟩
            · intro h0
              simp [Run.fail, Run.finish] at h0
          · rw [if_neg h2]
            by_cases h3 : (((r4.w.unlink (specBackupPath out)).1.rename out
                (specBackupPath out)).1.rename name out).2 = false
            · rw [if_pos h3]
              dsimp only
              constructor
              · intro e he a b hc
                simp only [Run.fail, Run.finish, Run.say, Run.log, List.append_assoc,
                  List.singleton_append, List.cons_append, List.nil_append] at he
                rcases List.mem_append.1 he with he | he
                · exact hold e he a b hc
                · simp only [List.mem_cons, List.mem_singleton, List.not_mem_nil,
                    or_false] at he
                  rcases he with rfl | rfl | rfl
                  · cases hc
                  · simp only [Call.rename.injEq] at hc
                    exact Or.inl ⟨hc.1.symm, hc.2.symm⟩
                  · simp only [Call.rename.injEq] at hc
                    exact Or.inr ⟨hc.2.symm, by rw [← hc.1]; exact hn⟩
              · intro h0
                simp [Run.fail, Run.finish] at h0
            · rw [if_neg h3]
              dsimp only
              obtain ⟨_, f2, _, _⟩ := finish0_toRun (copyTime (copyMode
                (((r4.log (.unlink (specBackupPath out))
                    (decide ((r4.w.unlink (specBackupPath out)).2 = .ok))
                    (r4.w.unlink (specBackupPath out)).1).log
                  (.rename out (specBackupPath out)) true
                  ((r4.w.unlink (specBackupPath out)).1.rename out (specBackupPath out)).1).log
                  (.rename name out) true
                  (((r4.w.unlink (specBackupPath out)).1.rename out
                    (specBackupPath out)).1.rename name out).1) v4) v4) v4
              rw [f2, tail_file _ v4 hdf hout]
              constructor
              · intro e he a b hc
                split at he
                · simp only [Run.log, List.append_assoc, List.singleton_append,
                    List.cons_append, List.nil_append] at he
                  rcases List.mem_append.1 he with he | he
                  · exact hold e he a b hc
                  · simp only [List.mem_cons, List.mem_singleton, List.not_mem_nil,
                      or_false] at he
                    rcases he with rfl | rfl | rfl | rfl | rfl
                    · cases hc
                    · simp only [Call.rename.injEq] at hc
                      exact Or.inl ⟨hc.1.symm, hc.2.symm⟩
                    · simp only [Call.rename.injEq] at hc
                      exact Or.inr ⟨hc.2.symm, by rw [← hc.1]; exact hn⟩
                    · cases hc
                    · cases hc
                · simp only [Run.log, List.append_assoc, List.singleton_append,
                    List.cons_append, List.nil_append] at he
                  rcases List.mem_append.1 he with he | he
                  · exact hold e he a b hc
                  · simp only [List.mem_cons, List.mem_singleton, List.not_mem_nil,
                      or_false] at he
                    rcases he with rfl | rfl | rfl | rfl
                    · cases hc
                    · simp only [Call.rename.injEq] at hc
                      exact Or.inl ⟨hc.1.symm, hc.2.symm⟩
                    · simp only [Call.rename.injEq] at hc
                      exact Or.inr ⟨hc.2.symm, by rw [← hc.1]; exact hn⟩
                    · cases hc
              · intro _ _
                refine ⟨⟨.rename out (specBackupPath out), true,
                  ((r4.w.unlink (specBackupPath out)).1.rename out (specBackupPath out)).1⟩,
                  ?_, rfl, rfl⟩
                split <;> simp [Run.log]

theorem backup_path_rule_witness :
    (parseArgs ["-b", "a.txt", "c.txt"] {} []
        = .run { pszInName := some "a.txt", pszOutName := some "c.txt", iBackup := true } []
      ∧ (1 : Int) ≤ 8 ∧ (8 : Int) ≤ 32 ∧ 32 ≤ 32 ∧ worldBak.WellFormed
      ∧ RoutedTo worldBak { pszInName := some "a.txt", pszOutName := some "c.txt", iBackup := true }
          "c.txt"
      ∧ Options.backup { pszInName := some "a.txt", pszOutName := some "c.txt", iBackup := true }
          worldBak = true) ∧
    (bakName "c.txt"
      = (if lastExtension (basename "c.txt").data = some ".bak".data then none
         else some (specBackupPath "c.txt"))
    ∧ ∃ r, main 32 worldBak ["-b", "a.txt", "c.txt"] = some r
      ∧ (lastExtension (basename "c.txt").data = some ".bak".data →
          r.status = .exit 2 ∧ ∀ e ∈ r.trace, e.call.isFinal = false)
      ∧ (∀ e ∈ r.trace, ∀ a b, e.call = .rename a b →
          (a = "c.txt" ∧ b = specBackupPath "c.txt")
            ∨ (b = "c.txt" ∧ worldBak.freeName (tmpStem "c.txt") worldBak.tmpTags = some a))
      ∧ (r.status = .exit 0 →
          ¬ (Options.sameFile
                { pszInName := some "a.txt", pszOutName := some "c.txt", iBackup := true }
                worldBak = true
              ∧ TAB ∉ Options.source
                { pszInName := some "a.txt", pszOutName := some "c.txt", iBackup := true }
                worldBak) →
          ∃ e ∈ r.trace, e.call = .rename "c.txt" (specBackupPath "c.txt") ∧ e.ok = true)) :=
  have hr : RoutedTo worldBak
      { pszInName := some "a.txt", pszOutName := some "c.txt", iBackup := true } "c.txt" :=
    Or.inl ⟨"a.txt", rfl, rfl, by decide, Or.inr ⟨rfl, by decide⟩⟩
  ⟨⟨by decide, by decide, by decide, by decide, worldBak_wellFormed, hr, by decide⟩,
    backup_path_rule 32 worldBak ["-b", "a.txt", "c.txt"]
      { pszInName := some "a.txt", pszOutName := some "c.txt", iBackup := true } [] "c.txt"
      (by decide) (by decide) (by decide) (by decide) worldBak_wellFormed hr (by decide)⟩

set_option maxRecDepth 100000 in
/-- The backup run `detab -b a.txt c.txt` and the refused one
`detab -b a.txt c.bak`, call by call. -/
theorem backup_runs_evaluated :
    specBackupPath "c.txt" = "./c.bak" ∧ specBackupPath "/x/y.tar.gz" = "/x/y.tar.bak"
    ∧ (main 32 worldBak ["-b", "a.txt", "c.txt"]).map (fun r => (r.status, r.calls))
      = some (.exit 0,
          [(.fopen (some "a.txt") "rb", true), (.fopen (some "c.txt") "r+", true),
           (.mkstemp "./dtXXXXXX", true),
           (.write 100 [97, 32, 32, 32, 32, 32, 32, 32, 98, 10], true),
           (.unlink "./c.bak", true), (.rename "c.txt" "./c.bak", true),
           (.rename "./dtAAAAAA" "c.txt", true), (.chmod "c.txt" 0o100644, true)])
    ∧ (main 32 worldBak ["-b", "a.txt", "c.bak"]).map (fun r => (r.status, r.calls, r.msgs))
      = some (.exit 2,
          [(.fopen (some "a.txt") "rb", true), (.fopen (some "c.bak") "r+", true),
           (.mkstemp "./dtXXXXXX", true)],
          [.cantBackupFile "c.bak"]) := by
  decide

end Detab

namespace Detab

/-! ## Failures of the finalize protocol -/

set_option maxRecDepth 100000 in
/-- C16 as stated fails for `chmod`: in a world where `chmod` fails,
`detab a.txt c.txt` and the in-place run `detab a.txt -=` go on after the failed
call, print nothing and return 0. -/
theorem chmod_failure_ignored :
    (main 32 worldNoChmod ["a.txt", "c.txt"]).map (fun r => (r.status, r.calls, r.msgs))
      = some (.exit 0,
          [(.fopen (some "a.txt") "rb", true), (.fopen (some "c.txt") "wb", true),
           (.write 2 [97, 32, 32, 32, 32, 32, 32, 32, 98, 10], true),
           (.chmod "c.txt" 0o100644, false)], [])
    ∧ (main 32 worldNoChmod ["a.txt", "-="]).map (fun r => (r.status, r.calls, r.msgs))
      = some (.exit 0,
          [(.fopen (some "a.txt") "rb", true), (.fopen (some "a.txt") "r+", true),
           (.mkstemp "./dtXXXXXX", true),
           (.write 100 [97, 32, 32, 32, 32, 32, 32, 32, 98, 10], true),
           (.unlink "a.txt", true), (.rename "./dtAAAAAA" "a.txt", true),
           (.chmod "a.txt" 0o100644, false)], []) := by
  decide

theorem routed_flags {w : World} {o : Options} {out : String} {r1 : Run} {v2 : Locals}
    (hF : Front w o out r1 v2) : (o.sameFile w || o.backup w) = true := by
  rw [← hF.same, ← hF.backup]
  exact hF.routed

theorem fail_msgs (r : Run) (m : Msg) :
    (r.fail m).status = .exit 2 ∧ (r.fail m).msgs.getLast? = some m := by
  simp [Run.fail, Run.finish, Run.say]

/-- C16 amended: in a run staged for the destination `out`, every `rename`
that fails (the destination to the backup path, the temporary file to the
destination) ends the run with an error text and status 2; and unless the run
is an in-place run without any tab to replace, so does every `unlink` that
fails for another reason than a missing file (of the old backup, of the
original), and, when no backup is in force, every `unlink` that fails at all.
(The results of `chmod` and `utime`, and of the `unlink` that discards the
temporary file of an unchanged in-place run, are not looked at.) -/
theorem finalize_failures_fatal (fuel : Nat) (w : World) (args : List String) (o : Options)
    (msgs : List Msg) (out : String) (hp : parseArgs args {} [] = .run o msgs)
    (hlo : 1 ≤ o.n) (hhi : o.n ≤ 32) (hf : 32 ≤ fuel) (hwf : w.WellFormed)
    (hr : RoutedTo w o out) :
    ∃ r, main fuel w args = some r
      ∧ (∀ e ∈ r.trace, ∀ a b, e.call = .rename a b → e.ok = false →
          r.status = .exit 2
            ∧ (r.msgs.getLast? = some (.cantBackup a) ∨ r.msgs.getLast? = some (.cantCreate b)))
      ∧ (¬ (o.sameFile w = true ∧ TAB ∉ o.source w) →
          ∀ e ∈ r.trace, ∀ p, e.call = .unlink p →
            (w.fault (.unlink p) = true ∨ (o.backup w = false ∧ e.ok = false)) →
            r.status = .exit 2 ∧ r.msgs.getLast? = some (.cantDelete p)) := by
  have hf' : o.n.toNat ≤ fuel := by omega
  have early : ∀ (x : Outcome), (∀ e ∈ x.trace, e.call.isFinal = false) →
      (∀ e ∈ x.trace, ∀ a b, e.call = .rename a b → e.ok = false →
          x.status = .exit 2
            ∧ (x.msgs.getLast? = some (.cantBackup a) ∨ x.msgs.getLast? = some (.cantCreate b)))
      ∧ (¬ (o.sameFile w = true ∧ TAB ∉ o.source w) →
          ∀ e ∈ x.trace, ∀ p, e.call = .unlink p →
            (w.fault (.unlink p) = true ∨ (o.backup w = false ∧ e.ok = false)) →
            x.status = .exit 2 ∧ x.msgs.getLast? = some (.cantDelete p)) := by
    intro x hq
    constructor
    · intro e he a b hc
      have := hq e he
      rw [hc] at this
      cases this
    · intro _ e he p hc
      have := hq e he
      rw [hc] at this
      cases this
  rcases main_routed_front fuel hp hlo hhi hr with ⟨inp, hm, hsrc⟩ | ⟨r1, v2, hm, hF⟩
  · refine ⟨_, hm, early _ ?_⟩
    intro e he
    simp only [Run.fail, Run.finish, Run.say, Run.log, List.nil_append,
      List.mem_singleton] at he
    subst he
    rfl
  · obtain ⟨x, hx, hS⟩ := writeOut_staged hF hwf hlo hf'
    rw [hm, hx]
    refine ⟨x, rfl, ?_⟩
    have hpre0 : ∀ e ∈ r1.trace, e.call.isFinal = false := by
      intro e he
      obtain ⟨_, q, hq⟩ := hF.trace_after e he
      rw [hq]
      rfl
    cases hS with
    | noWrite x hs0 ho hw ht =>
      refine early x ?_
      intro e he
      rw [ht] at he
      rcases List.mem_append.1 he with he | he
      · exact hpre0 e he
      · simp only [List.mem_singleton] at he
        subst he
        rfl
    | noTemp x i0 hl hs0 ho hw ht =>
      refine early x ?_
      intro e he
      rw [ht] at he
      rcases List.mem_append.1 he with he | he
      · exact hpre0 e he
      · simp only [List.mem_cons, List.mem_singleton, List.not_mem_nil, or_false] at he
        rcases he with rfl | rfl <;> rfl
    | noBackup x i0 name hl hn hs0 ho hw ht =>
      refine early x ?_
      intro e he
      rw [ht] at he
      rcases List.mem_append.1 he with he | he
      · exact hpre0 e he
      · simp only [List.mem_cons, List.mem_singleton, List.not_mem_nil, or_false] at he
        rcases he with rfl | rfl <;> rfl
    | written i0 name r4 v4 hl hn hw ho ht hout htmp hin hsafe hbak hdf hsame hback hchg
        hcopy hverb hsf hst hineq hmsg =>
      have hpre4 : ∀ e ∈ r4.trace, e.call.isFinal = false := by
        intro e he
        rw [ht] at he
        rcases List.mem_append.1 he with he | he
        · exact hpre0 e he
        · simp only [List.mem_cons, List.mem_singleton, List.not_mem_nil, or_false] at he
          rcases he with rfl | rfl | rfl <;> rfl
      have holdR : ∀ e ∈ r4.trace, ∀ a b, e.call ≠ .rename a b := by
        intro e he a b hc
        have := hpre4 e he
        rw [hc] at this
        cases this
      have holdU : ∀ e ∈ r4.trace, ∀ p, e.call ≠ .unlink p := by
        intro e he p hc
        have := hpre4 e he
        rw [hc] at this
        cases this
      have hfa : r4.w.fault = w.fault := by
        rw [hw]
        simp [World.store, World.withTemp, World.setInode, World.setDir]
      by_cases hun : v4.iSameFile = true ∧ v4.lnChanges = 0
      · rw [finalize_unchanged r4 v4 hun.1 hun.2]
        obtain ⟨_, f2, _, _⟩ := finish0_toRun (r4.log (.unlink v4.pszTmpName)
          (decide ((r4.w.unlink v4.pszTmpName).2 = .ok)) (r4.w.unlink v4.pszTmpName).1) v4
        constructor
        · intro e he a b hc
          rw [f2] at he
          simp only [Run.log] at he
          rcases List.mem_append.1 he with he | he
          · exact absurd hc (holdR e he a b)
          · simp only [List.mem_singleton] at he
            subst he
            cases hc
        · intro hch
          exfalso
          apply hch
          rw [← hsame]
          refine ⟨hun.1, ?_⟩
          have := hun.2
          rw [hchg] at this
          exact List.count_eq_zero.1 this
      · rw [finalize_changed r4 v4 hun]
        by_cases hb4 : v4.iBackup = true
        · have hbo : o.backup w = true := hback.symm.trans hb4
          rw [publish_backup r4 v4 hout hb4]
          by_cases h1 : (r4.w.unlink v4.szBakName).2 = .failed
          · rw [if_pos h1]
            dsimp only
            constructor
            · intro e he a b hc
              simp only [Run.fail, Run.finish, Run.say, Run.log] at he
              rcases List.mem_append.1 he with he | he
              · exact absurd hc (holdR e he a b)
              · simp only [List.mem_singleton] at he
                subst he
                cases hc
            · intro _ e he p hc _
              simp only [Run.fail, Run.finish, Run.say, Run.log] at he
              rcases List.mem_append.1 he with he | he
              · exact absurd hc (holdU e he p)
              · simp only [List.mem_singleton] at he
                subst he
                simp only [Call.unlink.injEq] at hc
                subst hc
                exact fail_msgs _ _
          · rw [if_neg h1]
            have hnf : w.fault (.unlink v4.szBakName) ≠ true := by
              intro hc
              apply h1
              rw [(unlink_result r4.w v4.szBakName).1, hfa]
              exact hc
            by_cases h2 : ((r4.w.unlink v4.szBakName).1.rename out v4.szBakName).2 = false
            · rw [if_pos h2]
              dsimp only
              constructor
              · intro e he a b hc _
                simp only [Run.fail, Run.finish, Run.say, Run.log, List.append_assoc,
                  List.singleton_append, List.cons_append, List.nil_append] at he
                rcases List.mem_append.1 he with he | he
                · exact absurd hc (holdR e he a b)
                · simp only [List.mem_cons, List.mem_singleton, List.not_mem_nil,
                    or_false] at he
                  rcases he with rfl | rfl
                  · cases hc
                  · simp only [Call.rename.injEq] at hc
                    obtain ⟨rfl, rfl⟩ := hc
                    exact ⟨(fail_msgs _ _).1, Or.inl (fail_msgs _ _).2⟩
              · intro _ e he p hc hq
                simp only [Run.fail, Run.finish, Run.say, Run.log, List.append_assoc,
                  List.singleton_append, List.cons_append, List.nil_append] at he
                rcases List.mem_append.1 he with he | he
                · exact absurd hc (holdU e he p)
                · simp only [List.mem_cons, List.mem_singleton, List.not_mem_nil,
                    or_false] at he
                  rcases he with rfl | rfl
                  · simp only [Call.unlink.injEq] at hc
                    subst hc
                    rcases hq with hq | ⟨hq, _⟩
                    · exact absurd hq hnf
                    · rw [hbo] at hq
                      cases hq
                  · cases hc
            · rw [if_neg h2]
              by_cases h3 : (((r4.w.unlink v4.szBakName).1.rename out
                  v4.szBakName).1.rename v4.pszTmpName out).2 = false
              · rw [if_pos h3]
                dsimp only
                constructor
                · intro e he a b hc hok
                  simp only [Run.fail, Run.finish, Run.say, Run.log, List.append_assoc,
                    List.singleton_append, List.cons_append, List.nil_append] at he
                  rcases List.mem_append.1 he with he | he
                  · exact absurd hc (holdR e he a b)
                  · simp only [List.mem_cons, List.mem_singleton, List.not_mem_nil,
                      or_false] at he
                    rcases he with rfl | rfl | rfl
                    · cases hc
                    · cases hok
                    · simp only [Call.rename.injEq] at hc
                      obtain ⟨rfl, rfl⟩ := hc
                      exact ⟨(fail_msgs _ _).1, Or.inr (fail_msgs _ _).2⟩
                · intro _ e he p hc hq
                  simp only [Run.fail, Run.finish, Run.say, Run.log, List.append_assoc,
                    List.singleton_append, List.cons_append, List.nil_append] at he
                  rcases List.mem_append.1 he with he | he
                  · exact absurd hc (holdU e he p)
                  · simp only [List.mem_cons, List.mem_singleton, List.not_mem_nil,
                      or_false] at he
                    rcases he with rfl | rfl | rfl
                    · simp only [Call.unlink.injEq] at hc
                      subst hc
                      rcases hq with hq | ⟨hq, _⟩
                      · exact absurd hq hnf
                      · rw [hbo] at hq
                        cases hq
                    · cases hc
                    · cases hc
              · rw [if_neg h3]
                dsimp only
                obtain ⟨_, f2, _, _⟩ := finish0_toRun (copyTime (copyMode
                  (((r4.log (.unlink v4.szBakName)
                      (decide ((r4.w.unlink v4.szBakName).2 = .ok))
                      (r4.w.unlink v4.szBakName).1).log
                    (.rename out v4.szBakName) true
                    ((r4.w.unlink v4.szBakName).1.rename out v4.szBakName).1).log
                    (.rename v4.pszTmpName out) true
                    (((r4.w.unlink v4.szBakName).1.rename out
                      v4.szBakName).1.rename v4.pszTmpName out).1) v4) v4) v4
                rw [f2, tail_file _ v4 hdf hout]
                constructor
                · intro e he a b hc hok
                  split at he
                  · simp only [Run.log, List.append_assoc, List.singleton_append,
                      List.cons_append, List.nil_append] at he
                    rcases List.mem_append.1 he with he | he
                    · exact absurd hc (holdR e he a b)
                    · simp only [List.mem_cons, List.mem_singleton, List.not_mem_nil,
                        or_false] at he
                      rcases he with rfl | rfl | rfl | rfl | rfl
                      · cases hc
                      · cases hok
                      · cases hok
                      · cases hc
                      · cases hc
                  · simp only [Run.log, List.append_assoc, List.singleton_append,
                      List.cons_append, List.nil_append] at he
                    rcases List.mem_append.1 he with he | he
                    · exact absurd hc (holdR e he a b)
                    · simp only [List.mem_cons, List.mem_singleton, List.not_mem_nil,
                        or_false] at he
                      rcases he with rfl | rfl | rfl | rfl
                      · cases hc
                      · cases hok
                      · cases hok
                      · cases hc
                · intro _ e he p hc hq
                  have hq2 : w.fault (.unlink p) = true := by
                    rcases hq with hq | ⟨hq, _⟩
                    · exact hq
                    · rw [hbo] at hq
                      cases hq
                  split at he
                  · simp only [Run.log, List.append_assoc, List.singleton_append,
                      List.cons_append, List.nil_append] at he
                    rcases List.mem_append.1 he with he | he
                    · exact absurd hc (holdU e he p)
                    · simp only [List.mem_cons, List.mem_singleton, List.not_mem_nil,
                        or_false] at he
                      rcases he with rfl | rfl | rfl | rfl | rfl
                      · simp only [Call.unlink.injEq] at hc
                        subst hc
                        exact absurd hq2 hnf
                      · cases hc
                      · cases hc
                      · cases hc
                      · cases hc
                  · simp only [Run.log, List.append_assoc, List.singleton_append,
                      List.cons_append, List.nil_append] at he
                    rcases List.mem_append.1 he with he | he
                    · exact absurd hc (holdU e he p)
                    · simp only [List.mem_cons, List.mem_singleton, List.not_mem_nil,
                        or_false] at he
                      rcases he with rfl | rfl | rfl | rfl
                      · simp only [Call.unlink.injEq] at hc
                        subst hc
                        exact absurd hq2 hnf
                      · cases hc
                      · cases hc
                      · cases hc
        · have hb0 : v4.iBackup = false := by simpa using hb4
          have hs4 : v4.iSameFile = true := by
            have := routed_flags hF
            rw [← hsame, ← hback, hb0] at this
            simpa using this
          obtain ⟨inp, hinp⟩ := hin
          rw [publish_in_place r4 v4 hout hinp hs4 hb0]
          by_cases h1 : (r4.w.unlink inp).2 ≠ .ok
          · rw [if_pos h1]
            dsimp only
            constructor
            · intro e he a b hc
              simp only [Run.fail, Run.finish, Run.say, Run.log] at he
              rcases List.mem_append.1 he with he | he
              · exact absurd hc (holdR e he a b)
              · simp only [List.mem_singleton] at he
                subst he
                cases hc
            · intro _ e he p hc _
              simp only [Run.fail, Run.finish, Run.say, Run.log] at he
              rcases List.mem_append.1 he with he | he
              · exact absurd hc (holdU e he p)
              · simp only [List.mem_singleton] at he
                subst he
                simp only [Call.unlink.injEq] at hc
                subst hc
                exact fail_msgs _ _
          · rw [if_neg h1]
            have hok1 : (r4.w.unlink inp).2 = .ok := by simpa using h1
            have hnf : w.fault (.unlink inp) ≠ true := by
              intro hc
              have := (unlink_result r4.w inp).2.1 hok1
              rw [hfa, hc] at this
              cases this.1
            by_cases h3 : ((r4.w.unlink inp).1.rename v4.pszTmpName out).2 = false
            · rw [if_pos h3]
              dsimp only
              constructor
              · intro e he a b hc hok
                simp only [Run.fail, Run.finish, Run.say, Run.log, List.append_assoc,
                  List.singleton_append, List.cons_append, List.nil_append] at he
                rcases List.mem_append.1 he with he | he
                · exact absurd hc (holdR e he a b)
                · simp only [List.mem_cons, List.mem_singleton, List.not_mem_nil,
                    or_false] at he
                  rcases he with rfl | rfl
                  · cases hc
                  · simp only [Call.rename.injEq] at hc
                    obtain ⟨rfl, rfl⟩ := hc
                    exact ⟨(fail_msgs _ _).1, Or.inr (fail_msgs _ _).2⟩
              · intro _ e he p hc hq
                simp only [Run.fail, Run.finish, Run.say, Run.log, List.append_assoc,
                  List.singleton_append, List.cons_append, List.nil_append] at he
                rcases List.mem_append.1 he with he | he
                · exact absurd hc (holdU e he p)
                · simp only [List.mem_cons, List.mem_singleton, List.not_mem_nil,
                    or_false] at he
                  rcases he with rfl | rfl
                  · simp only [Call.unlink.injEq] at hc
                    subst hc
                    rcases hq with hq | ⟨_, hq⟩
                    · exact absurd hq hnf
                    · cases hq
                  · cases hc
            · rw [if_neg h3]
              dsimp only
              obtain ⟨_, f2, _, _⟩ := finish0_toRun (copyTime (copyMode
                ((r4.log (.unlink inp) true (r4.w.unlink inp).1).log
                  (.rename v4.pszTmpName out) true
                  ((r4.w.unlink inp).1.rename v4.pszTmpName out).1) v4) v4) v4
              rw [f2, tail_file _ v4 hdf hout]
              constructor
              · intro e he a b hc hok
                split at he
                · simp only [Run.log, List.append_assoc, List.singleton_append,
                    List.cons_append, List.nil_append] at he
                  rcases List.mem_append.1 he with he | he
                  · exact absurd hc (holdR e he a b)
                  · simp only [List.mem_cons, List.mem_singleton, List.not_mem_nil,
                      or_false] at he
                    rcases he with rfl | rfl | rfl | rfl
                    · cases hc
                    · cases hok
                    · cases hc
                    · cases hc
                · simp only [Run.log, List.append_assoc, List.singleton_append,
                    List.cons_append, List.nil_append] at he
                  rcases List.mem_append.1 he with he | he
                  · exact absurd hc (holdR e he a b)
                  · simp only [List.mem_cons, List.mem_singleton, List.not_mem_nil,
                      or_false] at he
                    rcases he with rfl | rfl | rfl
                    · cases hc
                    · cases hok
                    · cases hc
              · intro _ e he p hc hq
                split at he
                · simp only [Run.log, List.append_assoc, List.singleton_append,
                    List.cons_append, List.nil_append] at he
                  rcases List.mem_append.1 he with he | he
                  · exact absurd hc (holdU e he p)
                  · simp only [List.mem_cons, List.mem_singleton, List.not_mem_nil,
                      or_false] at he
                    rcases he with rfl | rfl | rfl | rfl
                    · simp only [Call.unlink.injEq] at hc
                      subst hc
                      rcases hq with hq | ⟨_, hq⟩
                      · exact absurd hq hnf
                      · cases hq
                    · cases hc
                    · cases hc
                    · cases hc
                · simp only [Run.log, List.append_assoc, List.singleton_append,
                    List.cons_append, List.nil_append] at he
                  rcases List.mem_append.1 he with he | he
                  · exact absurd hc (holdU e he p)
                  · simp only [List.mem_cons, List.mem_singleton, List.not_mem_nil,
                      or_false] at he
                    rcases he with rfl | rfl | rfl
                    · simp only [Call.unlink.injEq] at hc
                      subst hc
                      rcases hq with hq | ⟨_, hq⟩
                      · exact absurd hq hnf
                      · cases hq
                    · cases hc
                    · cases hc

theorem finalize_failures_fatal_witness :
    (parseArgs ["a.txt", "-="] {} [] = .run { pszInName := some "a.txt", iSameFile := true } []
      ∧ (1 : Int) ≤ 8 ∧ (8 : Int) ≤ 32 ∧ 32 ≤ 32 ∧ worldNoRename.WellFormed
      ∧ RoutedTo worldNoRename { pszInName := some "a.txt", iSameFile := true } "a.txt") ∧
    ∃ r, main 32 worldNoRename ["a.txt", "-="] = some r
      ∧ (∀ e ∈ r.trace, ∀ a b, e.call = .rename a b → e.ok = false →
          r.status = .exit 2
            ∧ (r.msgs.getLast? = some (.cantBackup a) ∨ r.msgs.getLast? = some (.cantCreate b)))
      ∧ (¬ (Options.sameFile { pszInName := some "a.txt", iSameFile := true } worldNoRename = true
            ∧ TAB ∉ Options.source { pszInName := some "a.txt", iSameFile := true }
                worldNoRename) →
          ∀ e ∈ r.trace, ∀ p, e.call = .unlink p →
            (worldNoRename.fault (.unlink p) = true
              ∨ (Options.backup { pszInName := some "a.txt", iSameFile := true } worldNoRename
                    = false ∧ e.ok = false)) →
            r.status = .exit 2 ∧ r.msgs.getLast? = some (.cantDelete p)) :=
  have hr : RoutedTo worldNoRename { pszInName := some "a.txt", iSameFile := true } "a.txt" :=
    Or.inr ⟨rfl, by decide, rfl, rfl⟩
  ⟨⟨by decide, by decide, by decide, by decide, worldAC_wellFormed, hr⟩,
    finalize_failures_fatal 32 worldNoRename ["a.txt", "-="]
      { pszInName := some "a.txt", iSameFile := true } [] "a.txt"
      (by decide) (by decide) (by decide) (by decide) worldAC_wellFormed hr⟩

set_option maxRecDepth 100000 in
/-- A failing `rename` of the temporary file, call by call: the in-place run
`detab a.txt -=` in a world where `rename` fails exits with status 2 after the
original was unlinked; the temporary file is left behind. -/
theorem rename_failure_evaluated :
    (main 32 worldNoRename ["a.txt", "-="]).map (fun r => (r.status, r.calls, r.msgs))
      = some (.exit 2,
          [(.fopen (some "a.txt") "rb", true), (.fopen (some "a.txt") "r+", true),
           (.mkstemp "./dtXXXXXX", true),
           (.write 100 [97, 32, 32, 32, 32, 32, 32, 32, 98, 10], true),
           (.unlink "a.txt", true), (.rename "./dtAAAAAA" "a.txt", false)],
          [.cantCreate "a.txt"]) := by
  decide

end Detab

namespace Detab

/-! ## Every run to a destination file, up to the finalize protocol -/

theorem readable_fopenWrite (w : World) (out : String) (data : List UInt8) :
    (w.fopenWrite out).1.readable data = w.readable data := by
  have h : (w.fopenWrite out).1.shortRead = w.shortRead := by
    unfold World.fopenWrite
    split
    · rfl
    · split
      · split <;> rfl
      · rfl
  simp only [World.readable, h]

theorem fopenWrite_frame (w : World) (out : String) :
    (w.fopenWrite out).1.stdin = w.stdin
      ∧ ∀ i, i < w.nextIno → w.lookup out ≠ some i →
          (w.fopenWrite out).1.inode i = w.inode i := by
  unfold World.fopenWrite
  split
  · exact ⟨rfl, fun _ _ _ => rfl⟩
  · split
    · rename_i j hj
      split
      · refine ⟨rfl, ?_⟩
        intro i _ hne
        have : i ≠ j := by
          rintro rfl
          exact hne hj
        simp [World.setInode, this]
      · exact ⟨rfl, fun _ _ _ => rfl⟩
    · refine ⟨rfl, ?_⟩
      intro i hi _
      have : i ≠ w.nextIno := by omega
      simp [World.setInode, World.setDir, this]

theorem writeOut_direct {fuel : Nat} {w : World} {o : Options} {out : String} {r1 : Run}
    {v2 : Locals} (hw : r1.w = w) (hq : ∀ e ∈ r1.trace, e.call.isFinal = false)
    (hs : v2.iSameFile = false) (hb : v2.iBackup = false) (hdf : v2.df = none)
    (hout : v2.pszOutName = some out) (hn : v2.n = o.n.toNat) (ha : v2.append = o.append)
    (hsrc : sourceBytes (w.fopenWrite out).1 v2.sf = o.source w) (hlo : 1 ≤ o.n)
    (hf : o.n.toNat ≤ fuel) :
    ∃ x, writeOut fuel r1 v2 = some x
      ∧ ((x.status = .exit 2 ∧ ∀ e ∈ x.trace, e.call.isFinal = false)
        ∨ ∃ i r4 v4, x = finalize r4 v4
            ∧ (∀ e ∈ r4.trace, e.call.isFinal = false)
            ∧ r4.w = ((w.fopenWrite out).1.write i (o.newContent w)).1
            ∧ v4.df = some (.file i) ∧ v4.pszOutName = some out
            ∧ v4.iSameFile = false ∧ v4.iBackup = false
            ∧ v4.lnChanges = List.count TAB (o.source w)
            ∧ v4.iCopyTime = v2.iCopyTime ∧ v4.sInTime = v2.sInTime ∧ v4.sf = v2.sf
            ∧ v4.pszInName = v2.pszInName) := by
  have hN : 1 ≤ o.n.toNat := by omega
  have hd := detabLoop_eq hN hf (o.source w) 1 0 (le_refl 1)
  unfold writeOut openTarget
  simp only [hs, hb, hdf, hout, hw, Bool.or_self, Bool.false_eq_true, if_false]
  cases hfw : (w.fopenWrite out).2 with
  | none =>
    refine ⟨_, rfl, Or.inl ⟨rfl, ?_⟩⟩
    intro e he
    simp only [Run.fail, Run.finish, Run.say, Run.log] at he
    rcases List.mem_append.1 he with he | he
    · exact hq e he
    · simp only [List.mem_singleton] at he
      subst he
      rfl
  | some i =>
    dsimp only
    unfold transform
    simp only [Run.log, hsrc, hn, hd, ha]
    refine ⟨_, rfl, Or.inr ⟨i, _, _, rfl, ?_, ?_, rfl, rfl, rfl, rfl, by simp, rfl, rfl, rfl,
      rfl⟩⟩
    · intro e he
      simp only [List.append_assoc, List.singleton_append] at he
      rcases List.mem_append.1 he with he | he
      · exact hq e he
      · simp only [List.mem_cons, List.mem_singleton, List.not_mem_nil, or_false] at he
        rcases he with rfl | rfl <;> rfl
    · simp [Options.newContent]

theorem writeOut_direct_at {fuel : Nat} {w : World} {o : Options} {out : String} {r1 : Run}
    {v2 : Locals} (hw : r1.w = w) (hq : ∀ e ∈ r1.trace, e.call.isFinal = false)
    (hs : v2.iSameFile = false) (hb : v2.iBackup = false) (hdf : v2.df = none)
    (hout : v2.pszOutName = some out) (hn : v2.n = o.n.toNat) (ha : v2.append = o.append)
    (hsrc : sourceBytes (w.fopenWrite out).1 v2.sf = o.source w) (hlo : 1 ≤ o.n)
    (hf : o.n.toNat ≤ fuel) (hsf : o.sameFile w = false) (hbf : o.backup w = false)
    (hcopy : v2.iCopyTime = o.iCopyTime) (hst : v2.sInTime = o.srcStat w)
    (hstd : v2.sf = .stdin ↔ o.pszInName = some "-") (hin : ∃ inp, v2.pszInName = some inp) :
    ∃ x, writeOut fuel r1 v2 = some x
      ∧ ((x.status = .exit 2 ∧ ∀ e ∈ x.trace, e.call.isFinal = false)
        ∨ ∃ r4 v4, x = finalize r4 v4 ∧ AtFinalize w o out r4 v4) := by
  obtain ⟨x, hx, hcase⟩ := writeOut_direct hw hq hs hb hdf hout hn ha hsrc hlo hf
  refine ⟨x, hx, ?_⟩
  rcases hcase with h | ⟨i, r4, v4, h1, h2, _, h4, h5, h6, h7, h8, h9, h10, h11, h12⟩
  · exact Or.inl h
  · obtain ⟨inp, hinp⟩ := hin
    exact Or.inr ⟨r4, v4, h1,
      { quiet := h2, out_name := h5, df := ⟨i, h4⟩, same := by rw [h6, hsf]
        backup := by rw [h7, hbf], changes := h8, copy := by rw [h9, hcopy]
        stat := by rw [h10, hst]
        sf_stdin := by rw [h11]; exact hstd
        in_name := ⟨inp, by rw [h12, hinp]⟩ }⟩

theorem main_direct (fuel : Nat) {w : World} {args : List String} {o : Options}
    {msgs : List Msg} {out : String} (hp : parseArgs args {} [] = .run o msgs)
    (hlo : 1 ≤ o.n) (hhi : o.n ≤ 32) (hf : 32 ≤ fuel) (hwf : w.WellFormed)
    (hr : DirectTo w o out) :
    ∃ x, main fuel w args = some x
      ∧ ((x.status = .exit 2 ∧ ∀ e ∈ x.trace, e.call.isFinal = false)
        ∨ ∃ r4 v4, x = finalize r4 v4 ∧ AtFinalize w o out r4 v4) := by
  have hn : ¬ (o.n < 1 ∨ o.n > 32) := by omega
  have hf' : o.n.toNat ≤ fuel := by omega
  obtain ⟨inp, hin, hout, hne, hsame, hbk, hdiff⟩ := hr
  have hbk2 : (if (o.iBackup && !file_exists w out) = true then false else o.iBackup) = false := by
    cases hb : o.iBackup <;> cases hx : file_exists w out <;> simp [hb, hx] at hbk ⊢
  have hsf : o.sameFile w = false := by simp [Options.sameFile, hin, hout, hne, hsame]
  have hbf : o.backup w = false := by simp [Options.backup, hout, hne, hbk]
  simp only [main, hp, mainRun, hn, if_false]
  by_cases hd : inp = "-"
  · subst hd
    rw [openSource_stdin _ _ (by simpa [Options.locals] using hin)]
    dsimp only
    rw [resolveTarget_named w _ "-" out (by simpa [Options.locals] using hin)
      (by simpa [Options.locals] using hout) hne]
    exact writeOut_direct_at rfl (by simp) hsame (by simpa [Options.locals] using hbk2) rfl
      (by simp [Options.locals, hout]) rfl rfl
      (by simp [sourceBytes, (fopenWrite_frame w out).1, readable_fopenWrite, Options.source,
        hin]) hlo hf' hsf hbf
      rfl (by simp [Options.locals, Options.srcStat, hin]) (by simp [hin])
      ⟨"-", by simp [Options.locals, hin]⟩
  · cases hfo : w.fopenExisting inp "rb" with
    | none =>
      rw [openSource_fail _ _ (by simpa [Options.locals] using hin) hd hfo]
      refine ⟨_, rfl, Or.inl ⟨rfl, ?_⟩⟩
      intro e he
      simp only [Run.fail, Run.finish, Run.say, Run.log, List.nil_append,
        List.mem_singleton] at he
      subst he
      rfl
    | some j =>
      have hl := fopenExisting_some hfo
      rw [openSource_file _ _ (by simpa [Options.locals] using hin) hd hfo]
      dsimp only
      rw [resolveTarget_named _ _ inp out
        (by simpa [Options.locals] using hin) (by simpa [Options.locals] using hout) hne]
      have hsrc : sourceBytes (w.fopenWrite out).1 (.file j) = o.source w := by
        have hk := (fopenWrite_frame w out).2 j (hwf _ _ hl) (by
          intro hc
          exact hdiff hd (hl.trans hc.symm))
        simp [sourceBytes, hk, readable_fopenWrite, Options.source, hin, hd, hl]
      exact writeOut_direct_at rfl (by
          intro e he
          simp only [Run.log, List.nil_append, List.mem_singleton] at he
          subst he
          rfl) (by simpa [Run.log] using hsame) (by simpa [Options.locals, Run.log] using hbk2)
        rfl (by simp [Options.locals, hout]) rfl rfl hsrc hlo hf' hsf hbf
        rfl (by simp [Options.srcStat, hin, hd]) (by simp [hin, hd])
        ⟨inp, by simp [Options.locals, hin]⟩

theorem main_staged_at (fuel : Nat) {w : World} {args : List String} {o : Options}
    {msgs : List Msg} {out : String} (hp : parseArgs args {} [] = .run o msgs)
    (hlo : 1 ≤ o.n) (hhi : o.n ≤ 32) (hf : 32 ≤ fuel) (hwf : w.WellFormed)
    (hr : RoutedTo w o out) :
    ∃ x, main fuel w args = some x
      ∧ ((x.status = .exit 2 ∧ ∀ e ∈ x.trace, e.call.isFinal = false)
        ∨ ∃ r4 v4, x = finalize r4 v4 ∧ AtFinalize w o out r4 v4) := by
  have hf' : o.n.toNat ≤ fuel := by omega
  rcases main_routed_front fuel hp hlo hhi hr with ⟨inp, hm, hsrc⟩ | ⟨r1, v2, hm, hF⟩
  · refine ⟨_, hm, Or.inl ⟨rfl, ?_⟩⟩
    intro e he
    simp only [Run.fail, Run.finish, Run.say, Run.log, List.nil_append,
      List.mem_singleton] at he
    subst he
    rfl
  · obtain ⟨x, hx, hS⟩ := writeOut_staged hF hwf hlo hf'
    rw [hm, hx]
    refine ⟨x, rfl, ?_⟩
    have hpre0 : ∀ e ∈ r1.trace, e.call.isFinal = false := by
      intro e he
      obtain ⟨_, q, hq⟩ := hF.trace_after e he
      rw [hq]
      rfl
    cases hS with
    | noWrite x hs0 ho hw ht =>
      refine Or.inl ⟨hs0, ?_⟩
      intro e he
      rw [ht] at he
      rcases List.mem_append.1 he with he | he
      · exact hpre0 e he
      · simp only [List.mem_singleton] at he
        subst he
        rfl
    | noTemp x i0 hl hs0 ho hw ht =>
      refine Or.inl ⟨hs0, ?_⟩
      intro e he
      rw [ht] at he
      rcases List.mem_append.1 he with he | he
      · exact hpre0 e he
      · simp only [List.mem_cons, List.mem_singleton, List.not_mem_nil, or_false] at he
        rcases he with rfl | rfl <;> rfl
    | noBackup x i0 name hl hn hs0 ho hw ht =>
      refine Or.inl ⟨hs0, ?_⟩
      intro e he
      rw [ht] at he
      rcases List.mem_append.1 he with he | he
      · exact hpre0 e he
      · simp only [List.mem_cons, List.mem_singleton, List.not_mem_nil, or_false] at he
        rcases he with rfl | rfl <;> rfl
    | written i0 name r4 v4 hl hn hw ho ht hout htmp hin hsafe hbak hdf hsame hback hchg
        hcopy hverb hsf hst hineq hmsg =>
      refine Or.inr ⟨r4, v4, rfl,
        { quiet := ?_, out_name := hout, df := ⟨_, hdf⟩, same := hsame, backup := hback
          changes := hchg, copy := hcopy, stat := hst, sf_stdin := hsf, in_name := hin }⟩
      intro e he
      rw [ht] at he
      rcases List.mem_append.1 he with he | he
      · exact hpre0 e he
      · simp only [List.mem_cons, List.mem_singleton, List.not_mem_nil, or_false] at he
        rcases he with rfl | rfl | rfl <;> rfl

/-- Every run with a destination file, staged or direct, either exits with
status 2 before the finalize protocol or reaches it. -/
theorem main_to_file (fuel : Nat) {w : World} {args : List String} {o : Options}
    {msgs : List Msg} {out : String} (hp : parseArgs args {} [] = .run o msgs)
    (hlo : 1 ≤ o.n) (hhi : o.n ≤ 32) (hf : 32 ≤ fuel) (hwf : w.WellFormed)
    (hr : RoutedTo w o out ∨ DirectTo w o out) :
    ∃ x, main fuel w args = some x
      ∧ ((x.status = .exit 2 ∧ ∀ e ∈ x.trace, e.call.isFinal = false)
        ∨ ∃ r4 v4, x = finalize r4 v4 ∧ AtFinalize w o out r4 v4) := by
  rcases hr with hr | hr
  · exact main_staged_at fuel hp hlo hhi hf hwf hr
  · exact main_direct fuel hp hlo hhi hf hwf hr

theorem renameOrFail_ok {r r1 : Run} {a b : String} {m : Msg}
    (h : renameOrFail r a b m = .ok r1) :
    r1 = r.log (.rename a b) true (r.w.rename a b).1 := by
  unfold renameOrFail at h
  dsimp only at h
  split at h
  · rename_i hb
    cases h
    simp [Run.log, hb]
  · cases h

/-- When `publish` goes through, it has made `unlink` and `rename` calls only,
and it fails with another status than 0. -/
theorem publish_calls (r : Run) (v : Locals) :
    (∀ e, publish r v = .error e → e.status ≠ .exit 0)
    ∧ ∀ r1, publish r v = .ok r1 →
        ∃ l, r1.trace = r.trace ++ l
          ∧ ∀ e ∈ l, (∃ p, e.call = .unlink p) ∨ (∃ a b, e.call = .rename a b) := by
  have ren : ∀ (r2 : Run) (a b : String) (m : Msg)
      (l : List Event), r2.trace = r.trace ++ l →
      (∀ e ∈ l, (∃ p, e.call = .unlink p) ∨ (∃ a b, e.call = .rename a b)) →
      (∀ e, renameOrFail r2 a b m = .error e → e.status ≠ .exit 0)
      ∧ ∀ r1, renameOrFail r2 a b m = .ok r1 →
          ∃ l, r1.trace = r.trace ++ l
            ∧ ∀ e ∈ l, (∃ p, e.call = .unlink p) ∨ (∃ a b, e.call = .rename a b) := by
    intro r2 a b m l hl hall
    constructor
    · intro e he
      rw [renameOrFail_status r2 a b m e he]
      simp
    · intro r1 h1
      rw [renameOrFail_ok h1]
      refine ⟨l ++ [⟨.rename a b, true, (r2.w.rename a b).1⟩], by simp [Run.log, hl], ?_⟩
      intro e he
      rcases List.mem_append.1 he with he | he
      · exact hall e he
      · simp only [List.mem_singleton] at he
        subst he
        exact Or.inr ⟨a, b, rfl⟩
  unfold publish
  split
  · split
    · exact ⟨fun e he => by cases he; simp [Run.finish], fun r1 h1 => by cases h1⟩
    · rename_i out hout
      by_cases hb : v.iBackup = true
      · simp only [hb, if_true]
        unfold backupOld
        dsimp only
        by_cases hu : (r.w.unlink v.szBakName).2 = .failed
        · simp only [hu, if_true]
          exact ⟨fun e he => by cases he; simp [Run.fail, Run.finish],
            fun r1 h1 => by cases h1⟩
        · simp only [hu, if_false]
          cases hro : renameOrFail (r.log (.unlink v.szBakName)
              (decide ((r.w.unlink v.szBakName).2 = .ok)) (r.w.unlink v.szBakName).1)
              out v.szBakName (.cantBackup out) with
          | error e1 =>
            dsimp only
            refine ⟨fun e he => ?_, fun r1 h1 => by cases h1⟩
            cases he
            rw [renameOrFail_status _ _ _ _ _ hro]
            simp
          | ok r2 =>
            dsimp only
            have h2 := renameOrFail_ok hro
            exact ren r2 v.pszTmpName out (.cantCreate out)
              [⟨.unlink v.szBakName, decide ((r.w.unlink v.szBakName).2 = .ok),
                  (r.w.unlink v.szBakName).1⟩,
                ⟨.rename out v.szBakName, true,
                  ((r.log (.unlink v.szBakName) (decide ((r.w.unlink v.szBakName).2 = .ok))
                    (r.w.unlink v.szBakName).1).w.rename out v.szBakName).1⟩]
              (by rw [h2]; simp [Run.log])
              (by
                intro e he
                simp only [List.mem_cons, List.mem_singleton, List.not_mem_nil, or_false] at he
                rcases he with rfl | rfl
                · exact Or.inl ⟨_, rfl⟩
                · exact Or.inr ⟨_, _, rfl⟩)
      · simp only [hb]
        cases hin : v.pszInName with
        | none =>
          exact ⟨fun e he => by cases he; simp [Run.finish], fun r1 h1 => by cases h1⟩
        | some inp =>
          dsimp only
          unfold removeOld
          dsimp only
          by_cases hu : (r.w.unlink inp).2 = .ok
          · simp only [hu, if_true]
            exact ren _ v.pszTmpName out (.cantCreate out)
              [⟨.unlink inp, true, (r.w.unlink inp).1⟩] (by simp [Run.log])
              (by
                intro e he
                simp only [List.mem_singleton] at he
                subst he
                exact Or.inl ⟨_, rfl⟩)
          · simp only [hu, if_false]
            exact ⟨fun e he => by cases he; simp [Run.fail, Run.finish],
              fun r1 h1 => by cases h1⟩
  · refine ⟨fun e he => (by cases he), fun r1 h1 => ?_⟩
    cases h1
    exact ⟨[], by simp, fun e he => (by cases he)⟩

/-- A run that is not discarded as unchanged and returns 0 has gone through
`publish` and the two calls that copy the mode and the times. -/
theorem finalize_exit0 (r : Run) (v : Locals) (hun : ¬ (v.iSameFile = true ∧ v.lnChanges = 0))
    (h0 : (finalize r v).status = .exit 0) :
    ∃ r1 l, finalize r v = finish0 (copyTime (copyMode r1 v) v) v
      ∧ r1.trace = r.trace ++ l
      ∧ ∀ e ∈ l, (∃ p, e.call = .unlink p) ∨ (∃ a b, e.call = .rename a b) := by
  rw [finalize_changed r v hun] at h0 ⊢
  cases hp : publish r v with
  | error e =>
    rw [hp] at h0
    exact absurd h0 ((publish_calls r v).1 e hp)
  | ok r1 =>
    obtain ⟨l, hl, hall⟩ := (publish_calls r v).2 r1 hp
    exact ⟨r1, l, rfl, hl, hall⟩

end Detab

namespace Detab

/-! ## The mode and the times of the new file -/

theorem perm_bits (x m : Nat) :
    ((x &&& S_IFMT) ||| (m &&& 0o7777)) &&& 0o7777 = m &&& 0o7777 := by
  unfold S_IFMT
  rw [Nat.and_comm, Nat.and_or_distrib_left, Nat.and_comm 0o7777 (x &&& 0o170000),
    Nat.and_comm 0o7777 (m &&& 0o7777), Nat.and_assoc, Nat.and_assoc]
  have h1 : (0o170000 : Nat) &&& 0o7777 = 0 := by decide
  have h2 : (0o7777 : Nat) &&& 0o7777 = 0o7777 := by decide
  rw [h1, h2]
  simp

theorem stat_after_chmod {w : World} {p : String} {m : Nat} (h : (w.chmod p m).2 = true) :
    ∃ st, (w.chmod p m).1.stat p = some st ∧ st.st_mode &&& 0o7777 = m &&& 0o7777 := by
  unfold World.chmod at h ⊢
  by_cases hf : w.fault (.chmod p m) = true
  · simp [hf] at h
  · cases hl : w.lookup p with
    | none => simp [hf, hl] at h
    | some i =>
      cases hi : w.inode i with
      | none => simp [hf, hl, hi] at h
      | some f =>
        simp only [hf, hl, hi, Bool.false_eq_true, if_false]
        have hl2 : (w.setInode i { f with
            st_mode := (f.st_mode &&& S_IFMT) ||| (m &&& 0o7777) }).lookup p = some i := by
          simpa [World.lookup, World.setInode] using hl
        refine ⟨⟨i, (f.st_mode &&& S_IFMT) ||| (m &&& 0o7777), f.content.length, f.st_atime,
          f.st_mtime⟩, by simp only [World.stat, hl2]; simp [World.setInode], ?_⟩
        exact perm_bits _ _

theorem stat_utime_mode (w : World) (p : String) (a t : Nat) (q : String) :
    ((w.utime p a t).1.stat q).map Stat.st_mode = (w.stat q).map Stat.st_mode := by
  unfold World.utime
  by_cases hf : w.fault (.utime p a t) = true
  · simp [hf]
  · cases hl : w.lookup p with
    | none => simp [hf, hl]
    | some i =>
      cases hi : w.inode i with
      | none => simp [hf, hl, hi]
      | some f =>
        simp only [hf, hl, hi, Bool.false_eq_true, if_false]
        have hlq : (w.setInode i { f with st_atime := a, st_mtime := t }).lookup q
            = w.lookup q := by
          simp [World.lookup, World.setInode]
        simp only [World.stat, hlq]
        cases hq : w.lookup q with
        | none => rfl
        | some j =>
          by_cases hj : j = i
          · subst hj
            simp [World.setInode, hi]
          · simp [World.setInode, hj]

theorem stat_after_utime {w : World} {p : String} {a t : Nat} (h : (w.utime p a t).2 = true) :
    ∃ st, (w.utime p a t).1.stat p = some st ∧ st.st_atime = a ∧ st.st_mtime = t := by
  unfold World.utime at h ⊢
  by_cases hf : w.fault (.utime p a t) = true
  · simp [hf] at h
  · cases hl : w.lookup p with
    | none => simp [hf, hl] at h
    | some i =>
      cases hi : w.inode i with
      | none => simp [hf, hl, hi] at h
      | some f =>
        simp only [hf, hl, hi, Bool.false_eq_true, if_false]
        have hl2 : (w.setInode i { f with st_atime := a, st_mtime := t }).lookup p
            = some i := by
          simpa [World.lookup, World.setInode] using hl
        exact ⟨⟨i, f.st_mode, f.content.length, a, t⟩,
          by simp only [World.stat, hl2]; simp [World.setInode], rfl, rfl⟩

theorem not_final_of_quiet {l : List Event} (hq : ∀ e ∈ l, e.call.isFinal = false)
    {e : Event} (he : e ∈ l) :
    (∀ p m, e.call ≠ .chmod p m) ∧ (∀ p a t, e.call ≠ .utime p a t) := by
  have h := hq e he
  constructor
  · intro p m hc
    rw [hc] at h
    cases h
  · intro p a t hc
    rw [hc] at h
    cases h

theorem not_tail_of_moves {l : List Event}
    (hall : ∀ e ∈ l, (∃ p, e.call = .unlink p) ∨ (∃ a b, e.call = .rename a b))
    {e : Event} (he : e ∈ l) :
    (∀ p m, e.call ≠ .chmod p m) ∧ (∀ p a t, e.call ≠ .utime p a t) := by
  rcases hall e he with ⟨q, hq⟩ | ⟨a, b, hq⟩
  · constructor
    · intro p m hc
      rw [hq] at hc
      cases hc
    · intro p a t hc
      rw [hq] at hc
      cases hc
  · constructor
    · intro p m hc
      rw [hq] at hc
      cases hc
    · intro p a2 t hc
      rw [hq] at hc
      cases hc

set_option maxRecDepth 100000 in
/-- C17 as stated fails: the source `a.txt` has the permission bits 0600 and
`chmod` fails; `detab a.txt n.txt` creates `n.txt` with the bits 0644, goes on
after the failed `chmod` and returns 0, leaving `n.txt` with the bits 0644. -/
theorem mode_counterexample :
    (worldPrivate.stat "a.txt").map (fun st => st.st_mode &&& 0o7777) = some 0o600
    ∧ (main 32 worldPrivate ["a.txt", "n.txt"]).map (fun r => (r.status, r.calls))
      = some (.exit 0,
          [(.fopen (some "a.txt") "rb", true), (.fopen (some "n.txt") "wb", true),
           (.write 100 [97, 32, 32, 32, 32, 32, 32, 32, 98, 10], true),
           (.chmod "n.txt" 0o100600, false)])
    ∧ (main 32 worldPrivate ["a.txt", "n.txt"]).map
        (fun r => (r.w.stat "n.txt").map (fun st => st.st_mode &&& 0o7777))
      = some (some 0o644) := by
  decide

/-- C17 amended: in every run with a destination file `out`, staged or
direct, that is not an in-place run without any tab to replace: a run that
returns 0 has called `chmod` on the destination with the mode of the record
`sInTime` taken when the source was opened (the mode of a source file; zero
when the source is standard input), and on no other file or mode; when that
call succeeds, the permission bits of the destination after the run are those
of that mode. (The result of `chmod` is not looked at: after a failed call the
run still returns 0.) Any other run exits with status 2. -/
theorem mode_copied_when_chmod_succeeds (fuel : Nat) (w : World) (args : List String)
    (o : Options) (msgs : List Msg) (out : String)
    (hp : parseArgs args {} [] = .run o msgs) (hlo : 1 ≤ o.n) (hhi : o.n ≤ 32)
    (hf : 32 ≤ fuel) (hwf : w.WellFormed) (hr : RoutedTo w o out ∨ DirectTo w o out)
    (hch : ¬ (o.sameFile w = true ∧ TAB ∉ o.source w)) :
    ∃ r, main fuel w args = some r
      ∧ (r.status = .exit 0 ∨ r.status = .exit 2)
      ∧ (r.status = .exit 0 →
          (∃ e ∈ r.trace, e.call = .chmod out (o.srcStat w).st_mode
            ∧ (e.ok = true →
                ∃ st, r.w.stat out = some st
                  ∧ st.st_mode &&& 0o7777 = (o.srcStat w).st_mode &&& 0o7777))
          ∧ ∀ e ∈ r.trace, ∀ p m, e.call = .chmod p m →
              p = out ∧ m = (o.srcStat w).st_mode) := by
  obtain ⟨x, hx, hcase⟩ := main_to_file fuel hp hlo hhi hf hwf hr
  refine ⟨x, hx, ?_⟩
  rcases hcase with ⟨h2, _⟩ | ⟨r4, v4, rfl, A⟩
  · refine ⟨Or.inr h2, fun h0 => ?_⟩
    rw [h2] at h0
    cases h0
  · obtain ⟨i, hdf⟩ := A.df
    obtain ⟨inp, hin⟩ := A.in_name
    have hun : ¬ (v4.iSameFile = true ∧ v4.lnChanges = 0) := by
      rw [A.same, A.changes]
      rintro ⟨h1, h2⟩
      exact hch ⟨h1, List.count_eq_zero.1 h2⟩
    refine ⟨finalize_status r4 v4 A.out_name hin, fun h0 => ?_⟩
    obtain ⟨r1, l, hfin, hl, hall⟩ := finalize_exit0 r4 v4 hun h0
    obtain ⟨f1, f2, _, _⟩ := finish0_toRun (copyTime (copyMode r1 v4) v4) v4
    rw [hfin, f1, f2, tail_file r1 v4 hdf A.out_name, A.stat]
    have hold : ∀ e ∈ r1.trace, ∀ p m, e.call ≠ .chmod p m := by
      intro e he
      rw [hl] at he
      rcases List.mem_append.1 he with he | he
      · exact (not_final_of_quiet A.quiet he).1
      · exact (not_tail_of_moves hall he).1
    split
    · constructor
      · refine ⟨⟨.chmod out (o.srcStat w).st_mode, (r1.w.chmod out (o.srcStat w).st_mode).2,
          (r1.w.chmod out (o.srcStat w).st_mode).1⟩, by simp [Run.log], rfl, ?_⟩
        intro hok
        obtain ⟨st, hs1, hs2⟩ := stat_after_chmod (w := r1.w) hok
        have hm := stat_utime_mode (r1.w.chmod out (o.srcStat w).st_mode).1 out
          (o.srcStat w).st_atime (o.srcStat w).st_mtime out
        rw [hs1] at hm
        simp only [Run.log]
        cases hfin2 : ((r1.w.chmod out (o.srcStat w).st_mode).1.utime out
            (o.srcStat w).st_atime (o.srcStat w).st_mtime).1.stat out with
        | none => rw [hfin2] at hm; cases hm
        | some st2 =>
          rw [hfin2] at hm
          simp only [Option.map_some', Option.some.injEq] at hm
          exact ⟨st2, rfl, by rw [hm]; exact hs2⟩
      · intro e he p m hc
        simp only [Run.log, List.append_assoc, List.singleton_append, List.cons_append,
          List.nil_append] at he
        rcases List.mem_append.1 he with he | he
        · exact absurd hc (hold e he p m)
        · simp only [List.mem_cons, List.mem_singleton, List.not_mem_nil, or_false] at he
          rcases he with rfl | rfl
          · simp only [Call.chmod.injEq] at hc
            exact ⟨hc.1.symm, hc.2.symm⟩
          · cases hc
    · constructor
      · refine ⟨⟨.chmod out (o.srcStat w).st_mode, (r1.w.chmod out (o.srcStat w).st_mode).2,
          (r1.w.chmod out (o.srcStat w).st_mode).1⟩, by simp [Run.log], rfl, ?_⟩
        intro hok
        exact stat_after_chmod (w := r1.w) hok
      · intro e he p m hc
        simp only [Run.log] at he
        rcases List.mem_append.1 he with he | he
        · exact absurd hc (hold e he p m)
        · simp only [List.mem_singleton] at he
          subst he
          simp only [Call.chmod.injEq] at hc
          exact ⟨hc.1.symm, hc.2.symm⟩

theorem mode_copied_when_chmod_succeeds_witness :
    (parseArgs ["a.txt", "c.txt"] {} []
        = .run { pszInName := some "a.txt", pszOutName := some "c.txt" } []
      ∧ (1 : Int) ≤ 8 ∧ (8 : Int) ≤ 32 ∧ 32 ≤ 32 ∧ worldAC.WellFormed
      ∧ (RoutedTo worldAC { pszInName := some "a.txt", pszOutName := some "c.txt" } "c.txt"
          ∨ DirectTo worldAC { pszInName := some "a.txt", pszOutName := some "c.txt" } "c.txt")
      ∧ ¬ (Options.sameFile { pszInName := some "a.txt", pszOutName := some "c.txt" } worldAC
              = true
            ∧ TAB ∉ Options.source { pszInName := some "a.txt", pszOutName := some "c.txt" }
                worldAC)) ∧
    ∃ r, main 32 worldAC ["a.txt", "c.txt"] = some r
      ∧ (r.status = .exit 0 ∨ r.status = .exit 2)
      ∧ (r.status = .exit 0 →
          (∃ e ∈ r.trace,
            e.call = .chmod "c.txt"
                (Options.srcStat { pszInName := some "a.txt", pszOutName := some "c.txt" }
                  worldAC).st_mode
            ∧ (e.ok = true →
                ∃ st, r.w.stat "c.txt" = some st
                  ∧ st.st_mode &&& 0o7777
                    = (Options.srcStat { pszInName := some "a.txt", pszOutName := some "c.txt" }
                        worldAC).st_mode &&& 0o7777))
          ∧ ∀ e ∈ r.trace, ∀ p m, e.call = .chmod p m →
              p = "c.txt"
                ∧ m = (Options.srcStat { pszInName := some "a.txt", pszOutName := some "c.txt" }
                        worldAC).st_mode) :=
  have hr : RoutedTo worldAC { pszInName := some "a.txt", pszOutName := some "c.txt" } "c.txt"
      ∨ DirectTo worldAC { pszInName := some "a.txt", pszOutName := some "c.txt" } "c.txt" :=
    Or.inr ⟨"a.txt", rfl, rfl, by decide, by decide, by decide, fun _ => by decide⟩
  ⟨⟨by decide, by decide, by decide, by decide, worldAC_wellFormed, hr, by decide⟩,
    mode_copied_when_chmod_succeeds 32 worldAC ["a.txt", "c.txt"]
      { pszInName := some "a.txt", pszOutName := some "c.txt" } [] "c.txt"
      (by decide) (by decide) (by decide) (by decide) worldAC_wellFormed hr (by decide)⟩

set_option maxRecDepth 100000 in
/-- C18 as stated fails: with `-st` given, in a world where `utime` fails,
`detab -st a.txt c.txt` goes on after the failed call and returns 0; the
destination keeps the modification time of its writing (5000), not the 200 of
the source. -/
theorem times_counterexample :
    (worldNoUtime.stat "a.txt").map (fun st => (st.st_atime, st.st_mtime)) = some (100, 200)
    ∧ (main 32 worldNoUtime ["-st", "a.txt", "c.txt"]).map (fun r => (r.status, r.calls))
      = some (.exit 0,
          [(.fopen (some "a.txt") "rb", true), (.fopen (some "c.txt") "wb", true),
           (.write 2 [97, 32, 32, 32, 32, 32, 32, 32, 98, 10], true),
           (.chmod "c.txt" 0o100644, true), (.utime "c.txt" 100 200, false)])
    ∧ (main 32 worldNoUtime ["-st", "a.txt", "c.txt"]).map
        (fun r => (r.w.stat "c.txt").map (fun st => (st.st_atime, st.st_mtime)))
      = some (some (100, 5000)) := by
  decide

/-- C18 amended: in every run with a source file and a destination file
`out`, staged or direct, that is not an in-place run without any tab to
replace, and that returns 0: `main` calls `utime` on the destination with the
access and modification times the source had when it was opened if and only if
no tab was replaced or `-st` was given, it makes no other `utime` call (none at
all when a tab was replaced and `-st` was not given), and when the call
succeeds the destination has these two times after the run. (The result of
`utime` is not looked at: after a failed call the run still returns 0.) -/
theorem timestamps_copied_iff (fuel : Nat) (w : World) (args : List String)
    (o : Options) (msgs : List Msg) (out : String)
    (hp : parseArgs args {} [] = .run o msgs) (hlo : 1 ≤ o.n) (hhi : o.n ≤ 32)
    (hf : 32 ≤ fuel) (hwf : w.WellFormed) (hr : RoutedTo w o out ∨ DirectTo w o out)
    (hfile : o.pszInName ≠ some "-")
    (hch : ¬ (o.sameFile w = true ∧ TAB ∉ o.source w)) :
    ∃ r, main fuel w args = some r
      ∧ (r.status = .exit 0 ∨ r.status = .exit 2)
      ∧ (r.status = .exit 0 →
          ((∃ e ∈ r.trace, e.call = .utime out (o.srcStat w).st_atime (o.srcStat w).st_mtime)
            ↔ (TAB ∉ o.source w ∨ o.iCopyTime = true))
          ∧ ∀ e ∈ r.trace, ∀ p a t, e.call = .utime p a t →
              p = out ∧ a = (o.srcStat w).st_atime ∧ t = (o.srcStat w).st_mtime
                ∧ (e.ok = true →
                    ∃ st, r.w.stat out = some st ∧ st.st_atime = a ∧ st.st_mtime = t)) := by
  obtain ⟨x, hx, hcase⟩ := main_to_file fuel hp hlo hhi hf hwf hr
  refine ⟨x, hx, ?_⟩
  rcases hcase with ⟨h2, _⟩ | ⟨r4, v4, rfl, A⟩
  · refine ⟨Or.inr h2, fun h0 => ?_⟩
    rw [h2] at h0
    cases h0
  · obtain ⟨i, hdf⟩ := A.df
    obtain ⟨inp, hin⟩ := A.in_name
    have hun : ¬ (v4.iSameFile = true ∧ v4.lnChanges = 0) := by
      rw [A.same, A.changes]
      rintro ⟨h1, h2⟩
      exact hch ⟨h1, List.count_eq_zero.1 h2⟩
    have hsf : v4.sf ≠ .stdin := fun hc => hfile (A.sf_stdin.1 hc)
    have hcond : (v4.sf ≠ .stdin ∧ (v4.lnChanges = 0 ∨ v4.iCopyTime = true))
        ↔ (TAB ∉ o.source w ∨ o.iCopyTime = true) := by
      rw [A.changes, A.copy, List.count_eq_zero]
      exact ⟨fun h => h.2, fun h => ⟨hsf, h⟩⟩
    refine ⟨finalize_status r4 v4 A.out_name hin, fun h0 => ?_⟩
    obtain ⟨r1, l, hfin, hl, hall⟩ := finalize_exit0 r4 v4 hun h0
    obtain ⟨f1, f2, _, _⟩ := finish0_toRun (copyTime (copyMode r1 v4) v4) v4
    rw [hfin, f1, f2, tail_file r1 v4 hdf A.out_name, A.stat]
    have hold : ∀ e ∈ r1.trace, ∀ p a t, e.call ≠ .utime p a t := by
      intro e he
      rw [hl] at he
      rcases List.mem_append.1 he with he | he
      · exact (not_final_of_quiet A.quiet he).2
      · exact (not_tail_of_moves hall he).2
    by_cases hc : v4.sf ≠ .stdin ∧ (v4.lnChanges = 0 ∨ v4.iCopyTime = true)
    · rw [if_pos hc]
      constructor
      · refine ⟨fun _ => hcond.1 hc, fun _ => ?_⟩
        exact ⟨⟨.utime out (o.srcStat w).st_atime (o.srcStat w).st_mtime,
            ((r1.w.chmod out (o.srcStat w).st_mode).1.utime out (o.srcStat w).st_atime
              (o.srcStat w).st_mtime).2,
            ((r1.w.chmod out (o.srcStat w).st_mode).1.utime out (o.srcStat w).st_atime
              (o.srcStat w).st_mtime).1⟩,
          by simp [Run.log], rfl⟩
      · intro e he p a t hcall
        simp only [Run.log, List.append_assoc, List.singleton_append, List.cons_append,
          List.nil_append] at he
        rcases List.mem_append.1 he with he | he
        · exact absurd hcall (hold e he p a t)
        · simp only [List.mem_cons, List.mem_singleton, List.not_mem_nil, or_false] at he
          rcases he with rfl | rfl
          · cases hcall
          · simp only [Call.utime.injEq] at hcall
            obtain ⟨rfl, rfl, rfl⟩ := hcall
            refine ⟨rfl, rfl, rfl, ?_⟩
            intro hok
            exact stat_after_utime hok
    · rw [if_neg hc]
      have hno : ∀ e ∈ (r1.log (.chmod out (o.srcStat w).st_mode)
          (r1.w.chmod out (o.srcStat w).st_mode).2
          (r1.w.chmod out (o.srcStat w).st_mode).1).trace, ∀ p a t, e.call ≠ .utime p a t := by
        intro e he p a t hcall
        simp only [Run.log] at he
        rcases List.mem_append.1 he with he | he
        · exact hold e he p a t hcall
        · simp only [List.mem_singleton] at he
          subst he
          cases hcall
      constructor
      · constructor
        · rintro ⟨e, he, hcall⟩
          exact absurd hcall (hno e he _ _ _)
        · intro h
          exact absurd (hcond.2 h) hc
      · intro e he p a t hcall
        exact absurd hcall (hno e he p a t)

theorem timestamps_copied_iff_witness :
    (parseArgs ["-st", "a.txt", "c.txt"] {} []
        = .run { pszInName := some "a.txt", pszOutName := some "c.txt", iCopyTime := true } []
      ∧ (1 : Int) ≤ 8 ∧ (8 : Int) ≤ 32 ∧ 32 ≤ 32 ∧ worldAC.WellFormed
      ∧ (RoutedTo worldAC
            { pszInName := some "a.txt", pszOutName := some "c.txt", iCopyTime := true } "c.txt"
          ∨ DirectTo worldAC
            { pszInName := some "a.txt", pszOutName := some "c.txt", iCopyTime := true } "c.txt")
      ∧ (some "a.txt" : Option String) ≠ some "-"
      ∧ ¬ (Options.sameFile
              { pszInName := some "a.txt", pszOutName := some "c.txt", iCopyTime := true }
              worldAC = true
            ∧ TAB ∉ Options.source
                { pszInName := some "a.txt", pszOutName := some "c.txt", iCopyTime := true }
                worldAC)) ∧
    ∃ r, main 32 worldAC ["-st", "a.txt", "c.txt"] = some r
      ∧ (r.status = .exit 0 ∨ r.status = .exit 2)
      ∧ (r.status = .exit 0 →
          ((∃ e ∈ r.trace, e.call = .utime "c.txt"
              (Options.srcStat
                { pszInName := some "a.txt", pszOutName := some "c.txt", iCopyTime := true }
                worldAC).st_atime
              (Options.srcStat
                { pszInName := some "a.txt", pszOutName := some "c.txt", iCopyTime := true }
                worldAC).st_mtime)
            ↔ (TAB ∉ Options.source
                  { pszInName := some "a.txt", pszOutName := some "c.txt", iCopyTime := true }
                  worldAC
                ∨ Options.iCopyTime
                  { pszInName := some "a.txt", pszOutName := some "c.txt", iCopyTime := true }
                  = true))
          ∧ ∀ e ∈ r.trace, ∀ p a t, e.call = .utime p a t →
              p = "c.txt"
                ∧ a = (Options.srcStat
                    { pszInName := some "a.txt", pszOutName := some "c.txt", iCopyTime := true }
                    worldAC).st_atime
                ∧ t = (Options.srcStat
                    { pszInName := some "a.txt", pszOutName := some "c.txt", iCopyTime := true }
                    worldAC).st_mtime
                ∧ (e.ok = true →
                    ∃ st, r.w.stat "c.txt" = some st ∧ st.st_atime = a ∧ st.st_mtime = t)) :=
  have hr : RoutedTo worldAC
        { pszInName := some "a.txt", pszOutName := some "c.txt", iCopyTime := true } "c.txt"
      ∨ DirectTo worldAC
        { pszInName := some "a.txt", pszOutName := some "c.txt", iCopyTime := true } "c.txt" :=
    Or.inr ⟨"a.txt", rfl, rfl, by decide, by decide, by decide, fun _ => by decide⟩
  ⟨⟨by decide, by decide, by decide, by decide, worldAC_wellFormed, hr, by decide, by decide⟩,
    timestamps_copied_iff 32 worldAC ["-st", "a.txt", "c.txt"]
      { pszInName := some "a.txt", pszOutName := some "c.txt", iCopyTime := true } [] "c.txt"
      (by decide) (by decide) (by decide) (by decide) worldAC_wellFormed hr (by decide)
      (by decide)⟩

end Detab

namespace Stringx

/-! ## `strnirepl` against its specification -/

theorem set_at (pre : List UInt8) (x : UInt8) (rest : List UInt8) (c : UInt8) :
    (pre ++ x :: rest).set pre.length c = pre ++ c :: rest := by
  induction pre with
  | nil => rfl
  | cons p ps ih => simp [List.set, ih]

theorem strncpy_eq : ∀ (n : Nat) (src pre mid post : List UInt8), mid.length = n →
    strncpy (pre ++ mid ++ post) pre.length src n
      = pre ++ (src.take n ++ List.replicate (n - src.length) 0) ++ post
  | 0, src, pre, mid, post, h => by
    have : mid = [] := List.length_eq_zero.1 h
    subst this
    simp [strncpy]
  | n + 1, [], pre, mid, post, h => by
    obtain ⟨x, mid2, rfl⟩ := List.exists_cons_of_length_eq_add_one h
    have hl : mid2.length = n := by simpa using h
    have h1 : (pre ++ x :: mid2 ++ post).set pre.length 0 = (pre ++ [0]) ++ mid2 ++ post := by
      simp
    have h2 : pre.length + 1 = (pre ++ [0]).length := by simp
    unfold strncpy
    rw [h1, h2, strncpy_eq n [] (pre ++ [0]) mid2 post hl]
    simp [List.replicate_succ]
  | n + 1, c :: cs, pre, mid, post, h => by
    obtain ⟨x, mid2, rfl⟩ := List.exists_cons_of_length_eq_add_one h
    have hl : mid2.length = n := by simpa using h
    have h1 : (pre ++ x :: mid2 ++ post).set pre.length c = (pre ++ [c]) ++ mid2 ++ post := by
      simp
    have h2 : pre.length + 1 = (pre ++ [c]).length := by simp
    unfold strncpy
    rw [h1, h2, strncpy_eq n cs (pre ++ [c]) mid2 post hl]
    simp

theorem strnieq_eq : ∀ (t s : List UInt8),
    strnieq s t t.length = occursAt t s
  | [], s => by simp [strnieq, occursAt]
  | b :: bs, [] => by simp [strnieq, occursAt]
  | b :: bs, a :: as => by
    have ih := strnieq_eq bs as
    simp only [List.length_cons, strnieq, ih, occursAt, List.take_succ_cons, List.map_cons,
      List.cons.injEq]
    by_cases h : tolower a = tolower b <;> simp [h]

theorem occursAt_length {t s : List UInt8} (h : occursAt t s = true) : t.length ≤ s.length := by
  simp only [occursAt, decide_eq_true_eq] at h
  have := congrArg List.length h
  simp only [List.length_map, List.length_take] at this
  omega

theorem specReplace_skip (search repl : List UInt8) : ∀ (k : Nat) (cs : List UInt8),
    specReplace search repl k cs = specReplace search repl 0 (cs.drop k)
  | 0, cs => by simp
  | k + 1, [] => by simp [specReplace]
  | k + 1, c :: cs => by
    simp only [specReplace, List.drop_succ_cons]
    exact specReplace_skip search repl k cs

/-- The loop against the specification: from any point, with a search string
that is not empty and fuel for one pass more than the source has characters
left, the loop writes what fits of the replaced text, then the NUL. -/
theorem replLoop_eq (search repl : List UInt8) (hne : search ≠ []) :
    ∀ (fuel : Nat) (inp pre room : List UInt8) (rem : Nat), inp.length + 1 ≤ fuel →
      room.length = rem + 1 →
      ∃ tail, replLoop search repl fuel inp (pre ++ room) pre.length rem
          = some (pre.length + ((specReplace search repl 0 inp).take rem).length,
              pre ++ (specReplace search repl 0 inp).take rem ++ 0 :: tail)
        ∧ ((specReplace search repl 0 inp).take rem).length + 1 + tail.length = rem + 1
  | 0, inp, pre, room, rem, hf, _ => by omega
  | fuel + 1, [], pre, room, rem, _, hr => by
    obtain ⟨x, room2, rfl⟩ := List.exists_cons_of_length_eq_add_one hr
    refine ⟨room2, ?_, ?_⟩
    · simp [replLoop, specReplace, set_at]
    · simp only [specReplace, List.take_nil, List.length_nil, List.length_cons] at hr ⊢
      omega
  | fuel + 1, c :: rest, pre, room, 0, _, hr => by
    obtain ⟨x, room2, rfl⟩ := List.exists_cons_of_length_eq_add_one hr
    refine ⟨room2, ?_, ?_⟩
    · simp [replLoop, set_at]
    · simp only [List.take_zero, List.length_nil, List.length_cons] at hr ⊢
      omega
  | fuel + 1, c :: rest, pre, room, rem + 1, hf, hr => by
    have hsl : 1 ≤ search.length := by
      cases search with
      | nil => exact absurd rfl hne
      | cons _ _ => simp
    unfold replLoop
    simp only [Nat.succ_ne_zero, if_false, strnieq_eq]
    by_cases hm : occursAt search (c :: rest) = true
    · simp only [hm, if_true]
      have hlen := occursAt_length hm
      have hspec : specReplace search repl 0 (c :: rest)
          = repl ++ specReplace search repl 0 ((c :: rest).drop search.length) := by
        have hd : (c :: rest).drop search.length = rest.drop (search.length - 1) := by
          obtain ⟨k, hk⟩ : ∃ k, search.length = k + 1 := ⟨search.length - 1, by omega⟩
          rw [hk]
          simp
        rw [hd, ← specReplace_skip]
        simp [specReplace, hm]
      have hfl : ((c :: rest).drop search.length).length + 1 ≤ fuel := by
        simp only [List.length_drop, List.length_cons] at hf ⊢
        omega
      -- the room is `rem + 1` bytes and one more
      obtain ⟨mid, x, rfl⟩ : ∃ mid x, room = mid ++ [x] := by
        have hne' : room ≠ [] := by
          intro h
          rw [h] at hr
          simp at hr
        exact ⟨room.dropLast, room.getLast hne', (List.dropLast_append_getLast hne').symm⟩
      have hmid : mid.length = rem + 1 := by simpa using hr
      have hcp := strncpy_eq (rem + 1) repl pre mid [x] hmid
      rw [← List.append_assoc, hcp]
      by_cases hlt : repl.length < rem + 1
      · simp only [hlt, if_true]
        have ht : repl.take (rem + 1) = repl := List.take_of_length_le (by omega)
        have hb : pre ++ (List.take (rem + 1) repl ++ List.replicate (rem + 1 - repl.length) 0)
            ++ [x] = (pre ++ repl) ++ (List.replicate (rem + 1 - repl.length) 0 ++ [x]) := by
          rw [ht]
          simp
        have ho : pre.length + repl.length = (pre ++ repl).length := by simp
        rw [hb, ho]
        obtain ⟨tail, h1, h2⟩ := replLoop_eq search repl hne fuel
          ((c :: rest).drop search.length) (pre ++ repl)
          (List.replicate (rem + 1 - repl.length) 0 ++ [x]) (rem + 1 - repl.length) hfl
          (by simp)
        refine ⟨tail, ?_, ?_⟩
        · rw [h1, hspec]
          simp [List.take_append_eq_append_take, ht, Nat.add_assoc]
        · rw [hspec]
          simp only [List.take_append_eq_append_take, ht, List.length_append]
          omega
      · simp only [hlt, if_false]
        have hz : rem + 1 - repl.length = 0 := by omega
        have hb : pre ++ (List.take (rem + 1) repl ++ List.replicate (rem + 1 - repl.length) 0)
            ++ [x] = (pre ++ List.take (rem + 1) repl) ++ [x] := by
          rw [hz]
          simp
        have hlt' : (List.take (rem + 1) repl).length = rem + 1 := by
          simp only [List.length_take]
          omega
        have ho : pre.length + (rem + 1) = (pre ++ List.take (rem + 1) repl).length := by
          simp only [List.length_append, hlt']
        rw [hb, ho]
        obtain ⟨tail, h1, h2⟩ := replLoop_eq search repl hne fuel
          ((c :: rest).drop search.length) (pre ++ List.take (rem + 1) repl) [x] 0 hfl rfl
        refine ⟨tail, ?_, ?_⟩
        · rw [h1, hspec]
          have : List.take (rem + 1) (repl ++ specReplace search repl 0
              (List.drop search.length (c :: rest))) = List.take (rem + 1) repl := by
            rw [List.take_append_eq_append_take]
            have : rem + 1 - repl.length = 0 := hz
            simp [this]
          simp [this]
        · rw [hspec]
          have : List.take (rem + 1) (repl ++ specReplace search repl 0
              (List.drop search.length (c :: rest))) = List.take (rem + 1) repl := by
            rw [List.take_append_eq_append_take]
            have : rem + 1 - repl.length = 0 := hz
            simp [this]
          rw [this, hlt']
          simp only [List.take_zero, List.length_nil] at h2
          omega
    · have hm0 : occursAt search (c :: rest) = false := by simpa using hm
      simp only [hm0, Bool.false_eq_true, if_false]
      obtain ⟨x, room2, rfl⟩ := List.exists_cons_of_length_eq_add_one hr
      have hr2 : room2.length = rem + 1 := by simpa using hr
      have hb : (pre ++ x :: room2).set pre.length c = (pre ++ [c]) ++ room2 := by
        rw [set_at]
        simp
      have ho : pre.length + 1 = (pre ++ [c]).length := by simp
      rw [hb, ho]
      obtain ⟨tail, h1, h2⟩ := replLoop_eq search repl hne fuel rest (pre ++ [c]) room2
        (rem + 1 - 1) (by simp only [List.length_cons] at hf; omega) (by simpa using hr2)
      have hspec : specReplace search repl 0 (c :: rest)
          = c :: specReplace search repl 0 rest := by
        simp [specReplace, hm0]
      refine ⟨tail, ?_, ?_⟩
      · rw [h1, hspec]
        simp [Nat.add_assoc, Nat.add_comm]
      · rw [hspec]
        simp only [Nat.add_sub_cancel, List.take_succ_cons, List.length_cons] at h2 ⊢
        omega

theorem zero_not_mem_specReplace (search repl : List UInt8) (hr : (0 : UInt8) ∉ repl) :
    ∀ (s : List UInt8) (k : Nat), (0 : UInt8) ∉ s → (0 : UInt8) ∉ specReplace search repl k s
  | [], k, _ => by cases k <;> simp [specReplace]
  | c :: cs, k + 1, h => by
    simp only [specReplace]
    exact zero_not_mem_specReplace search repl hr cs k (fun hc => h (List.mem_cons_of_mem _ hc))
  | c :: cs, 0, h => by
    have hcs : (0 : UInt8) ∉ cs := fun hc => h (List.mem_cons_of_mem _ hc)
    have hc0 : (0 : UInt8) ≠ c := fun hc => h (by rw [hc]; exact List.mem_cons_self _ _)
    simp only [specReplace]
    split
    · intro hmem
      rcases List.mem_append.1 hmem with hmem | hmem
      · exact hr hmem
      · exact zero_not_mem_specReplace search repl hr cs _ hcs hmem
    · intro hmem
      rcases List.mem_cons.1 hmem with hmem | hmem
      · exact hc0 hmem
      · exact zero_not_mem_specReplace search repl hr cs 0 hcs hmem

theorem cstr_terminated (E tail : List UInt8) (h : (0 : UInt8) ∉ E) :
    cstr (E ++ 0 :: tail) = E := by
  unfold cstr
  rw [List.takeWhile_append_of_pos]
  · simp
  · intro x hx
    have : x ≠ 0 := by
      rintro rfl
      exact h hx
    simpa using this

/-- C20: for every source string and replacement string without NUL byte and
every search string that is not empty, `strnirepl` returns (given fuel for one
pass more than the source has characters) and leaves in the buffer of `L`
bytes, as a NUL-terminated string: the source with every occurrence of the
search string, matched case-insensitively and taken from left to right without
overlap, replaced by the replacement, when that text and its NUL fit in the
buffer; and the first `L - 1` characters of that text when they do not. The
value returned is the length of the string left. -/
theorem strnirepl_replaces (buf pszString pszSearch pszReplace : List UInt8) (L fuel : Nat)
    (hbuf : buf.length = L) (hs : (0 : UInt8) ∉ pszString) (hr : (0 : UInt8) ∉ pszReplace)
    (hne : pszSearch ≠ []) (hf : pszString.length + 1 ≤ fuel) :
    ∃ ret out, strnirepl fuel buf L pszString pszSearch pszReplace = some (ret, out)
      ∧ out.length = L
      ∧ ((specReplace pszSearch pszReplace 0 pszString).length + 1 ≤ L →
          cstr out = specReplace pszSearch pszReplace 0 pszString)
      ∧ (L < (specReplace pszSearch pszReplace 0 pszString).length + 1 →
          cstr out = (specReplace pszSearch pszReplace 0 pszString).take (L - 1))
      ∧ ret = (cstr out).length := by
  unfold strnirepl
  by_cases hL : L = 0
  · subst hL
    have hb : buf = [] := List.length_eq_zero.1 hbuf
    subst hb
    exact ⟨0, [], by simp, rfl, fun h => by omega, fun _ => by simp [cstr], by simp [cstr]⟩
  · simp only [hL, if_false]
    obtain ⟨tail, h1, h2⟩ := replLoop_eq pszSearch pszReplace hne fuel pszString [] buf (L - 1)
      hf (by omega)
    have hz : (0 : UInt8) ∉ (specReplace pszSearch pszReplace 0 pszString).take (L - 1) :=
      fun hc => zero_not_mem_specReplace pszSearch pszReplace hr pszString 0 hs
        (List.mem_of_mem_take hc)
    simp only [List.nil_append, List.length_nil, Nat.zero_add] at h1
    have hc := cstr_terminated _ tail hz
    refine ⟨_, _, h1, ?_, ?_, ?_, ?_⟩
    · simp only [List.length_append, List.length_cons]
      omega
    · intro hfit
      rw [hc, List.take_of_length_le (by omega)]
    · intro _
      exact hc
    · rw [hc]

/-- C19 fails on the code for an empty search string with an empty
replacement: on the source `"a"` with a buffer of 3 bytes the loop matches the
empty string at `"a"`, writes nothing, advances neither `pszIn` nor `pszOut`,
and never ends: whatever the fuel, nothing is returned. -/
theorem strnirepl_never_returns (fuel : Nat) :
    strnirepl fuel [7, 7, 7] 3 [97] [] [] = none := by
  have key : ∀ (fuel : Nat) (buf : List UInt8), replLoop [] [] fuel [97] buf 0 2 = none := by
    intro fuel
    induction fuel with
    | zero => intro buf; rfl
    | succ n ih =>
      intro buf
      unfold replLoop
      simp [strnieq, ih]
  simp [strnirepl, key]

theorem strnirepl_replaces_witness :
    (([7, 7, 7, 7, 7, 7] : List UInt8).length = 6 ∧ (0 : UInt8) ∉ ([72, 105] : List UInt8)
      ∧ (0 : UInt8) ∉ ([111] : List UInt8) ∧ ([73] : List UInt8) ≠ []
      ∧ ([72, 105] : List UInt8).length + 1 ≤ 3) ∧
    ∃ ret out, strnirepl 3 [7, 7, 7, 7, 7, 7] 6 [72, 105] [73] [111] = some (ret, out)
      ∧ out.length = 6
      ∧ ((specReplace [73] [111] 0 [72, 105]).length + 1 ≤ 6 →
          cstr out = specReplace [73] [111] 0 [72, 105])
      ∧ (6 < (specReplace [73] [111] 0 [72, 105]).length + 1 →
          cstr out = (specReplace [73] [111] 0 [72, 105]).take (6 - 1))
      ∧ ret = (cstr out).length :=
  ⟨⟨by decide, by decide, by decide, by decide, by decide⟩,
    strnirepl_replaces [7, 7, 7, 7, 7, 7] [72, 105] [73] [111] 6 3 (by decide) (by decide)
      (by decide) (by decide) (by decide)⟩

/-- Two runs evaluated: `"Hello, hello"` with `"LO"` replaced by `"p!"` in a
buffer of 16 bytes, and in one of 6 bytes, where the result is cut after 5
characters. -/
theorem strnirepl_evaluated :
    (strnirepl 13 (List.replicate 16 7) 16
        [72, 101, 108, 108, 111, 44, 32, 104, 101, 108, 108, 111] [76, 79] [112, 33]).map
        (fun r => (r.1, cstr r.2))
      = some (12, [72, 101, 108, 112, 33, 44, 32, 104, 101, 108, 112, 33])
    ∧ (strnirepl 13 (List.replicate 6 7) 6
        [72, 101, 108, 108, 111, 44, 32, 104, 101, 108, 108, 111] [76, 79] [112, 33]).map
        (fun r => (r.1, cstr r.2))
      = some (5, [72, 101, 108, 112, 33]) := by
  decide

end Stringx

namespace Detab

/-! ## The count of changes -/

/-- C23: for every tab width `N` in 1..32 and every input the main loop
returns; the number of changes it counts (`lnChanges`) equals the number of
tab bytes in the input, and that count is zero if and only if the bytes written
by the loop are, byte for byte, the input. -/
theorem changes_count_tabs (N fuel : Nat) (hlo : 1 ≤ N) (_hhi : N ≤ 32) (hf : N ≤ fuel)
    (input : List UInt8) :
    ∃ r, detab fuel N input = some r
      ∧ r.lnChanges = input.count TAB
      ∧ (r.lnChanges = 0 ↔ r.out = input) := by
  refine ⟨⟨specExpand N 1 input, specCol N 1 input, 0 + input.count TAB⟩,
    detabLoop_eq hlo hf input 1 0 (le_refl 1), by simp, ?_⟩
  simp only [Nat.zero_add]
  constructor
  · intro h0
    exact specExpand_of_tab_not_mem N input 1 (List.count_eq_zero.1 h0)
  · intro heq
    apply List.count_eq_zero.2
    rw [← heq]
    exact tab_not_mem_specExpand N input 1

theorem changes_count_tabs_witness :
    (1 ≤ 8 ∧ 8 ≤ 32 ∧ 8 ≤ 8) ∧
    ∃ r, detab 8 8 [97, 9, 9, 98, 10] = some r
      ∧ r.lnChanges = List.count TAB [97, 9, 9, 98, 10]
      ∧ (r.lnChanges = 0 ↔ r.out = [97, 9, 9, 98, 10]) :=
  ⟨by decide, changes_count_tabs 8 8 (by decide) (by decide) (by decide) [97, 9, 9, 98, 10]⟩

end Detab

namespace Chars

/-! ## `ToUtf8` -/

theorem B_toNat {x : Nat} (h : x < 256) : (B x).toNat = x := by
  simp [B, UInt8.toNat, UInt8.ofNat, Nat.mod_eq_of_lt h]

theorem surrogate_test {c : Nat} (hc : c < 2 ^ 32) :
    (c + 2 ^ 32 - 0xd800) % 2 ^ 32 < 0x800 ↔ 0xD800 ≤ c ∧ c ≤ 0xDFFF := by
  norm_num at hc ⊢
  omega

theorem ToUtf8_eq (c : Nat) (hc : c < 2 ^ 32) (buf : List UInt8) (hb : 4 ≤ buf.length) :
    ToUtf8 c buf
      = if (0xD800 ≤ c ∧ c ≤ 0xDFFF) ∨ 0x110000 ≤ c then (0, buf)
        else ((encoding c).length, encoding c ++ buf.drop (encoding c).length) := by
  obtain ⟨x0, x1, x2, x3, rest, rfl⟩ : ∃ x0 x1 x2 x3 rest, buf = x0 :: x1 :: x2 :: x3 :: rest := by
    match buf, hb with
    | x0 :: x1 :: x2 :: x3 :: rest, _ => exact ⟨x0, x1, x2, x3, rest, rfl⟩
  have hs := surrogate_test hc
  unfold ToUtf8 encoding
  dsimp only
  by_cases h1 : c < 0x80
  · rw [if_pos h1, if_neg (by omega), if_pos h1]
    simp [put]
  · rw [if_neg h1, if_neg h1]
    by_cases h2 : c < 0x800
    · rw [if_pos h2, if_neg (by omega), if_pos h2]
      simp [put]
    · rw [if_neg h2, if_neg h2]
      by_cases h3 : 0xD800 ≤ c ∧ c ≤ 0xDFFF
      · rw [if_pos (hs.2 h3), if_pos (Or.inl h3)]
      · rw [if_neg (fun h => h3 (hs.1 h))]
        by_cases h4 : c < 0x10000
        · rw [if_pos h4, if_neg (by omega), if_pos h4]
          simp [put]
        · rw [if_neg h4, if_neg h4]
          by_cases h5 : c < 0x110000
          · rw [if_pos h5, if_neg (by omega)]
            simp [put]
          · rw [if_neg h5, if_pos (by omega)]

theorem utf8Decode_encoding (c : Nat) (hc : c < 0x110000) (hs : ¬ (0xD800 ≤ c ∧ c ≤ 0xDFFF))
    (tail : List UInt8) :
    utf8Decode (encoding c ++ tail) = some (c, (encoding c).length) := by
  unfold encoding
  by_cases h1 : c < 0x80
  · have b0 := B_toNat (show c < 256 by omega)
    simp only [h1, if_true, List.singleton_append, utf8Decode, List.length_singleton, b0]
  · by_cases h2 : c < 0x800
    · have b0 := B_toNat (show 192 + c / 64 < 256 by omega)
      have b1 := B_toNat (show 128 + c % 64 < 256 by omega)
      simp only [h1, h2, if_true, if_false, List.cons_append, List.nil_append, utf8Decode, isCont,
        List.length_cons, List.length_nil, b0, b1]
      have e1 : ¬ 192 + c / 64 < 0x80 := by omega
      have e2 : ¬ 192 + c / 64 < 0xC0 := by omega
      have e3 : 192 + c / 64 < 0xE0 := by omega
      have e4 : (192 + c / 64 - 0xC0) * 64 + (128 + c % 64 - 0x80) = c := by omega
      have e5 : 0x80 ≤ 128 + c % 64 := by omega
      have e6 : 128 + c % 64 < 0xC0 := by omega
      have e7 : 0x80 ≤ c := by omega
      simp only [e1, e2, e3, e4, if_true, if_false]
      simp [e6, e7]
    · by_cases h4 : c < 0x10000
      · have b0 := B_toNat (show 224 + c / 4096 < 256 by omega)
        have b1 := B_toNat (show 128 + c / 64 % 64 < 256 by omega)
        have b2 := B_toNat (show 128 + c % 64 < 256 by omega)
        simp only [h1, h2, h4, if_true, if_false, List.cons_append, List.nil_append, utf8Decode,
          isCont, List.length_cons, List.length_nil, b0, b1, b2]
        have e1 : ¬ 224 + c / 4096 < 0x80 := by omega
        have e2 : ¬ 224 + c / 4096 < 0xC0 := by omega
        have e3 : ¬ 224 + c / 4096 < 0xE0 := by omega
        have e3' : 224 + c / 4096 < 0xF0 := by omega
        have e4 : ((224 + c / 4096 - 0xE0) * 64 + (128 + c / 64 % 64 - 0x80)) * 64
            + (128 + c % 64 - 0x80) = c := by omega
        have e6 : 128 + c % 64 < 0xC0 := by omega
        have e6' : 128 + c / 64 % 64 < 0xC0 := by omega
        have e7 : 0x800 ≤ c := by omega
        simp only [e1, e2, e3, e3', e4, if_true, if_false]
        simp [e6, e6', e7]
        omega
      · have b0 := B_toNat (show 240 + c / 262144 < 256 by omega)
        have b1 := B_toNat (show 128 + c / 4096 % 64 < 256 by omega)
        have b2 := B_toNat (show 128 + c / 64 % 64 < 256 by omega)
        have b3 := B_toNat (show 128 + c % 64 < 256 by omega)
        simp only [h1, h2, h4, if_true, if_false, List.cons_append, List.nil_append, utf8Decode,
          isCont, List.length_cons, List.length_nil, b0, b1, b2, b3]
        have e1 : ¬ 240 + c / 262144 < 0x80 := by omega
        have e2 : ¬ 240 + c / 262144 < 0xC0 := by omega
        have e3 : ¬ 240 + c / 262144 < 0xE0 := by omega
        have e3' : ¬ 240 + c / 262144 < 0xF0 := by omega
        have e3'' : 240 + c / 262144 < 0xF8 := by omega
        have e4 : (((240 + c / 262144 - 0xF0) * 64 + (128 + c / 4096 % 64 - 0x80)) * 64
            + (128 + c / 64 % 64 - 0x80)) * 64 + (128 + c % 64 - 0x80) = c := by omega
        have e6 : 128 + c % 64 < 0xC0 := by omega
        have e6' : 128 + c / 64 % 64 < 0xC0 := by omega
        have e6'' : 128 + c / 4096 % 64 < 0xC0 := by omega
        have e7 : 0x10000 ≤ c := by omega
        simp only [e1, e2, e3, e3', e3'', e4, if_true, if_false]
        simp [e6, e6', e6'', e7, hc]

/-- C24: for every value `c` of an `unsigned int`, `ToUtf8` returns 0 exactly
when `c` is a surrogate (0xD800 <= c <= 0xDFFF) or `c >= 0x110000`, and then
it leaves the buffer as it was; for every other `c` it returns 1 for
`c < 0x80`, 2 for `c < 0x800`, 3 for `c < 0x10000` and 4 for `c < 0x110000`,
and that is the number of bytes it wrote: the buffer keeps its length, is as
before from that index on, and holds before that index the bytes of
`encoding c`, as many as the value returned, whatever it held there before. -/
theorem toUtf8_return_value (c : Nat) (hc : c < 2 ^ 32) (buf : List UInt8)
    (hb : 4 ≤ buf.length) :
    ((ToUtf8 c buf).1 = 0 ↔ (0xD800 ≤ c ∧ c ≤ 0xDFFF) ∨ 0x110000 ≤ c)
    ∧ ((ToUtf8 c buf).1 = 0 → (ToUtf8 c buf).2 = buf)
    ∧ (¬ ((0xD800 ≤ c ∧ c ≤ 0xDFFF) ∨ 0x110000 ≤ c) →
        (ToUtf8 c buf).1
            = (if c < 0x80 then 1 else if c < 0x800 then 2 else if c < 0x10000 then 3 else 4)
          ∧ (ToUtf8 c buf).2.length = buf.length
          ∧ (ToUtf8 c buf).2.drop (ToUtf8 c buf).1 = buf.drop (ToUtf8 c buf).1
          ∧ (ToUtf8 c buf).2.take (ToUtf8 c buf).1 = encoding c
          ∧ (encoding c).length = (ToUtf8 c buf).1
          ∧ (ToUtf8 c buf).2 = encoding c ++ buf.drop (ToUtf8 c buf).1) := by
  have hlen : (encoding c).length
      = (if c < 0x80 then 1 else if c < 0x800 then 2 else if c < 0x10000 then 3 else 4) := by
    unfold encoding
    split
    · rfl
    · split
      · rfl
      · split <;> rfl
  have hpos : 1 ≤ (encoding c).length ∧ (encoding c).length ≤ 4 := by
    rw [hlen]
    split
    · omega
    · split
      · omega
      · split <;> omega
  rw [ToUtf8_eq c hc buf hb]
  by_cases hbad : (0xD800 ≤ c ∧ c ≤ 0xDFFF) ∨ 0x110000 ≤ c
  · rw [if_pos hbad]
    exact ⟨⟨fun _ => hbad, fun _ => rfl⟩, fun _ => rfl, fun h => absurd hbad h⟩
  · rw [if_neg hbad]
    refine ⟨⟨fun h => ?_, fun h => absurd h hbad⟩, fun h => ?_,
      fun _ => ⟨hlen, ?_, ?_, ?_, rfl, rfl⟩⟩
    · dsimp only at h
      omega
    · dsimp only at h
      omega
    · dsimp only
      rw [List.length_append, List.length_drop]
      omega
    · dsimp only
      exact List.drop_left _ _
    · dsimp only
      exact List.take_left _ _

theorem toUtf8_return_value_witness :
    (0x20AC < 2 ^ 32 ∧ 4 ≤ [0, 0, 0, 0, (0 : UInt8)].length) ∧
    (((ToUtf8 0x20AC [0, 0, 0, 0, 0]).1 = 0
        ↔ (0xD800 ≤ 0x20AC ∧ 0x20AC ≤ 0xDFFF) ∨ 0x110000 ≤ 0x20AC)
    ∧ ((ToUtf8 0x20AC [0, 0, 0, 0, 0]).1 = 0 → (ToUtf8 0x20AC [0, 0, 0, 0, 0]).2 = [0, 0, 0, 0, 0])
    ∧ (¬ ((0xD800 ≤ 0x20AC ∧ 0x20AC ≤ 0xDFFF) ∨ 0x110000 ≤ 0x20AC) →
        (ToUtf8 0x20AC [0, 0, 0, 0, 0]).1
            = (if 0x20AC < 0x80 then 1 else if 0x20AC < 0x800 then 2
                else if 0x20AC < 0x10000 then 3 else 4)
          ∧ (ToUtf8 0x20AC [0, 0, 0, 0, 0]).2.length = [0, 0, 0, 0, (0 : UInt8)].length
          ∧ (ToUtf8 0x20AC [0, 0, 0, 0, 0]).2.drop (ToUtf8 0x20AC [0, 0, 0, 0, 0]).1
              = List.drop (ToUtf8 0x20AC [0, 0, 0, 0, 0]).1 [0, 0, 0, 0, (0 : UInt8)]
          ∧ (ToUtf8 0x20AC [0, 0, 0, 0, 0]).2.take (ToUtf8 0x20AC [0, 0, 0, 0, 0]).1
              = encoding 0x20AC
          ∧ (encoding 0x20AC).length = (ToUtf8 0x20AC [0, 0, 0, 0, 0]).1
          ∧ (ToUtf8 0x20AC [0, 0, 0, 0, 0]).2
              = encoding 0x20AC
                ++ List.drop (ToUtf8 0x20AC [0, 0, 0, 0, 0]).1 [0, 0, 0, 0, (0 : UInt8)])) :=
  ⟨⟨by decide, by decide⟩, toUtf8_return_value 0x20AC (by decide) [0, 0, 0, 0, 0] (by decide)⟩

theorem shr6 (v : UInt32) : (v >>> 6).toBitVec.toNat = v.toBitVec.toNat / 64 := by
  show (v.toBitVec >>> ((6 : UInt32).mod 32).toBitVec).toNat = _
  have h : ((6 : UInt32).mod 32).toBitVec = 6#32 := by decide
  rw [h, BitVec.ushiftRight_eq', BitVec.toNat_ushiftRight, Nat.shiftRight_eq_div_pow]
  rfl

theorem shr12 (v : UInt32) : (v >>> 12).toBitVec.toNat = v.toBitVec.toNat / 4096 := by
  show (v.toBitVec >>> ((12 : UInt32).mod 32).toBitVec).toNat = _
  have h : ((12 : UInt32).mod 32).toBitVec = 12#32 := by decide
  rw [h, BitVec.ushiftRight_eq', BitVec.toNat_ushiftRight, Nat.shiftRight_eq_div_pow]
  rfl

theorem shr18 (v : UInt32) : (v >>> 18).toBitVec.toNat = v.toBitVec.toNat / 262144 := by
  show (v.toBitVec >>> ((18 : UInt32).mod 32).toBitVec).toNat = _
  have h : ((18 : UInt32).mod 32).toBitVec = 18#32 := by decide
  rw [h, BitVec.ushiftRight_eq', BitVec.toNat_ushiftRight, Nat.shiftRight_eq_div_pow]
  rfl

theorem toUInt8_eq (v : UInt32) : v.toUInt8 = UInt8.ofNat (v.toBitVec.toNat % 256) := by
  apply UInt8.ext
  simp [UInt32.toUInt8, Nat.toUInt8, UInt8.ofNat, UInt8.toNat, UInt32.toNat]

set_option maxRecDepth 100000 in
theorem mask_cont : ∀ n : Fin 256,
    (UInt8.ofNat n.val &&& 0x3f ||| 0x80) = UInt8.ofNat (128 + n.val % 64) := by
  decide

set_option maxRecDepth 100000 in
theorem mask_lead2 : ∀ n : Fin 256,
    (UInt8.ofNat n.val &&& 0x1f ||| 0xc0) = UInt8.ofNat (192 + n.val % 32) := by
  decide

set_option maxRecDepth 100000 in
theorem mask_lead3 : ∀ n : Fin 256,
    (UInt8.ofNat n.val &&& 0x0f ||| 0xe0) = UInt8.ofNat (224 + n.val % 16) := by
  decide

set_option maxRecDepth 100000 in
theorem mask_lead4 : ∀ n : Fin 256,
    (UInt8.ofNat n.val &&& 0x07 ||| 0xf0) = UInt8.ofNat (240 + n.val % 8) := by
  decide

theorem cont_byte (x : Nat) : (UInt8.ofNat (x % 256) &&& 0x3f ||| 0x80) = B (128 + x % 64) := by
  have h := mask_cont ⟨x % 256, Nat.mod_lt _ (by decide)⟩
  simp only at h
  rw [h, B]
  congr 1
  omega

theorem val_ofNat (c : Nat) (hc : c < 0x110000) (hs : ¬ (0xD800 ≤ c ∧ c ≤ 0xDFFF)) :
    (Char.ofNat c).val.toBitVec.toNat = c := by
  have hv : c.isValidChar := by
    unfold Nat.isValidChar
    omega
  simp [Char.ofNat, hv, Char.ofNatAux]

/-- The bytes the writing branches of `ToUtf8` store are those of the UTF-8
encoder of the Lean core library, `String.utf8EncodeChar`. -/
theorem encoding_eq_core (c : Nat) (hc : c < 0x110000) (hs : ¬ (0xD800 ≤ c ∧ c ≤ 0xDFFF)) :
    encoding c = String.utf8EncodeChar (Char.ofNat c) := by
  have hv := val_ofNat c hc hs
  generalize (Char.ofNat c) = ch at hv
  unfold String.utf8EncodeChar encoding
  dsimp only
  have le_iff : ∀ (k : UInt32), ch.val ≤ k ↔ c ≤ k.toBitVec.toNat := by
    intro k
    rw [← hv]
    exact Iff.rfl
  have l1 : (ch.val ≤ 0x7f) ↔ c < 0x80 := by
    rw [le_iff]
    show c ≤ 127 ↔ _
    omega
  have l2 : (ch.val ≤ 0x7ff) ↔ c < 0x800 := by
    rw [le_iff]
    show c ≤ 2047 ↔ _
    omega
  have l3 : (ch.val ≤ 0xffff) ↔ c < 0x10000 := by
    rw [le_iff]
    show c ≤ 65535 ↔ _
    omega
  simp only [l1, l2, l3, toUInt8_eq, shr6, shr12, shr18, hv, cont_byte]
  have lead2 := mask_lead2 ⟨c / 64 % 256, Nat.mod_lt _ (by decide)⟩
  have lead3 := mask_lead3 ⟨c / 4096 % 256, Nat.mod_lt _ (by decide)⟩
  have lead4 := mask_lead4 ⟨c / 262144 % 256, Nat.mod_lt _ (by decide)⟩
  simp only at lead2 lead3 lead4
  rw [lead2, lead3, lead4]
  by_cases h1 : c < 0x80
  · simp only [h1, if_true, B]
  · by_cases h2 : c < 0x800
    · simp only [h1, h2, if_true, if_false, B, List.cons.injEq, and_true]
      congr 1
      omega
    · by_cases h3 : c < 0x10000
      · simp only [h1, h2, h3, if_true, if_false, B, List.cons.injEq, and_true]
        congr 1
        omega
      · simp only [h1, h2, h3, if_false, B, List.cons.injEq, and_true]
        congr 1
        omega

/-- C25: for every Unicode scalar value `c` (`c < 0x110000`, not a surrogate)
the bytes `ToUtf8` writes, the first `n` of the buffer for the value `n` it
returns, are the well-formed UTF-8 encoding of `c`: the standard decoder,
which rejects overlong forms, reads `c` from them and consumes exactly `n`
bytes, whatever bytes follow; and they are the bytes the UTF-8 encoder of the
Lean core library gives for `c`. -/
theorem toUtf8_decodes (c : Nat) (hc : c < 0x110000) (hs : ¬ (0xD800 ≤ c ∧ c ≤ 0xDFFF))
    (buf : List UInt8) (hb : 4 ≤ buf.length) (tail : List UInt8) :
    utf8Decode ((ToUtf8 c buf).2.take (ToUtf8 c buf).1) = some (c, (ToUtf8 c buf).1)
    ∧ utf8Decode ((ToUtf8 c buf).2.take (ToUtf8 c buf).1 ++ tail)
        = some (c, (ToUtf8 c buf).1)
    ∧ (ToUtf8 c buf).2.take (ToUtf8 c buf).1 = String.utf8EncodeChar (Char.ofNat c) := by
  have hc32 : c < 2 ^ 32 := by
    norm_num
    omega
  rw [ToUtf8_eq c hc32 buf hb, if_neg (by omega)]
  dsimp only
  rw [List.take_left]
  have h := utf8Decode_encoding c hc hs []
  rw [List.append_nil] at h
  exact ⟨h, utf8Decode_encoding c hc hs tail, encoding_eq_core c hc hs⟩

theorem toUtf8_decodes_witness :
    (0x1F600 < 0x110000 ∧ ¬ (0xD800 ≤ 0x1F600 ∧ 0x1F600 ≤ 0xDFFF)
      ∧ 4 ≤ [0, 0, 0, 0, (0 : UInt8)].length) ∧
    (utf8Decode ((ToUtf8 0x1F600 [0, 0, 0, 0, 0]).2.take (ToUtf8 0x1F600 [0, 0, 0, 0, 0]).1)
        = some (0x1F600, (ToUtf8 0x1F600 [0, 0, 0, 0, 0]).1)
    ∧ utf8Decode ((ToUtf8 0x1F600 [0, 0, 0, 0, 0]).2.take (ToUtf8 0x1F600 [0, 0, 0, 0, 0]).1
          ++ [65])
        = some (0x1F600, (ToUtf8 0x1F600 [0, 0, 0, 0, 0]).1)
    ∧ (ToUtf8 0x1F600 [0, 0, 0, 0, 0]).2.take (ToUtf8 0x1F600 [0, 0, 0, 0, 0]).1
        = String.utf8EncodeChar (Char.ofNat 0x1F600)) :=
  ⟨⟨by decide, by decide, by decide⟩,
    toUtf8_decodes 0x1F600 (by decide) (by decide) [0, 0, 0, 0, 0] (by decide) [65]⟩

/-- The runs of `ToUtf8` behind the examples: the euro sign, a surrogate, an
emoji and the first value past the Unicode range. -/
theorem toUtf8_evaluated :
    ToUtf8 0x20AC [0, 0, 0, 0, 0] = (3, [0xE2, 0x82, 0xAC, 0, 0])
    ∧ ToUtf8 0xD800 [0, 0, 0, 0, 0] = (0, [0, 0, 0, 0, 0])
    ∧ ToUtf8 0x1F600 [0, 0, 0, 0, 0] = (4, [0xF0, 0x9F, 0x98, 0x80, 0])
    ∧ ToUtf8 0x110000 [0, 0, 0, 0, 0] = (0, [0, 0, 0, 0, 0])
    ∧ utf8Decode [0xC0, 0x80] = none
    ∧ utf8Decode [0xE2, 0x82, 0xAC, 0x41] = some (0x20AC, 3) := by
  decide

end Chars

namespace Stringx

/-! ## Termination of `strnirepl` -/

/-- Unless the search string and the replacement are both empty, every turn
of the loop shortens what is left to read or what is left of the buffer, so
the loop ends. -/
theorem replLoop_returns (search repl : List UInt8) (hne : ¬ (search = [] ∧ repl = [])) :
    ∀ (fuel : Nat) (inp buf : List UInt8) (out rem : Nat), inp.length + rem + 1 ≤ fuel →
      (replLoop search repl fuel inp buf out rem).isSome = true
  | 0, _, _, _, _, hf => by omega
  | fuel + 1, [], buf, out, rem, _ => by simp [replLoop]
  | fuel + 1, c :: rest, buf, out, 0, _ => by simp [replLoop]
  | fuel + 1, c :: rest, buf, out, rem + 1, hf => by
    unfold replLoop
    simp only [Nat.add_one_ne_zero, if_false]
    simp only [List.length_cons] at hf
    split
    · split
      · rename_i hlt
        apply replLoop_returns search repl hne
        simp only [List.length_drop, List.length_cons]
        by_cases hs : search = []
        · have hr : repl ≠ [] := fun h => hne ⟨hs, h⟩
          have : 1 ≤ repl.length := List.length_pos.2 hr
          omega
        · have : 1 ≤ search.length := List.length_pos.2 hs
          omega
      · apply replLoop_returns search repl hne
        simp only [List.length_drop, List.length_cons]
        omega
    · apply replLoop_returns search repl hne
      simp only [Nat.add_sub_cancel]
      omega

/-- With an empty search string and an empty replacement, a source that is not
empty and room left in the buffer, the loop never ends. -/
theorem replLoop_stuck (c : UInt8) (rest : List UInt8) (rem : Nat) :
    ∀ (fuel : Nat) (buf : List UInt8) (out : Nat),
      replLoop [] [] fuel (c :: rest) buf out (rem + 1) = none := by
  intro fuel
  induction fuel with
  | zero => intro buf out; rfl
  | succ n ih =>
    intro buf out
    unfold replLoop
    simp [strnieq, ih]

/-- C26 fails on the code: `strnirepl` returns, for some amount of fuel, if
and only if it is not the case that the search string and the replacement are
both empty while the source is not empty and the buffer has at least 2 bytes.
In that case the loop never ends; in every other case it does. -/
theorem strnirepl_terminates_iff (buf pszString pszSearch pszReplace : List UInt8) (L : Nat) :
    (∃ fuel, (strnirepl fuel buf L pszString pszSearch pszReplace).isSome = true)
      ↔ ¬ (pszSearch = [] ∧ pszReplace = [] ∧ pszString ≠ [] ∧ 2 ≤ L) := by
  constructor
  · rintro ⟨fuel, h⟩ ⟨hs, hr, hin, hL⟩
    subst hs hr
    obtain ⟨c, rest, rfl⟩ := List.exists_cons_of_ne_nil hin
    obtain ⟨k, rfl⟩ : ∃ k, L = k + 2 := ⟨L - 2, by omega⟩
    unfold strnirepl at h
    simp only [Nat.add_one_ne_zero, if_false] at h
    rw [show k + 2 - 1 = k + 1 by omega, replLoop_stuck] at h
    cases h
  · intro hn
    unfold strnirepl
    by_cases hL : L = 0
    · exact ⟨0, by simp [hL]⟩
    · simp only [hL, if_false]
      by_cases he : pszSearch = [] ∧ pszReplace = []
      · obtain ⟨hs, hr⟩ := he
        refine ⟨1, ?_⟩
        cases pszString with
        | nil => simp [replLoop]
        | cons c rest =>
          have h1 : L - 1 = 0 := by
            have : ¬ 2 ≤ L := fun h2 => hn ⟨hs, hr, by simp, h2⟩
            omega
          simp [replLoop, h1]
      · exact ⟨pszString.length + (L - 1) + 1,
          replLoop_returns pszSearch pszReplace he _ _ _ _ _ (le_refl _)⟩

end Stringx

namespace Detab

/-! ## The mode applied when the source is standard input -/

theorem renameOrFail_error {r : Run} {a b : String} {m : Msg} {e : Outcome}
    (h : renameOrFail r a b m = .error e) :
    e.trace = r.trace ++ [⟨.rename a b, false, (r.w.rename a b).1⟩] := by
  unfold renameOrFail at h
  dsimp only at h
  split at h
  · cases h
  · rename_i hb
    cases h
    simp only [Bool.not_eq_true] at hb
    simp [Run.fail, Run.finish, Run.say, Run.log, hb]

/-- When `publish` fails, it has made `unlink` and `rename` calls only. -/
theorem publish_error_calls (r : Run) (v : Locals) :
    ∀ e, publish r v = .error e →
      ∃ l, e.trace = r.trace ++ l
        ∧ ∀ x ∈ l, (∃ p, x.call = .unlink p) ∨ (∃ a b, x.call = .rename a b) := by
  have ren : ∀ (r2 : Run) (a b : String) (m : Msg) (l : List Event), r2.trace = r.trace ++ l →
      (∀ x ∈ l, (∃ p, x.call = .unlink p) ∨ (∃ a b, x.call = .rename a b)) →
      ∀ e, renameOrFail r2 a b m = .error e →
        ∃ l, e.trace = r.trace ++ l
          ∧ ∀ x ∈ l, (∃ p, x.call = .unlink p) ∨ (∃ a b, x.call = .rename a b) := by
    intro r2 a b m l hl hall e he
    refine ⟨l ++ [⟨.rename a b, false, (r2.w.rename a b).1⟩], ?_, ?_⟩
    · rw [renameOrFail_error he, hl, List.append_assoc]
    · intro x hx
      rcases List.mem_append.1 hx with hx | hx
      · exact hall x hx
      · simp only [List.mem_singleton] at hx
        subst hx
        exact Or.inr ⟨a, b, rfl⟩
  have one : ∀ (c : Call) (ok : Bool) (w2 : World) (m : Msg),
      ((∃ p, c = .unlink p) ∨ (∃ a b, c = .rename a b)) →
      ∃ l, ((r.log c ok w2).fail m).trace = r.trace ++ l
        ∧ ∀ x ∈ l, (∃ p, x.call = .unlink p) ∨ (∃ a b, x.call = .rename a b) := by
    intro c ok w2 m hc
    refine ⟨[⟨c, ok, w2⟩], by simp [Run.fail, Run.finish, Run.say, Run.log], ?_⟩
    intro x hx
    simp only [List.mem_singleton] at hx
    subst hx
    exact hc
  intro e he
  unfold publish at he
  split at he
  · split at he
    · cases he
      exact ⟨[], by simp [Run.finish], fun x hx => (by cases hx)⟩
    · rename_i out hout
      by_cases hb : v.iBackup = true
      · simp only [hb, if_true] at he
        unfold backupOld at he
        dsimp only at he
        by_cases hu : (r.w.unlink v.szBakName).2 = .failed
        · simp only [hu, if_true] at he
          cases he
          exact one _ _ _ _ (Or.inl ⟨_, rfl⟩)
        · simp only [hu, if_false] at he
          cases hro : renameOrFail (r.log (.unlink v.szBakName)
              (decide ((r.w.unlink v.szBakName).2 = .ok)) (r.w.unlink v.szBakName).1)
              out v.szBakName (.cantBackup out) with
          | error e1 =>
            rw [hro] at he
            cases he
            exact ren _ out v.szBakName (.cantBackup out)
              [⟨.unlink v.szBakName, decide ((r.w.unlink v.szBakName).2 = .ok),
                  (r.w.unlink v.szBakName).1⟩] (by simp [Run.log])
              (by
                intro x hx
                simp only [List.mem_singleton] at hx
                subst hx
                exact Or.inl ⟨_, rfl⟩) _ hro
          | ok r2 =>
            rw [hro] at he
            dsimp only at he
            have h2 := renameOrFail_ok hro
            exact ren r2 v.pszTmpName out (.cantCreate out)
              [⟨.unlink v.szBakName, decide ((r.w.unlink v.szBakName).2 = .ok),
                  (r.w.unlink v.szBakName).1⟩,
                ⟨.rename out v.szBakName, true,
                  ((r.log (.unlink v.szBakName) (decide ((r.w.unlink v.szBakName).2 = .ok))
                    (r.w.unlink v.szBakName).1).w.rename out v.szBakName).1⟩]
              (by rw [h2]; simp [Run.log])
              (by
                intro x hx
                simp only [List.mem_cons, List.mem_singleton, List.not_mem_nil, or_false] at hx
                rcases hx with rfl | rfl
                · exact Or.inl ⟨_, rfl⟩
                · exact Or.inr ⟨_, _, rfl⟩) _ he
      · simp only [hb] at he
        cases hin : v.pszInName with
        | none =>
          rw [hin] at he
          cases he
          exact ⟨[], by simp [Run.finish], fun x hx => (by cases hx)⟩
        | some inp =>
          rw [hin] at he
          dsimp only at he
          unfold removeOld at he
          dsimp only at he
          by_cases hu : (r.w.unlink inp).2 = .ok
          · simp only [hu, if_true] at he
            exact ren _ v.pszTmpName out (.cantCreate out)
              [⟨.unlink inp, true, (r.w.unlink inp).1⟩] (by simp [Run.log])
              (by
                intro x hx
                simp only [List.mem_singleton] at hx
                subst hx
                exact Or.inl ⟨_, rfl⟩) _ he
          · simp only [hu, if_false] at he
            cases he
            exact one _ _ _ _ (Or.inl ⟨_, rfl⟩)
  · cases he

/-- Whatever way the finalize protocol goes for a destination file, the only
`chmod` it makes is on the destination, with the mode of the record `sInTime`. -/
theorem chmod_calls_of_finalize (r : Run) (v : Locals) {out : String} {i : Nat}
    (hdf : v.df = some (.file i)) (hout : v.pszOutName = some out)
    (hq : ∀ e ∈ r.trace, e.call.isFinal = false) :
    ∀ e ∈ (finalize r v).trace, ∀ p m, e.call = .chmod p m →
      p = out ∧ m = v.sInTime.st_mode := by
  have tail : ∀ (r1 : Run), (∀ e ∈ r1.trace, ∀ p m, e.call ≠ .chmod p m) →
      ∀ e ∈ (copyTime (copyMode r1 v) v).trace, ∀ p m, e.call = .chmod p m →
        p = out ∧ m = v.sInTime.st_mode := by
    intro r1 hold e he p m hc
    rw [tail_file r1 v hdf hout] at he
    split at he
    · simp only [Run.log, List.append_assoc, List.singleton_append, List.cons_append,
        List.nil_append] at he
      rcases List.mem_append.1 he with he | he
      · exact absurd hc (hold e he p m)
      · simp only [List.mem_cons, List.mem_singleton, List.not_mem_nil, or_false] at he
        rcases he with rfl | rfl
        · simp only [Call.chmod.injEq] at hc
          exact ⟨hc.1.symm, hc.2.symm⟩
        · cases hc
    · simp only [Run.log] at he
      rcases List.mem_append.1 he with he | he
      · exact absurd hc (hold e he p m)
      · simp only [List.mem_singleton] at he
        subst he
        simp only [Call.chmod.injEq] at hc
        exact ⟨hc.1.symm, hc.2.symm⟩
  intro e he p m hc
  by_cases hun : v.iSameFile = true ∧ v.lnChanges = 0
  · rw [finalize_unchanged r v hun.1 hun.2, (finish0_toRun _ v).2.1] at he
    simp only [Run.log] at he
    rcases List.mem_append.1 he with he | he
    · exact absurd hc ((not_final_of_quiet hq he).1 p m)
    · simp only [List.mem_singleton] at he
      subst he
      cases hc
  · rw [finalize_changed r v hun] at he
    cases hp : publish r v with
    | error x =>
      rw [hp] at he
      obtain ⟨l, hl, hall⟩ := publish_error_calls r v x hp
      dsimp only at he
      rw [hl] at he
      rcases List.mem_append.1 he with he | he
      · exact absurd hc ((not_final_of_quiet hq he).1 p m)
      · exact absurd hc ((not_tail_of_moves hall he).1 p m)
    | ok r1 =>
      rw [hp] at he
      dsimp only at he
      rw [(finish0_toRun _ v).2.1] at he
      obtain ⟨l, hl, hall⟩ := (publish_calls r v).2 r1 hp
      refine tail r1 ?_ e he p m hc
      intro e2 he2
      rw [hl] at he2
      rcases List.mem_append.1 he2 with he2 | he2
      · exact (not_final_of_quiet hq he2).1
      · exact (not_tail_of_moves hall he2).1

/-- C27: when the source is standard input (named `-`) and the destination is
a file `out`, no source file is stat'ed and the record `sInTime` stays
zero-initialised; every `chmod` the run makes is `chmod(out, 0)`; and a run
that returns 0 without having discarded its output as unchanged has made that
call, after which, when it succeeded, the permission bits of the destination
are 0. -/
theorem stdin_source_mode_zero (fuel : Nat) (w : World) (args : List String)
    (o : Options) (msgs : List Msg) (out : String)
    (hp : parseArgs args {} [] = .run o msgs) (hlo : 1 ≤ o.n) (hhi : o.n ≤ 32)
    (hf : 32 ≤ fuel) (hwf : w.WellFormed) (hr : RoutedTo w o out ∨ DirectTo w o out)
    (hin : o.pszInName = some "-") :
    o.srcStat w = {}
    ∧ ∃ r, main fuel w args = some r
      ∧ (∀ e ∈ r.trace, ∀ p m, e.call = .chmod p m → p = out ∧ m = 0)
      ∧ (r.status = .exit 0 → ¬ (o.sameFile w = true ∧ TAB ∉ o.source w) →
          ∃ e ∈ r.trace, e.call = .chmod out 0
            ∧ (e.ok = true →
                ∃ st, r.w.stat out = some st ∧ st.st_mode &&& 0o7777 = 0)) := by
  have hst : o.srcStat w = {} := by simp [Options.srcStat, hin]
  have hmode : (o.srcStat w).st_mode = 0 := by rw [hst]
  refine ⟨hst, ?_⟩
  obtain ⟨x, hx, hcase⟩ := main_to_file fuel hp hlo hhi hf hwf hr
  refine ⟨x, hx, ?_⟩
  rcases hcase with ⟨h2, hq⟩ | ⟨r4, v4, rfl, A⟩
  · refine ⟨fun e he p m hc => absurd hc ((not_final_of_quiet hq he).1 p m), fun h0 => ?_⟩
    rw [h2] at h0
    cases h0
  · obtain ⟨i, hdf⟩ := A.df
    constructor
    · intro e he p m hc
      have h := chmod_calls_of_finalize r4 v4 hdf A.out_name A.quiet e he p m hc
      rw [A.stat, hmode] at h
      exact h
    · intro h0 hch
      have hun : ¬ (v4.iSameFile = true ∧ v4.lnChanges = 0) := by
        rw [A.same, A.changes]
        rintro ⟨h1, h2⟩
        exact hch ⟨h1, List.count_eq_zero.1 h2⟩
      have hsf : v4.sf = .stdin := A.sf_stdin.2 hin
      obtain ⟨r1, l, hfin, _, _⟩ := finalize_exit0 r4 v4 hun h0
      obtain ⟨f1, f2, _, _⟩ := finish0_toRun (copyTime (copyMode r1 v4) v4) v4
      rw [hfin, f1, f2, tail_file r1 v4 hdf A.out_name, A.stat, hmode,
        if_neg (fun h => h.1 hsf)]
      refine ⟨⟨.chmod out 0, (r1.w.chmod out 0).2, (r1.w.chmod out 0).1⟩, by simp [Run.log],
        rfl, ?_⟩
      intro hok
      obtain ⟨st, hs1, hs2⟩ := stat_after_chmod (w := r1.w) hok
      exact ⟨st, hs1, by simpa using hs2⟩

set_option maxRecDepth 100000 in
theorem stdin_source_mode_zero_witness :
    (parseArgs ["-", "c.txt"] {} []
        = .run { pszInName := some "-", pszOutName := some "c.txt" } []
      ∧ (1 : Int) ≤ 8 ∧ (8 : Int) ≤ 32 ∧ 32 ≤ 32 ∧ worldAC.WellFormed
      ∧ (RoutedTo worldAC { pszInName := some "-", pszOutName := some "c.txt" } "c.txt"
          ∨ DirectTo worldAC { pszInName := some "-", pszOutName := some "c.txt" } "c.txt")
      ∧ (some "-" : Option String) = some "-") ∧
    (Options.srcStat { pszInName := some "-", pszOutName := some "c.txt" } worldAC = {}
    ∧ ∃ r, main 32 worldAC ["-", "c.txt"] = some r
      ∧ (∀ e ∈ r.trace, ∀ p m, e.call = .chmod p m → p = "c.txt" ∧ m = 0)
      ∧ (r.status = .exit 0 →
          ¬ (Options.sameFile { pszInName := some "-", pszOutName := some "c.txt" } worldAC
                = true
              ∧ TAB ∉ Options.source { pszInName := some "-", pszOutName := some "c.txt" }
                  worldAC) →
          ∃ e ∈ r.trace, e.call = .chmod "c.txt" 0
            ∧ (e.ok = true →
                ∃ st, r.w.stat "c.txt" = some st ∧ st.st_mode &&& 0o7777 = 0))) :=
  have hr : RoutedTo worldAC { pszInName := some "-", pszOutName := some "c.txt" } "c.txt"
      ∨ DirectTo worldAC { pszInName := some "-", pszOutName := some "c.txt" } "c.txt" :=
    Or.inr ⟨"-", rfl, rfl, by decide, by decide, by decide, fun h => absurd rfl h⟩
  ⟨⟨by decide, by decide, by decide, by decide, worldAC_wellFormed, hr, rfl⟩,
    stdin_source_mode_zero 32 worldAC ["-", "c.txt"]
      { pszInName := some "-", pszOutName := some "c.txt" } [] "c.txt" (by decide) (by decide)
      (by decide) (by decide) worldAC_wellFormed hr rfl⟩

set_option maxRecDepth 100000 in
/-- The run `detab - c.txt`, evaluated: the expansion of standard input is
written to `c.txt`, `chmod("c.txt", 0)` follows and no `utime`; the destination
is left with the permission bits 0. -/
theorem stdin_run_evaluated :
    (main 32 worldAC ["-", "c.txt"]).map (fun r => (r.status, r.calls))
      = some (.exit 0, [(.fopen (some "c.txt") "wb", true),
          (.write 2 [], true), (.chmod "c.txt" 0, true)])
    ∧ (main 32 worldAC ["-", "c.txt"]).map
        (fun r => (r.w.stat "c.txt").map (fun st => st.st_mode &&& 0o7777))
      = some (some 0) := by
  decide

end Detab

namespace Md

/-! ## `mkdirp`: the file system calls -/

theorem isdir_bits (perm : Nat) :
    (S_IFDIR ||| (perm &&& 0o7777)) &&& S_IFMT = S_IFDIR
    ∧ (S_IFREG ||| (perm &&& 0o7777)) &&& S_IFMT = S_IFREG := by
  have h0 : (0o7777 : Nat) &&& 0o170000 = 0 := by decide
  have h1 : (0o170000 : Nat) &&& 0o040000 = 0o040000 := by decide
  have h2 : (0o170000 : Nat) &&& 0o100000 = 0o100000 := by decide
  unfold S_IFDIR S_IFREG S_IFMT
  constructor
  · rw [Nat.and_comm, Nat.and_or_distrib_left, Nat.and_comm 0o170000 (perm &&& 0o7777),
      Nat.and_assoc, h0, h1]
    simp
  · rw [Nat.and_comm, Nat.and_or_distrib_left, Nat.and_comm 0o170000 (perm &&& 0o7777),
      Nat.and_assoc, h0, h2]
    simp

theorem node_mode (n : Node) :
    S_ISLNK n.st_mode = false ∧ (S_ISDIR n.st_mode = true ↔ ∃ perm, n = .dir perm) := by
  cases n with
  | file perm =>
    have h := (isdir_bits perm).2
    simp only [Node.st_mode, S_ISLNK, S_ISDIR, h]
    refine ⟨by decide, ?_⟩
    constructor
    · intro hc
      exact absurd hc (by decide)
    · rintro ⟨p, hp⟩
      cases hp
  | dir perm =>
    have h := (isdir_bits perm).1
    simp only [Node.st_mode, S_ISLNK, S_ISDIR, h]
    exact ⟨by decide, ⟨fun _ => ⟨perm, rfl⟩, fun _ => by decide⟩⟩

/-- In a tree without symbolic links `isdir` returns at once, with what the
tree shows. -/
theorem isdir_eq (fs : FS) (fuel : Nat) (path : List UInt8) :
    isdir fs (fuel + 1) path = some (fs.dirAt path) := by
  unfold isdir FS.lstat FS.dirAt
  cases fs.locate path with
  | none => rfl
  | some x =>
    dsimp only
    cases hn : fs.node x with
    | none => rfl
    | some n =>
      dsimp only
      rw [(node_mode n).1]
      simp only [Bool.false_eq_true, if_false, Option.some.injEq]
      cases n with
      | file perm =>
        have := (node_mode (.file perm)).2
        cases hd : S_ISDIR (Node.file perm).st_mode
        · rfl
        · obtain ⟨p, hp⟩ := this.1 hd
          cases hp
      | dir perm => exact (node_mode (.dir perm)).2.2 ⟨perm, rfl⟩

theorem splitPath_ne_nil (p : List UInt8) : splitPath p ≠ [] := by
  cases p with
  | nil => simp [splitPath]
  | cons c cs =>
    unfold splitPath
    split
    · simp
    · split <;> simp

theorem splitPath_cons (c : UInt8) (cs : List UInt8) :
    splitPath (c :: cs)
      = if c = DIRSEPARATOR_CHAR then [] :: splitPath cs
        else
          match splitPath cs with
          | [] => [[c]]
          | n :: ns => (c :: n) :: ns := rfl

theorem splitPath_append_sep (a b : List UInt8) :
    splitPath (a ++ DIRSEPARATOR_CHAR :: b) = splitPath a ++ splitPath b := by
  induction a with
  | nil => simp [splitPath]
  | cons c a ih =>
    rw [List.cons_append, splitPath_cons, splitPath_cons, ih]
    split
    · rfl
    · cases hs : splitPath a with
      | nil => exact absurd hs (splitPath_ne_nil a)
      | cons n ns => rfl

theorem walk_append (fs : FS) : ∀ (cs1 cs2 cur : List (List UInt8)),
    walk fs cur (cs1 ++ cs2) = (walk fs cur cs1).bind (fun y => walk fs y cs2) := by
  intro cs1
  induction cs1 with
  | nil => intro cs2 cur; rfl
  | cons c cs ih =>
    intro cs2 cur
    simp only [List.cons_append, walk]
    cases fs.node cur with
    | none => rfl
    | some n =>
      cases n with
      | file perm => rfl
      | dir perm =>
        dsimp only
        split
        · exact ih _ _
        · split
          · exact ih _ _
          · exact ih _ _

theorem walk_mono {fs fs2 : FS} (h : fs.Extends fs2) : ∀ (cs cur x : List (List UInt8)),
    walk fs cur cs = some x → walk fs2 cur cs = some x := by
  intro cs
  induction cs with
  | nil => intro cur x hx; exact hx
  | cons c cs ih =>
    intro cur x hx
    simp only [walk] at hx ⊢
    cases hn : fs.node cur with
    | none => rw [hn] at hx; cases hx
    | some n =>
      cases n with
      | file perm => rw [hn] at hx; cases hx
      | dir perm =>
        rw [hn] at hx
        rw [h.2 _ _ hn]
        dsimp only at hx ⊢
        split
        · rename_i hc
          rw [if_pos hc] at hx
          exact ih _ _ hx
        · rename_i hc
          rw [if_neg hc] at hx
          split
          · rename_i hc2
            rw [if_pos hc2] at hx
            exact ih _ _ hx
          · rename_i hc2
            rw [if_neg hc2] at hx
            exact ih _ _ hx

theorem start_eq {fs fs2 : FS} (h : fs2.cwd = fs.cwd) (p : List UInt8) :
    fs2.start p = fs.start p := by
  unfold FS.start
  rw [h]

theorem locate_mono {fs fs2 : FS} (h : fs.Extends fs2) {p : List UInt8}
    {x : List (List UInt8)} (hx : fs.locate p = some x) : fs2.locate p = some x := by
  unfold FS.locate at hx ⊢
  by_cases hp : p = []
  · simp [hp] at hx
  · simp only [hp, if_false] at hx ⊢
    rw [start_eq h.1]
    exact walk_mono h _ _ _ hx

theorem dirAt_iff (fs : FS) (p : List UInt8) :
    fs.dirAt p = true ↔ ∃ x perm, fs.locate p = some x ∧ fs.node x = some (.dir perm) := by
  unfold FS.dirAt
  cases fs.locate p with
  | none => simp
  | some x =>
    dsimp only
    cases hn : fs.node x with
    | none => simp [hn]
    | some n =>
      cases n with
      | file perm => simp [hn]
      | dir perm => simp [hn]

theorem dirAt_mono {fs fs2 : FS} (h : fs.Extends fs2) {p : List UInt8}
    (hd : fs.dirAt p = true) : fs2.dirAt p = true := by
  obtain ⟨x, perm, hx, hn⟩ := (dirAt_iff fs p).1 hd
  exact (dirAt_iff fs2 p).2 ⟨x, perm, locate_mono h hx, h.2 _ _ hn⟩

theorem trailing_empty (cs : List (List UInt8)) :
    ∃ k, cs = (cs.reverse.dropWhile (fun c => decide (c = []))).reverse ++ List.replicate k [] := by
  have h := List.takeWhile_append_dropWhile (fun c : List UInt8 => decide (c = [])) cs.reverse
  have hrep : cs.reverse.takeWhile (fun c => decide (c = []))
      = List.replicate (cs.reverse.takeWhile (fun c => decide (c = []))).length [] := by
    apply List.eq_replicate_iff.2
    refine ⟨rfl, fun b hb => ?_⟩
    simpa using List.mem_takeWhile_imp hb
  refine ⟨(cs.reverse.takeWhile (fun c => decide (c = []))).length, ?_⟩
  have h2 : cs = (cs.reverse.dropWhile (fun c => decide (c = []))).reverse
      ++ (cs.reverse.takeWhile (fun c => decide (c = []))).reverse := by
    rw [← List.reverse_append, h, List.reverse_reverse]
  rw [hrep, List.reverse_replicate] at h2
  exact h2

theorem walk_empties (fs : FS) (y : List (List UInt8)) :
    ∀ k, walk fs y (List.replicate k [])
      = if k = 0 then some y
        else match fs.node y with
          | some (.dir _) => some y
          | _ => none := by
  intro k
  induction k with
  | zero => rfl
  | succ k ih =>
    simp only [List.replicate_succ, walk, Nat.add_one_ne_zero, if_false]
    cases hn : fs.node y with
    | none => rfl
    | some n =>
      cases n with
      | file perm => rfl
      | dir perm =>
        simp only [true_or, if_true]
        rw [ih]
        split
        · rfl
        · rw [hn]

/-- What a call of `mkdir` that returns 0 has found and done. -/
theorem mkdir_ok {fs : FS} {p : List UInt8} {mode : Nat} (h : (fs.mkdir p mode).2 = 0) :
    ∃ init name k cur perm0,
      splitPath p = init ++ name :: List.replicate k []
      ∧ name ≠ [] ∧ name ≠ [46] ∧ name ≠ [46, 46]
      ∧ walk fs (fs.start p) init = some cur
      ∧ fs.node cur = some (.dir perm0)
      ∧ fs.node (cur ++ [name]) = none
      ∧ (fs.mkdir p mode).1.cwd = fs.cwd
      ∧ ∀ x, (fs.mkdir p mode).1.node x
          = if x = cur ++ [name] then
              some (.dir (mode &&& (0o7777 ^^^ (fs.umask &&& 0o7777))))
            else fs.node x := by
  obtain ⟨k, hk⟩ := trailing_empty (splitPath p)
  unfold FS.mkdir at h ⊢
  cases hd : (splitPath p).reverse.dropWhile (fun c => decide (c = [])) with
  | nil =>
    rw [hd] at h
    cases h
  | cons name revInit =>
    rw [hd] at h
    dsimp only at h ⊢
    have hname : name ≠ [] := by
      have := List.head_dropWhile_not (fun c : List UInt8 => decide (c = []))
        (splitPath p).reverse (by rw [hd]; simp)
      simp only [hd, List.head_cons] at this
      simpa using this
    by_cases hb : name = [46] ∨ name = [46, 46] ∨ fs.fault p = true
    · rw [if_pos hb] at h
      cases h
    · rw [if_neg hb] at h ⊢
      cases hw : walk fs (fs.start p) revInit.reverse with
      | none =>
        try rw [hw] at h
        cases h
      | some cur =>
        try rw [hw] at h
        dsimp only at h ⊢
        cases hc : fs.node cur with
        | none =>
          try rw [hc] at h
          cases h
        | some n =>
          cases n with
          | file perm =>
            try rw [hc] at h
            cases h
          | dir perm0 =>
            cases hn : fs.node (cur ++ [name]) with
            | some n2 =>
              try rw [hc] at h
              try rw [hn] at h
              cases h
            | none =>
              try rw [hc] at h
              try rw [hn] at h
              rw [hd] at hk
              refine ⟨revInit.reverse, name, k, cur, perm0, ?_, hname, fun h1 => hb (Or.inl h1),
                fun h2 => hb (Or.inr (Or.inl h2)), hw, hc, hn, ?_, fun x => ?_⟩
              · rw [hk]
                simp
              · simp only [hc, hn]
              · simp only [hc, hn]

/-- A call of `mkdir` that does not return 0 changes nothing. -/
theorem mkdir_failed {fs : FS} {p : List UInt8} {mode : Nat} (h : (fs.mkdir p mode).2 ≠ 0) :
    (fs.mkdir p mode).1 = fs := by
  unfold FS.mkdir at h ⊢
  cases hd : (splitPath p).reverse.dropWhile (fun c => decide (c = [])) with
  | nil => rfl
  | cons name revInit =>
    rw [hd] at h
    dsimp only at h ⊢
    by_cases hb : name = [46] ∨ name = [46, 46] ∨ fs.fault p = true
    · rw [if_pos hb]
    · rw [if_neg hb] at h ⊢
      cases hw : walk fs (fs.start p) revInit.reverse with
      | none => rfl
      | some cur =>
        try rw [hw] at h
        dsimp only at h ⊢
        cases hc : fs.node cur with
        | none => rfl
        | some n =>
          cases n with
          | file perm => rfl
          | dir perm0 =>
            cases hn : fs.node (cur ++ [name]) with
            | some n2 => rfl
            | none =>
              try rw [hc] at h
              try rw [hn] at h
              exact absurd rfl h

theorem mkdir_empty (fs : FS) (mode : Nat) : (fs.mkdir [] mode).2 ≠ 0 := by
  simp [FS.mkdir, splitPath]

theorem start_append (fs : FS) {a : List UInt8} (ha : a ≠ []) (b : List UInt8) :
    fs.start (a ++ b) = fs.start a := by
  cases a with
  | nil => exact absurd rfl ha
  | cons c cs => rfl

/-- A call of `mkdir` that returns 0 has made one directory, at a place that
held nothing, to which the path leads afterwards; the path was no directory
before and is one now. -/
theorem mkdir_made {fs : FS} {p : List UInt8} {mode : Nat} (h : (fs.mkdir p mode).2 = 0) :
    fs.Extends (fs.mkdir p mode).1
    ∧ fs.dirAt p = false ∧ (fs.mkdir p mode).1.dirAt p = true
    ∧ ∃ x perm, (fs.mkdir p mode).1.locate p = some x ∧ fs.node x = none
        ∧ (fs.mkdir p mode).1.node x = some (.dir perm)
        ∧ ∀ y, y ≠ x → (fs.mkdir p mode).1.node y = fs.node y := by
  have hp : p ≠ [] := by
    rintro rfl
    exact mkdir_empty fs mode h
  obtain ⟨init, name, k, cur, perm0, hs, hn0, hn1, hn2, hw, hc, hnew, hcwd, hnode⟩ := mkdir_ok h
  have hext : fs.Extends (fs.mkdir p mode).1 := by
    refine ⟨hcwd, fun x n hx => ?_⟩
    rw [hnode]
    by_cases hxe : x = cur ++ [name]
    · rw [hxe, hnew] at hx
      cases hx
    · rw [if_neg hxe]
      exact hx
  have hnot : ¬ (name = [] ∨ name = [46]) := fun hh => hh.elim hn0 hn1
  have hloc1 : (fs.mkdir p mode).1.locate p = some (cur ++ [name]) := by
    unfold FS.locate
    rw [if_neg hp, hs, walk_append, start_eq hcwd, walk_mono hext _ _ _ hw]
    simp only [Option.some_bind, walk]
    rw [hext.2 _ _ hc]
    simp only [if_neg hnot, if_neg hn2]
    rw [walk_empties]
    split
    · rfl
    · rw [hnode, if_pos rfl]
  have hself : (fs.mkdir p mode).1.node (cur ++ [name])
      = some (.dir (mode &&& (0o7777 ^^^ (fs.umask &&& 0o7777)))) := by
    rw [hnode, if_pos rfl]
  refine ⟨hext, ?_, ?_, cur ++ [name], _, hloc1, hnew, hself, fun y hy => ?_⟩
  · unfold FS.dirAt FS.locate
    rw [if_neg hp, hs, walk_append, hw]
    simp only [Option.some_bind, walk]
    rw [hc]
    simp only [if_neg hnot, if_neg hn2]
    rw [walk_empties]
    by_cases hk0 : k = 0 <;> simp [hk0, hnew]
  · exact (dirAt_iff _ p).2 ⟨_, _, hloc1, hself⟩
  · rw [hnode, if_neg hy]

/-- A directory reached through the components `A` and then `B` is reached
through a directory at the end of `A`. -/
theorem walk_through {fs : FS} {s x : List (List UInt8)} {A B : List (List UInt8)} {perm : Nat}
    (hw : walk fs s (A ++ B) = some x) (hx : fs.node x = some (.dir perm)) :
    ∃ y perm2, walk fs s A = some y ∧ fs.node y = some (.dir perm2) := by
  rw [walk_append] at hw
  cases hy : walk fs s A with
  | none => rw [hy] at hw; cases hw
  | some y =>
    rw [hy] at hw
    simp only [Option.some_bind] at hw
    cases B with
    | nil =>
      simp only [walk, Option.some.injEq] at hw
      subst hw
      exact ⟨y, perm, rfl, hx⟩
    | cons c cs =>
      simp only [walk] at hw
      cases hn : fs.node y with
      | none => rw [hn] at hw; cases hw
      | some n =>
        cases n with
        | file p2 => rw [hn] at hw; cases hw
        | dir p2 => exact ⟨y, p2, rfl, hn⟩

theorem walk_then_empty {fs : FS} {s y : List (List UInt8)} {A : List (List UInt8)} {perm : Nat}
    (hw : walk fs s A = some y) (hy : fs.node y = some (.dir perm)) :
    walk fs s (A ++ [[]]) = some y := by
  rw [walk_append, hw]
  simp [walk, hy]

/-- A path that is a directory is one before each of its separators. -/
theorem dirAt_before_sep {fs : FS} {a b : List UInt8} (ha : a ≠ [])
    (hd : fs.dirAt (a ++ DIRSEPARATOR_CHAR :: b) = true) : fs.dirAt a = true := by
  obtain ⟨x, perm, hl, hn⟩ := (dirAt_iff _ _).1 hd
  unfold FS.locate at hl
  rw [if_neg (by simp), splitPath_append_sep, start_append fs ha] at hl
  obtain ⟨y, perm2, hy, hny⟩ := walk_through hl hn
  refine (dirAt_iff _ _).2 ⟨y, perm2, ?_, hny⟩
  unfold FS.locate
  rw [if_neg ha]
  exact hy

/-- A path that is a directory is one up to and with each of its
separators. -/
theorem dirAt_with_sep {fs : FS} {a b : List UInt8}
    (hd : fs.dirAt (a ++ DIRSEPARATOR_CHAR :: b) = true) :
    fs.dirAt (a ++ [DIRSEPARATOR_CHAR]) = true := by
  obtain ⟨x, perm, hl, hn⟩ := (dirAt_iff _ _).1 hd
  unfold FS.locate at hl
  rw [if_neg (by simp), splitPath_append_sep] at hl
  obtain ⟨y, perm2, hy, hny⟩ := walk_through hl hn
  refine (dirAt_iff _ _).2 ⟨y, perm2, ?_, hny⟩
  unfold FS.locate
  rw [if_neg (by simp), splitPath_append_sep]
  have hst : fs.start (a ++ [DIRSEPARATOR_CHAR]) = fs.start (a ++ DIRSEPARATOR_CHAR :: b) := by
    cases a with
    | nil => rfl
    | cons c cs => rfl
  rw [hst]
  exact walk_then_empty hy hny

/-- A directory stays one with a separator behind its path. -/
theorem dirAt_trailing_sep {fs : FS} {p : List UInt8} (hp : p ≠ [])
    (hd : fs.dirAt p = true) : fs.dirAt (p ++ [DIRSEPARATOR_CHAR]) = true := by
  obtain ⟨x, perm, hl, hn⟩ := (dirAt_iff _ _).1 hd
  unfold FS.locate at hl
  rw [if_neg hp] at hl
  refine (dirAt_iff _ _).2 ⟨x, perm, ?_, hn⟩
  unfold FS.locate
  rw [if_neg (by simp), splitPath_append_sep, start_append fs hp]
  exact walk_then_empty hl hn

theorem cut_at {path : List UInt8} {k : Nat} (hk : k < path.length) :
    path = path.take k ++ path.getD k 0 :: path.drop (k + 1) := by
  rw [List.getD_eq_getElem _ _ hk, ← List.drop_eq_getElem_cons hk, List.take_append_drop]

/-- A path that is a directory is one at every cut that gives an ancestor
prefix. -/
theorem dirAt_cut {fs : FS} {path : List UInt8} {k : Nat} (hc : AncestorCut path k)
    (hd : fs.dirAt path = true) : fs.dirAt (path.take k) = true := by
  obtain ⟨h1, h2, h3⟩ := hc
  by_cases hk : k = path.length
  · rw [hk, List.take_length]
    exact hd
  · have hlt : k < path.length := by omega
    rcases h3 with h3 | h3 | h3
    · exact absurd h3 hk
    · have hp := cut_at hlt
      rw [h3] at hp
      rw [hp] at hd
      refine dirAt_before_sep (fun he => ?_) hd
      rcases List.take_eq_nil_iff.1 he with h0 | h0
      · omega
      · rw [h0] at hlt
        simp at hlt
    · have hlt2 : k - 1 < path.length := by omega
      have hp := cut_at hlt2
      rw [h3, show k - 1 + 1 = k by omega] at hp
      have ht : path.take k = path.take (k - 1) ++ [DIRSEPARATOR_CHAR] := by
        conv_lhs => rw [hp]
        rw [List.take_append_eq_append_take, List.length_take,
          Nat.min_eq_left (by omega), show k - (k - 1) = 1 by omega]
        rw [List.take_of_length_le (by rw [List.length_take]; omega)]
        rfl
      rw [ht]
      rw [hp] at hd
      exact dirAt_with_sep hd

theorem skipWhile_spec (p : UInt8 → Bool) : ∀ (l : List UInt8) (pc : Nat),
    pc ≤ skipWhile p l pc ∧ skipWhile p l pc ≤ pc + l.length
    ∧ (skipWhile p l pc < pc + l.length → p (l.getD (skipWhile p l pc - pc) 0) = false) := by
  intro l
  induction l with
  | nil => intro pc; simp [skipWhile]
  | cons c rest ih =>
    intro pc
    unfold skipWhile
    by_cases hc : p c = true
    · rw [if_pos hc]
      obtain ⟨h1, h2, h3⟩ := ih (pc + 1)
      refine ⟨by omega, by simp only [List.length_cons]; omega, fun hlt => ?_⟩
      have h4 := h3 (by simp only [List.length_cons] at hlt; omega)
      obtain ⟨j, hj⟩ : ∃ j, skipWhile p rest (pc + 1) - pc = j + 1 :=
        ⟨skipWhile p rest (pc + 1) - pc - 1, by omega⟩
      rw [hj, List.getD_cons_succ]
      rw [show skipWhile p rest (pc + 1) - (pc + 1) = j by omega] at h4
      exact h4
    · rw [if_neg hc]
      refine ⟨le_refl _, by omega, fun _ => ?_⟩
      simpa using hc

theorem skipWhile_step (p : UInt8 → Bool) (c : UInt8) (rest : List UInt8) (pc : Nat) :
    (p c = true → pc + 1 ≤ skipWhile p (c :: rest) pc)
    ∧ (p c = false → skipWhile p (c :: rest) pc = pc) := by
  constructor
  · intro hc
    unfold skipWhile
    rw [if_pos hc]
    exact (skipWhile_spec p rest (pc + 1)).1
  · intro hc
    unfold skipWhile
    rw [if_neg (by simp [hc])]

theorem getD_drop (path : List UInt8) (a j : Nat) :
    (path.drop a).getD j 0 = path.getD (a + j) 0 := by
  simp [List.getD_eq_getElem?_getD, List.getElem?_drop]

theorem getD_ne_zero {path : List UInt8} (h0 : (0 : UInt8) ∉ path) {i : Nat}
    (hi : i < path.length) : path.getD i 0 ≠ 0 := by
  rw [List.getD_eq_getElem _ _ hi]
  intro h
  exact h0 (h ▸ List.getElem_mem hi)

theorem lt_of_getD_ne_zero {path : List UInt8} {i : Nat} (h : path.getD i 0 ≠ 0) :
    i < path.length := by
  by_contra hlt
  exact h (List.getD_eq_default _ _ (by omega))

/-- The two inner loops of `mkdirp` move `pc` to the end of the next
component: past at least one character, to the end of the path or to a
separator. -/
theorem next_cut {path : List UInt8} (h0 : (0 : UInt8) ∉ path) {pc : Nat}
    (hpc : pc < path.length) :
    pc + 1 ≤ skipWhile (fun c => c ≠ 0 && c ≠ DIRSEPARATOR_CHAR)
        (path.drop (skipWhile (fun c => c = DIRSEPARATOR_CHAR) (path.drop pc) pc))
        (skipWhile (fun c => c = DIRSEPARATOR_CHAR) (path.drop pc) pc)
    ∧ skipWhile (fun c => c ≠ 0 && c ≠ DIRSEPARATOR_CHAR)
        (path.drop (skipWhile (fun c => c = DIRSEPARATOR_CHAR) (path.drop pc) pc))
        (skipWhile (fun c => c = DIRSEPARATOR_CHAR) (path.drop pc) pc) ≤ path.length
    ∧ (skipWhile (fun c => c ≠ 0 && c ≠ DIRSEPARATOR_CHAR)
        (path.drop (skipWhile (fun c => c = DIRSEPARATOR_CHAR) (path.drop pc) pc))
        (skipWhile (fun c => c = DIRSEPARATOR_CHAR) (path.drop pc) pc) = path.length
      ∨ path.getD (skipWhile (fun c => c ≠ 0 && c ≠ DIRSEPARATOR_CHAR)
        (path.drop (skipWhile (fun c => c = DIRSEPARATOR_CHAR) (path.drop pc) pc))
        (skipWhile (fun c => c = DIRSEPARATOR_CHAR) (path.drop pc) pc)) 0
          = DIRSEPARATOR_CHAR) := by
  obtain ⟨a1, a2, _⟩ := skipWhile_spec (fun c => c = DIRSEPARATOR_CHAR) (path.drop pc) pc
  have hstep := skipWhile_step (fun c => c = DIRSEPARATOR_CHAR) (path.getD pc 0)
    (path.drop (pc + 1)) pc
  have hd : path.drop pc = path.getD pc 0 :: path.drop (pc + 1) := by
    rw [List.getD_eq_getElem _ _ hpc, ← List.drop_eq_getElem_cons hpc]
  rw [← hd] at hstep
  generalize skipWhile (fun c => c = DIRSEPARATOR_CHAR) (path.drop pc) pc = pc1 at a1 a2 hstep ⊢
  rw [List.length_drop] at a2
  obtain ⟨b1, b2, b3⟩ := skipWhile_spec (fun c => c ≠ 0 && c ≠ DIRSEPARATOR_CHAR)
    (path.drop pc1) pc1
  have hstep2 := fun (c : UInt8) (rest : List UInt8) =>
    skipWhile_step (fun c => c ≠ 0 && c ≠ DIRSEPARATOR_CHAR) c rest pc1
  generalize hg : skipWhile (fun c => c ≠ 0 && c ≠ DIRSEPARATOR_CHAR) (path.drop pc1) pc1 = pc2
    at b1 b2 b3 ⊢
  rw [List.length_drop] at b2 b3
  refine ⟨?_, by omega, ?_⟩
  · by_cases hsep : path.getD pc 0 = DIRSEPARATOR_CHAR
    · have := hstep.1 (decide_eq_true hsep)
      omega
    · have h1 : pc1 = pc := hstep.2 (decide_eq_false hsep)
      subst h1
      have h2 := (hstep2 (path.getD pc1 0) (path.drop (pc1 + 1))).1
        (by rw [Bool.and_eq_true]
            exact ⟨decide_eq_true (getD_ne_zero h0 hpc), decide_eq_true hsep⟩)
      rw [← hd, hg] at h2
      exact h2
  · by_cases hlt : pc2 = path.length
    · exact Or.inl hlt
    · right
      have h3 := b3 (by omega)
      rw [getD_drop, show pc1 + (pc2 - pc1) = pc2 by omega] at h3
      have hnz := getD_ne_zero h0 (show pc2 < path.length by omega)
      by_contra hne
      have ht : (decide (path.getD pc2 0 ≠ 0) && decide (path.getD pc2 0 ≠ DIRSEPARATOR_CHAR))
          = true := by
        rw [Bool.and_eq_true]
        exact ⟨decide_eq_true hnz, decide_eq_true hne⟩
      rw [ht] at h3
      cases h3

theorem extends_refl (fs : FS) : fs.Extends fs := ⟨rfl, fun _ _ h => h⟩

theorem extends_trans {a b c : FS} (h1 : a.Extends b) (h2 : b.Extends c) : a.Extends c :=
  ⟨h2.1.trans h1.1, fun x n hx => h2.2 x n (h1.2 x n hx)⟩

theorem madeFor_refl (path : List UInt8) (fs : FS) : MadeFor path fs fs :=
  ⟨extends_refl fs, fun _ hx => absurd rfl hx⟩

/-- One more directory made by `mkdir` at an ancestor prefix of the path. -/
theorem madeFor_mkdir {path : List UInt8} {fs0 fs : FS} {k mode : Nat}
    (hm : MadeFor path fs0 fs) (hk : AncestorCut path k)
    (h : (fs.mkdir (path.take k) mode).2 = 0) :
    MadeFor path fs0 (fs.mkdir (path.take k) mode).1 := by
  obtain ⟨hext, hnd, _, x, perm, hloc, hnone, hdir, hother⟩ := mkdir_made h
  refine ⟨extends_trans hm.1 hext, fun y hy => ?_⟩
  by_cases hyx : y = x
  · subst hyx
    have h0 : fs0.node y = none := by
      cases h0 : fs0.node y with
      | none => rfl
      | some n =>
        have := hm.1.2 y n h0
        rw [hnone] at this
        cases this
    refine ⟨h0, ⟨perm, hdir⟩, k, hk, hloc, ?_⟩
    cases hd0 : fs0.dirAt (path.take k) with
    | false => rfl
    | true =>
      have := dirAt_mono hm.1 hd0
      rw [hnd] at this
      cases this
  · rw [hother y hyx] at hy
    obtain ⟨g1, ⟨p2, g2⟩, k2, g3, g4, g5⟩ := hm.2 y hy
    exact ⟨g1, ⟨p2, by rw [hother y hyx]; exact g2⟩, k2, g3, locate_mono hext g4, g5⟩

/-- The loop of `mkdirp`, from any index before the end of the path: it
returns; what it has made are directories for the path; and when it returns 0
the path is a directory. -/
theorem mkdirpLoop_spec (fuelI : Nat) (path : List UInt8) (mode : Nat) (verbose : Bool)
    (h0 : (0 : UInt8) ∉ path) (fs0 : FS) :
    ∀ (fuel : Nat) (fs : FS) (out : List (List UInt8)) (pc : Nat) (iSkip : Bool),
      pc < path.length → path.length ≤ fuel + pc → MadeFor path fs0 fs →
      ∃ r fs2 out2,
        mkdirpLoop (fuelI + 1) path mode verbose fuel fs out pc 0 iSkip = some (r, fs2, out2)
        ∧ MadeFor path fs0 fs2 ∧ (r = 0 → fs2.dirAt path = true) := by
  intro fuel
  induction fuel with
  | zero =>
    intro fs out pc iSkip hpc hf
    omega
  | succ fuel ih =>
    intro fs out pc iSkip hpc hf hm
    obtain ⟨hprog, hle, hbd⟩ := next_cut h0 hpc
    unfold mkdirpLoop
    dsimp only
    generalize skipWhile (fun c => c ≠ 0 && c ≠ DIRSEPARATOR_CHAR)
        (path.drop (skipWhile (fun c => c = DIRSEPARATOR_CHAR) (path.drop pc) pc))
        (skipWhile (fun c => c = DIRSEPARATOR_CHAR) (path.drop pc) pc) = pc2 at hprog hle hbd ⊢
    have hcut : AncestorCut path pc2 := ⟨by omega, hle, by
      rcases hbd with h | h
      · exact Or.inl h
      · exact Or.inr (Or.inl h)⟩
    have hne : path.take pc2 ≠ [] := by
      intro he
      rcases List.take_eq_nil_iff.1 he with h | h
      · omega
      · rw [h] at hpc
        simp at hpc
    -- what follows the test of one component
    have fin : ∀ (fs2 : FS) (out2 : List (List UInt8)) (skip2 : Bool),
        MadeFor path fs0 fs2 → fs2.dirAt (path.take pc2) = true →
        ∃ r fs3 out3,
          (if (path.getD pc2 0 ≠ 0 && path.getD (pc2 + 1) 0 = 0) = true then some (0, fs2, out2)
            else if path.getD pc2 0 ≠ 0 then
              mkdirpLoop (fuelI + 1) path mode verbose fuel fs2 out2 pc2 0 skip2
            else some ((0 : Int), fs2, out2)) = some (r, fs3, out3)
          ∧ MadeFor path fs0 fs3 ∧ (r = 0 → fs3.dirAt path = true) := by
      intro fs2 out2 skip2 hm2 hd2
      by_cases hc : path.getD pc2 0 = 0
      · have hall : path.take pc2 = path := by
          apply List.take_of_length_le
          by_contra hlt
          exact getD_ne_zero h0 (show pc2 < path.length by omega) hc
        rw [hall] at hd2
        refine ⟨0, fs2, out2, ?_, hm2, fun _ => hd2⟩
        rw [if_neg (by
          rw [Bool.and_eq_true]
          rintro ⟨h, _⟩
          exact (of_decide_eq_true h) hc), if_neg (not_not.2 hc)]
      · have hlt := lt_of_getD_ne_zero hc
        by_cases hlast : path.getD (pc2 + 1) 0 = 0
        · have hlen : path.length = pc2 + 1 := by
            by_contra hx
            exact getD_ne_zero h0 (show pc2 + 1 < path.length by omega) hlast
          have hsep : path.getD pc2 0 = DIRSEPARATOR_CHAR := by
            rcases hbd with h | h
            · omega
            · exact h
          have hp := cut_at hlt
          rw [hsep, List.drop_of_length_le (by omega)] at hp
          refine ⟨0, fs2, out2, ?_, hm2, fun _ => ?_⟩
          · rw [if_pos (by
              rw [Bool.and_eq_true]
              exact ⟨decide_eq_true hc, decide_eq_true hlast⟩)]
          · rw [hp]
            exact dirAt_trailing_sep hne hd2
        · obtain ⟨r, fs3, out3, h1, h2, h3⟩ := ih fs2 out2 pc2 skip2 hlt (by omega) hm2
          refine ⟨r, fs3, out3, ?_, h2, h3⟩
          rw [if_neg (by
            rw [Bool.and_eq_true]
            rintro ⟨_, h⟩
            exact hlast (of_decide_eq_true h)), if_pos hc, h1]
    rw [isdir_eq]
    by_cases hcreate : iSkip = true ∨ fs.dirAt (path.take pc2) = false
    · have hc2 : (if iSkip = true then some true
          else Option.map (fun b => !b) (some (fs.dirAt (path.take pc2)))) = some true := by
        rcases hcreate with h | h
        · simp [h]
        · simp [h]
      rw [hc2]
      dsimp only [mkdir1]
      by_cases hr : (fs.mkdir (path.take pc2) mode).2 = 0
      · have hm2 := madeFor_mkdir hm hcut hr
        have hd2 := (mkdir_made hr).2.2.1
        rw [if_neg (by simp [hr])]
        rw [hr]
        exact fin _ _ true hm2 hd2
      · rw [if_pos hr]
        refine ⟨_, _, _, rfl, ?_, fun h => absurd h hr⟩
        rw [mkdir_failed hr]
        exact hm
    · have hs : iSkip = false := by
        cases iSkip
        · rfl
        · exact absurd (Or.inl rfl) hcreate
      have hd : fs.dirAt (path.take pc2) = true := by
        cases hd : fs.dirAt (path.take pc2)
        · exact absurd (Or.inr hd) hcreate
        · rfl
      subst hs
      simp only [Bool.false_eq_true, if_false, hd, Option.map_some', Bool.not_true]
      exact fin fs out false hm hd

/-- The function `mkdirp` on a path that is not empty: it returns; where the
file system differs afterwards, a directory was made for the path; and when it
returns 0 the path is a directory. -/
theorem mkdirp_spec (fs : FS) (path : List UInt8) (mode : Nat) (verbose : Bool) (fuel : Nat)
    (hne : path ≠ []) (h0 : (0 : UInt8) ∉ path) (hf : path.length ≤ fuel) :
    ∃ r fs2 out, mkdirp fuel fs path mode verbose = some (r, fs2, out)
      ∧ MadeFor path fs fs2 ∧ (r = 0 → fs2.dirAt path = true) := by
  have hlen : 0 < path.length := List.length_pos.2 hne
  obtain ⟨fuelI, rfl⟩ : ∃ n, fuel = n + 1 := ⟨fuel - 1, by omega⟩
  unfold mkdirp
  dsimp only
  split
  · rename_i hdrive
    simp only [Bool.and_eq_true, decide_eq_true_eq] at hdrive
    have h2 : path.getD 2 0 ≠ 0 := by
      rw [hdrive.2]
      decide
    rw [if_pos h2]
    exact mkdirpLoop_spec fuelI path mode verbose h0 fs (fuelI + 1) fs [] 2 false
      (lt_of_getD_ne_zero h2) (by omega) (madeFor_refl path fs)
  · rw [if_pos (getD_ne_zero h0 hlen)]
    exact mkdirpLoop_spec fuelI path mode verbose h0 fs (fuelI + 1) fs [] 0 false hlen
      (by omega) (madeFor_refl path fs)

/-- C21: for every path that is not empty `mkdirp` returns, and if it returns
0 then afterwards the path and every one of its ancestor prefixes is an
existing directory (`isdir` says so). Whatever it returns, the only change it
has made to the file system are directories it created: each at a place that
held nothing, and that is where the path or an ancestor prefix of it leads
which was not a directory before the call; everything that existed is as it
was. -/
theorem mkdirp_makes_the_path (fs : FS) (path : List UInt8) (mode : Nat) (verbose : Bool)
    (fuel : Nat) (hne : path ≠ []) (h0 : (0 : UInt8) ∉ path) (hf : path.length ≤ fuel) :
    ∃ r fs2 out, mkdirp fuel fs path mode verbose = some (r, fs2, out)
      ∧ (r = 0 → ∀ k, AncestorCut path k → isdir fs2 fuel (path.take k) = some true)
      ∧ (∀ x, fs2.node x ≠ fs.node x →
          fs.node x = none ∧ (∃ perm, fs2.node x = some (.dir perm))
          ∧ ∃ k, AncestorCut path k ∧ fs2.locate (path.take k) = some x
              ∧ isdir fs fuel (path.take k) = some false)
      ∧ fs2.cwd = fs.cwd ∧ (∀ x n, fs.node x = some n → fs2.node x = some n) := by
  obtain ⟨r, fs2, out, hrun, hm, hd⟩ := mkdirp_spec fs path mode verbose fuel hne h0 hf
  have hlen : 0 < path.length := List.length_pos.2 hne
  obtain ⟨fuelI, rfl⟩ : ∃ n, fuel = n + 1 := ⟨fuel - 1, by omega⟩
  refine ⟨r, fs2, out, hrun, fun hr k hk => ?_, fun x hx => ?_, hm.1.1, hm.1.2⟩
  · rw [isdir_eq, dirAt_cut hk (hd hr)]
  · obtain ⟨g1, g2, k, g3, g4, g5⟩ := hm.2 x hx
    exact ⟨g1, g2, k, g3, g4, by rw [isdir_eq, g5]⟩

set_option maxRecDepth 100000 in
theorem mkdirp_makes_the_path_witness :
    (([97, 47, 98] : List UInt8) ≠ [] ∧ (0 : UInt8) ∉ ([97, 47, 98] : List UInt8)
      ∧ ([97, 47, 98] : List UInt8).length ≤ 3) ∧
    ∃ r fs2 out, mkdirp 3 fsD [97, 47, 98] 0o777 false = some (r, fs2, out)
      ∧ (r = 0 → ∀ k, AncestorCut [97, 47, 98] k →
          isdir fs2 3 (List.take k [97, 47, 98]) = some true)
      ∧ (∀ x, fs2.node x ≠ fsD.node x →
          fsD.node x = none ∧ (∃ perm, fs2.node x = some (.dir perm))
          ∧ ∃ k, AncestorCut [97, 47, 98] k ∧ fs2.locate (List.take k [97, 47, 98]) = some x
              ∧ isdir fsD 3 (List.take k [97, 47, 98]) = some false)
      ∧ fs2.cwd = fsD.cwd ∧ (∀ x n, fsD.node x = some n → fs2.node x = some n) :=
  ⟨⟨by decide, by decide, by decide⟩,
    mkdirp_makes_the_path fsD [97, 47, 98] 0o777 false 3 (by decide) (by decide) (by decide)⟩

set_option maxRecDepth 100000 in
/-- C22 fails on the code for a path with two trailing separators. In the
directory `/d`, which holds no `a`, `mkdirp` on the path `a//` makes the
directory `/d/a` and then returns -1: after the component `a` it goes on to
the whole path `a//` and, having just made a directory, does not test it but
calls `mkdir` on it, which fails since the directory exists. With one trailing
separator (`a/`) it makes the directory and returns 0; and on `/d//`, where
nothing is to be made, it returns 0. -/
theorem mkdirp_two_trailing_separators :
    fsD.node [[100], [97]] = none
    ∧ (mkdirp 4 fsD [97, 47, 47] 0o777 true).map
          (fun r => (r.1, r.2.1.node [[100], [97]], r.2.2))
        = some (-1, some (.dir 0o777), [[97, 47], [97, 47, 47]])
    ∧ (mkdirp 4 fsD [97, 47] 0o777 true).map
          (fun r => (r.1, r.2.1.node [[100], [97]], r.2.2))
        = some (0, some (.dir 0o777), [[97, 47]])
    ∧ (mkdirp 5 fsD [47, 100, 47, 47] 0o777 true).map (fun r => (r.1, r.2.2))
        = some (0, []) := by
  decide

end Md
